import Mathlib

/-!
komp-geom: convex hull, Delaunay triangulation and polygon boolean operations

A shallow embedding of the geometry kernels of `convex_hull.cpp`, `delaunay.cpp` and
`polygon_operations.cpp`, followed by the properties established about them.

Modelling conventions
* A C++ `double` is an exact rational number: rounding and overflow are not modelled.
  Where the source divides by a value that can be zero, the IEEE 754 outcome
  (an infinity or a NaN) is modelled explicitly by the type `Dbl`.
* A `std::vector` is a `List`; `v[i]` is `List.getD v i default`, every access of the
  source being in range.
* Indices (`int` in the source) are natural numbers: every index the code builds is a
  vector size, a loop counter, or the minimum or maximum of earlier indices.
* `update()` only schedules a repaint and has no effect on the modelled state.
-/

/-- Qt value type `QPointF`: a pair of `double` coordinates. -/
structure QPointF where
  x : ℚ
  y : ℚ
deriving DecidableEq, Repr

instance : Inhabited QPointF := ⟨⟨0, 0⟩⟩

namespace ConvexHull

/-- Class `Point` of `convex_hull.h`. -/
structure Point where
  pos : QPointF
  isDragging : Bool := false
deriving DecidableEq, Repr

instance : Inhabited Point := ⟨⟨default, false⟩⟩

/-- Data members of `ConvexHullWidget` (`convex_hull.h`). -/
structure ConvexHullWidget where
  points : List Point
  convexHull : List QPointF
  onlineMode : Bool
deriving DecidableEq, Repr

/-- `ConvexHullWidget::orientation`: 0 collinear, 1 clockwise, 2 counter-clockwise. -/
def orientation (p q r : QPointF) : Int :=
  let val := (q.y - p.y) * (r.x - q.x) - (q.x - p.x) * (r.y - q.y)
  if val = 0 then 0 else if val > 0 then 1 else 2

/-- The first loop of `computeConvexHull`: index of the lowest point (smallest y, then
smallest x), the first such index winning. -/
def findStartIndex (points : List Point) : Nat :=
  (List.range' 1 (points.length - 1)).foldl
    (fun startIndex i =>
      if (points.getD i default).pos.y < (points.getD startIndex default).pos.y ∨
          ((points.getD i default).pos.y = (points.getD startIndex default).pos.y ∧
            (points.getD i default).pos.x < (points.getD startIndex default).pos.x)
      then i else startIndex)
    0

/-- Body of the do-while loop after `push_back`: starting from `(current + 1) % n`, the
inner `for` loop replaces `next` by every `i` with
`orientation(points[current], points[i], points[next]) == 2`. -/
def nextIndex (points : List Point) (current : Nat) : Nat :=
  (List.range points.length).foldl
    (fun next i =>
      if orientation (points.getD current default).pos (points.getD i default).pos
          (points.getD next default).pos = 2
      then i else next)
    ((current + 1) % points.length)

/-- The do-while loop of `computeConvexHull`, with a bound `fuel` on the number of
iterations; `none` when the bound is reached before `current == startIndex`. -/
def wrapLoop (points : List Point) (startIndex : Nat) :
    Nat → Nat → List Nat → Option (List Nat)
  | 0, _, _ => none
  | fuel + 1, current, hullIndices =>
    let hullIndices := hullIndices ++ [current]
    let next := nextIndex points current
    if next ≠ startIndex then wrapLoop points startIndex fuel next hullIndices
    else some hullIndices

/-- `ConvexHullWidget::computeConvexHull`; `none` when the gift-wrapping loop does not
finish within `fuel` iterations. -/
def computeConvexHull (fuel : Nat) (w : ConvexHullWidget) : Option ConvexHullWidget :=
  if w.points.length < 3 then
    some { w with convexHull := [] }
  else
    let startIndex := findStartIndex w.points
    match wrapLoop w.points startIndex fuel startIndex [] with
    | none => none
    | some hullIndices =>
      some { w with convexHull := hullIndices.map (fun idx => (w.points.getD idx default).pos) }

/-- Convexity as the hull is wound: no three cyclically consecutive vertices turn
clockwise. -/
def NoClockwiseTurn (hull : List QPointF) : Prop :=
  ∀ k, k < hull.length →
    orientation (hull.getD k default) (hull.getD ((k + 1) % hull.length) default)
      (hull.getD ((k + 2) % hull.length) default) ≠ 1

/-- Containment: `p` is on or to the counter-clockwise side of every directed hull edge. -/
def OnOrInside (hull : List QPointF) (p : QPointF) : Prop :=
  ∀ k, k < hull.length →
    orientation (hull.getD k default) (hull.getD ((k + 1) % hull.length) default) p ≠ 1

instance (hull : List QPointF) : Decidable (NoClockwiseTurn hull) := by
  unfold NoClockwiseTurn; infer_instance

instance (hull : List QPointF) (p : QPointF) : Decidable (OnOrInside hull p) := by
  unfold OnOrInside; infer_instance

/-- Widget state holding the given positions, with no hull stored yet. -/
def widgetOf (ps : List (ℚ × ℚ)) : ConvexHullWidget :=
  { points := ps.map (fun c => ⟨⟨c.1, c.2⟩, false⟩), convexHull := [], onlineMode := false }

/-- Point list on which the hull has a clockwise turn. -/
def clockwiseInput : List (ℚ × ℚ) :=
  [(0, 300), (0, 100), (0, 200), (0, 0), (100, 100), (200, 100)]

/-- Point list one point of which is left outside the hull. -/
def outsideInput : List (ℚ × ℚ) :=
  [(0, 0), (200, 0), (100, 0), (300, 0), (0, 100)]

/-- Point list on which the gift-wrapping loop never returns to the anchor. -/
def loopingInput : List (ℚ × ℚ) :=
  [(0, 0), (0, 300), (0, 100), (0, 200), (100, 0)]

/-- Three distinct collinear points. -/
def collinearInput : List (ℚ × ℚ) :=
  [(0, 0), (100, 0), (200, 0)]

end ConvexHull

/-- A `double` that may have left the finite range: a finite value (exact rational), an
infinity, or a NaN. Only a division by zero produces the non-finite values. -/
inductive Dbl where
  | fin (q : ℚ)
  | pinf
  | ninf
  | nan
deriving DecidableEq, Repr

namespace Dbl

/-- IEEE 754 division of two finite values: a non-zero value over zero is an infinity
(zero is taken as `+0`; the sign does not influence any result below), zero over zero
is NaN. -/
def div (a b : ℚ) : Dbl :=
  if b = 0 then (if a = 0 then nan else if a > 0 then pinf else ninf) else fin (a / b)

/-- IEEE 754 negation. -/
def neg : Dbl → Dbl
  | fin q => fin (-q)
  | pinf => ninf
  | ninf => pinf
  | nan => nan

/-- IEEE 754 addition: opposite infinities add up to NaN. -/
def add : Dbl → Dbl → Dbl
  | fin a, fin b => fin (a + b)
  | nan, _ => nan
  | _, nan => nan
  | pinf, ninf => nan
  | ninf, pinf => nan
  | pinf, _ => pinf
  | _, pinf => pinf
  | ninf, _ => ninf
  | _, ninf => ninf

/-- IEEE 754 subtraction. -/
def sub (a b : Dbl) : Dbl := add a (neg b)

/-- IEEE 754 multiplication: zero times an infinity is NaN. -/
def mul : Dbl → Dbl → Dbl
  | fin a, fin b => fin (a * b)
  | nan, _ => nan
  | _, nan => nan
  | fin a, pinf => if a = 0 then nan else if a > 0 then pinf else ninf
  | fin a, ninf => if a = 0 then nan else if a > 0 then ninf else pinf
  | pinf, fin b => if b = 0 then nan else if b > 0 then pinf else ninf
  | ninf, fin b => if b = 0 then nan else if b > 0 then ninf else pinf
  | pinf, pinf => pinf
  | ninf, ninf => pinf
  | pinf, ninf => ninf
  | ninf, pinf => ninf

/-- The comparison `std::sqrt(a) <= std::sqrt(b)`: the square root is monotone on the
non-negative finite values and keeps `0` and `+inf`; it is NaN on NaN and on negative
arguments, and every comparison with a NaN is false. -/
def sqrtLe : Dbl → Dbl → Bool
  | fin a, fin b => decide (0 ≤ a ∧ 0 ≤ b ∧ a ≤ b)
  | fin a, pinf => decide (0 ≤ a)
  | pinf, pinf => true
  | _, _ => false

end Dbl

namespace Delaunay

/-- Class `Point` of `delaunay.h`. -/
structure Point where
  pos : QPointF
  isDragging : Bool := false
deriving DecidableEq, Repr

instance : Inhabited Point := ⟨⟨default, false⟩⟩

/-- Struct `Triangle` of `delaunay.h`; the derived equality is its `operator==`. -/
structure Triangle where
  p1 : Nat
  p2 : Nat
  p3 : Nat
deriving DecidableEq, Repr

/-- Struct `Edge` of `delaunay.h`; the derived equality is its `operator==`. -/
structure Edge where
  p1 : Nat
  p2 : Nat
deriving DecidableEq, Repr

/-- Constructor `Edge(int a, int b)`: the end points are stored as (min, max). -/
def Edge.make (a b : Nat) : Edge := ⟨min a b, max a b⟩

/-- Data members of `DelaunayWidget` (`delaunay.h`). -/
structure DelaunayWidget where
  points : List Point
  triangles : List Triangle
  onlineMode : Bool
deriving DecidableEq, Repr

/-- `DelaunayWidget::isPointInCircumcircle`. The quotients `ux`, `uy` follow IEEE 754
when `d` is zero; `radius` and `distance` are compared through their squares. -/
def isPointInCircumcircle (a b c p : QPointF) : Bool :=
  let d : ℚ := 2 * (a.x * (b.y - c.y) + b.x * (c.y - a.y) + c.x * (a.y - b.y))
  let ux := Dbl.div ((a.x * a.x + a.y * a.y) * (b.y - c.y) +
                     (b.x * b.x + b.y * b.y) * (c.y - a.y) +
                     (c.x * c.x + c.y * c.y) * (a.y - b.y)) d
  let uy := Dbl.div ((a.x * a.x + a.y * a.y) * (c.x - b.x) +
                     (b.x * b.x + b.y * b.y) * (a.x - c.x) +
                     (c.x * c.x + c.y * c.y) * (b.x - a.x)) d
  let radius2 := Dbl.add (Dbl.mul (Dbl.sub (.fin a.x) ux) (Dbl.sub (.fin a.x) ux))
                         (Dbl.mul (Dbl.sub (.fin a.y) uy) (Dbl.sub (.fin a.y) uy))
  let distance2 := Dbl.add (Dbl.mul (Dbl.sub (.fin p.x) ux) (Dbl.sub (.fin p.x) ux))
                           (Dbl.mul (Dbl.sub (.fin p.y) uy) (Dbl.sub (.fin p.y) uy))
  Dbl.sqrtLe distance2 radius2

/-- The working point array `tempPoints`: the input positions followed by the three
super-triangle corners built from the bounding box. -/
def tempPoints (points : List Point) : List QPointF :=
  let p0 := (points.getD 0 default).pos
  let minX := points.foldl (fun m point => min m point.pos.x) p0.x
  let maxX := points.foldl (fun m point => max m point.pos.x) p0.x
  let minY := points.foldl (fun m point => min m point.pos.y) p0.y
  let maxY := points.foldl (fun m point => max m point.pos.y) p0.y
  let dx := maxX - minX
  let dy := maxY - minY
  let deltaMax := max dx dy
  let midX := (minX + maxX) / 2
  let midY := (minY + maxY) / 2
  points.map (fun point => point.pos) ++
    [⟨midX - 20 * deltaMax, midY - deltaMax⟩,
     ⟨midX, midY + 20 * deltaMax⟩,
     ⟨midX + 20 * deltaMax, midY - deltaMax⟩]

/-- Whether the circumcircle of `triangle` (vertices read from `temp`) contains `p`. -/
def circumcircleContains (temp : List QPointF) (p : QPointF) (triangle : Triangle) : Bool :=
  isPointInCircumcircle (temp.getD triangle.p1 default) (temp.getD triangle.p2 default)
    (temp.getD triangle.p3 default) p

/-- One iteration of the insertion loop of `computeDelaunay`, for the input point
`i` at position `p`. -/
def insertPoint (temp : List QPointF) (p : QPointF) (i : Nat)
    (triangleList : List Triangle) : List Triangle :=
  let toRemove := triangleList.filter (fun triangle => circumcircleContains temp p triangle)
  let polygon := toRemove.flatMap (fun triangle =>
    [Edge.make triangle.p1 triangle.p2, Edge.make triangle.p2 triangle.p3,
     Edge.make triangle.p3 triangle.p1])
  let triangleList := toRemove.foldl
    (fun tl triangle => tl.filter (fun t => decide (t ≠ triangle))) triangleList
  let uniqueEdges := polygon.filter (fun edge => decide (polygon.count edge = 1))
  triangleList ++ uniqueEdges.map (fun edge => ⟨edge.p1, edge.p2, i⟩)

/-- The working triangle list of `computeDelaunay` after the first `k` input points have
been inserted, starting from the super-triangle alone. -/
def workingList (points : List Point) (k : Nat) : List Triangle :=
  let p1 := points.length
  (List.range k).foldl
    (fun triangleList i =>
      insertPoint (tempPoints points) (points.getD i default).pos i triangleList)
    [⟨p1, p1 + 1, p1 + 2⟩]

/-- `DelaunayWidget::computeDelaunay`. -/
def computeDelaunay (w : DelaunayWidget) : DelaunayWidget :=
  if w.points.length < 3 then
    { w with triangles := [] }
  else
    let triangleList := workingList w.points w.points.length
    { w with triangles := triangleList.filter (fun t =>
        !(decide (t.p1 ≥ w.points.length) || decide (t.p2 ≥ w.points.length) ||
          decide (t.p3 ≥ w.points.length))) }

/-- Widget state holding the given positions, with no triangles stored yet. -/
def widgetOf (ps : List (ℚ × ℚ)) : DelaunayWidget :=
  { points := ps.map (fun c => ⟨⟨c.1, c.2⟩, false⟩), triangles := [], onlineMode := false }

/-- The empty-circumcircle property of the stored triangles: no input point, other than
the three vertices of a triangle, is in its circumcircle. -/
def EmptyCircumcircles (w : DelaunayWidget) : Prop :=
  ∀ t ∈ w.triangles, ∀ k, k < w.points.length → k ≠ t.p1 → k ≠ t.p2 → k ≠ t.p3 →
    isPointInCircumcircle (w.points.getD t.p1 default).pos (w.points.getD t.p2 default).pos
      (w.points.getD t.p3 default).pos (w.points.getD k default).pos = false

instance (w : DelaunayWidget) : Decidable (EmptyCircumcircles w) := by
  unfold EmptyCircumcircles; infer_instance

/-- The four corners of a square, which lie on one circle. -/
def squareInput : List (ℚ × ℚ) :=
  [(0, 0), (100, 0), (100, 100), (0, 100)]

/-- A triangle followed by a point far outside its circumcircle. -/
def lateInput : List (ℚ × ℚ) :=
  [(0, 0), (100, 0), (0, 100), (300, 300)]

/-- The denominator `d` of `isPointInCircumcircle`. -/
def circumDenominator (a b c : QPointF) : ℚ :=
  2 * (a.x * (b.y - c.y) + b.x * (c.y - a.y) + c.x * (a.y - b.y))

/-- The numerator of `ux` in `isPointInCircumcircle`. -/
def circumNumeratorX (a b c : QPointF) : ℚ :=
  (a.x * a.x + a.y * a.y) * (b.y - c.y) + (b.x * b.x + b.y * b.y) * (c.y - a.y) +
    (c.x * c.x + c.y * c.y) * (a.y - b.y)

/-- The numerator of `uy` in `isPointInCircumcircle`. -/
def circumNumeratorY (a b c : QPointF) : ℚ :=
  (a.x * a.x + a.y * a.y) * (c.x - b.x) + (b.x * b.x + b.y * b.y) * (a.x - c.x) +
    (c.x * c.x + c.y * c.y) * (b.x - a.x)

/-- A triangle with three pairwise distinct indices. -/
def Triangle.Distinct (t : Triangle) : Prop := t.p1 ≠ t.p2 ∧ t.p2 ≠ t.p3 ∧ t.p1 ≠ t.p3

/-- The input of the square-and-centre scenario. -/
def squareWithCentre : List (ℚ × ℚ) :=
  [(0, 0), (1, 0), (1, 1), (0, 1), (1 / 2, 1 / 2)]

/-- The point `p` lies strictly inside the circle through `a`, `b`, `c`, in exact
arithmetic: the three points are not collinear and `p` is nearer to the circumcentre
than `a` is. -/
def StrictlyInsideCircumcircle (a b c p : QPointF) : Prop :=
  circumDenominator a b c ≠ 0 ∧
  (p.x - circumNumeratorX a b c / circumDenominator a b c) ^ 2 +
    (p.y - circumNumeratorY a b c / circumDenominator a b c) ^ 2 <
  (a.x - circumNumeratorX a b c / circumDenominator a b c) ^ 2 +
    (a.y - circumNumeratorY a b c / circumDenominator a b c) ^ 2

instance (a b c p : QPointF) : Decidable (StrictlyInsideCircumcircle a b c p) := by
  unfold StrictlyInsideCircumcircle; infer_instance

end Delaunay

namespace PolygonOps

/-- Struct `Point` of `polygon_operations.h`. -/
structure Point where
  x : ℚ
  y : ℚ
deriving DecidableEq, Repr

instance : Inhabited Point := ⟨⟨0, 0⟩⟩

namespace Point

/-- `Point::operator+`. -/
def add (a other : Point) : Point := ⟨a.x + other.x, a.y + other.y⟩

/-- `Point::operator-`. -/
def sub (a other : Point) : Point := ⟨a.x - other.x, a.y - other.y⟩

/-- `Point::operator*`. -/
def smul (a : Point) (scalar : ℚ) : Point := ⟨a.x * scalar, a.y * scalar⟩

/-- `Point::dot`. -/
def dot (a other : Point) : ℚ := a.x * other.x + a.y * other.y

/-- `Point::cross`. -/
def cross (a other : Point) : ℚ := a.x * other.y - a.y * other.x

/-- `Point::dist2`. -/
def dist2 (a : Point) : ℚ := a.x * a.x + a.y * a.y

end Point

/-- The literal `1e-9` of `polygon_operations.cpp`. -/
def eps : ℚ := 1 / 1000000000

/-- Class `Polygon` of `polygon_operations.h`. -/
structure Polygon where
  points : List Point
deriving DecidableEq, Repr

/-- Index of the lowest point (smallest y, then smallest x): the first loop of
`Polygon::computeConvexHull`. -/
def findMinIdx (points : List Point) : Nat :=
  (List.range' 1 (points.length - 1)).foldl
    (fun minIdx i =>
      if (points.getD i default).y < (points.getD minIdx default).y ∨
          ((points.getD i default).y = (points.getD minIdx default).y ∧
            (points.getD i default).x < (points.getD minIdx default).x)
      then i else minIdx)
    0

/-- The comparison lambda handed to `std::sort`: polar angle around `pivot`, then
squared distance from it. -/
def angleLess (pivot a b : Point) : Bool :=
  let vecA := a.sub pivot
  let vecB := b.sub pivot
  let cross := vecA.cross vecB
  if |cross| > eps then decide (cross > 0) else decide (vecA.dist2 < vecB.dist2)

/-- Insertion of `a` into a list sorted by `less`, in front of the first element that is
not less than `a`. -/
def insertSorted (less : Point → Point → Bool) (a : Point) : List Point → List Point
  | [] => [a]
  | b :: rest => if less b a then b :: insertSorted less a rest else a :: b :: rest

/-- `std::sort` with a comparison function, as an insertion sort: the result is the
ordered permutation of the input that `std::sort` returns whenever `less` orders the
elements strictly. -/
def stdSort (less : Point → Point → Bool) : List Point → List Point
  | [] => []
  | a :: rest => insertSorted less a (stdSort less rest)

/-- The `while` loop of the scan, on the vector `hull` held last element first: pops the
top `p2` as long as `(p2 - p1).cross(p3 - p1) <= 0` and two elements are left. -/
def popNonLeft (p3 : Point) : List Point → List Point
  | [] => []
  | p2 :: below =>
    match below with
    | [] => [p2]
    | p1 :: _ =>
      if (p2.sub p1).cross (p3.sub p1) ≤ 0 then popNonLeft p3 below else p2 :: below

/-- The statements of `Polygon::computeConvexHull` on the vector `points`. -/
def hullOfPoints (points : List Point) : List Point :=
  if points.length < 3 then points
  else
    let n := points.length
    let minIdx := findMinIdx points
    let points := (points.set 0 (points.getD minIdx default)).set minIdx
      (points.getD 0 default)
    let pivot := points.getD 0 default
    let points := points.take 1 ++ stdSort (angleLess pivot) (points.drop 1)
    let hull := [points.getD 1 default, points.getD 0 default]
    let hull := (List.range' 2 (n - 2)).foldl
      (fun hull i => points.getD i default :: popNonLeft (points.getD i default) hull) hull
    hull.reverse

/-- `Polygon::computeConvexHull`. -/
def Polygon.computeConvexHull (poly : Polygon) : Polygon :=
  { points := hullOfPoints poly.points }

/-- `Polygon::addPoint`. -/
def Polygon.addPoint (poly : Polygon) (p : Point) : Polygon :=
  { points := poly.points ++ [p] }

/-- `Polygon::clear`. -/
def Polygon.clear (_poly : Polygon) : Polygon := { points := [] }

/-- `Polygon::empty`. -/
def Polygon.empty (poly : Polygon) : Bool := poly.points.isEmpty

/-- Enum `PolygonCanvas::Mode`. -/
inductive Mode where
  | FIRST_POLYGON
  | SECOND_POLYGON
  | RESULT
deriving DecidableEq, Repr

/-- Enum `PolygonCanvas::Operation`. -/
inductive Operation where
  | INTERSECTION
  | UNION
  | DIFFERENCE
deriving DecidableEq, Repr

/-- Data members of `PolygonCanvas` (`polygon_operations.h`). -/
structure PolygonCanvas where
  poly1 : Polygon
  poly2 : Polygon
  result : Polygon
  mode : Mode
  operation : Operation
  movingPoint : Int
  currentPolygon : Int
deriving DecidableEq, Repr

/-- `PolygonCanvas::isPointInsidePolygon`: the even-odd ray casting loop, with `j`
trailing `i`. The quotient is only evaluated when the first operand of `&&` holds. -/
def isPointInsidePolygon (p : Point) (polygon : List Point) : Bool :=
  if polygon.length < 3 then false
  else
    ((List.range polygon.length).foldl
      (fun (st : Bool × Nat) i =>
        let pi := polygon.getD i default
        let pj := polygon.getD st.2 default
        if (decide (pi.y > p.y) != decide (pj.y > p.y)) &&
            decide (p.x < (pj.x - pi.x) * (p.y - pi.y) / (pj.y - pi.y) + pi.x)
        then (!st.1, i) else (st.1, i))
      (false, polygon.length - 1)).1

/-- `PolygonCanvas::lineSegmentIntersection`: `some result` when the function returns
true after writing `result`, `none` when it returns false. -/
def lineSegmentIntersection (a1 a2 b1 b2 : Point) : Option Point :=
  let d1 := a2.sub a1
  let d2 := b2.sub b1
  let cross := d1.cross d2
  if |cross| < eps then none
  else
    let t := (b1.sub a1).cross d2 / cross
    let u := (b1.sub a1).cross d1 / cross
    if t ≥ 0 ∧ t ≤ 1 ∧ u ≥ 0 ∧ u ≤ 1 then some (a1.add (d1.smul t)) else none

/-- The cross product `cross` of the two direction vectors in `lineSegmentIntersection`. -/
def directionCross (a1 a2 b1 b2 : Point) : ℚ := (a2.sub a1).cross (b2.sub b1)

/-- The parameter `t` of `lineSegmentIntersection`, along the segment from `a1` to `a2`. -/
def paramT (a1 a2 b1 b2 : Point) : ℚ :=
  (b1.sub a1).cross (b2.sub b1) / directionCross a1 a2 b1 b2

/-- The parameter `u` of `lineSegmentIntersection`, along the segment from `b1` to `b2`. -/
def paramU (a1 a2 b1 b2 : Point) : ℚ :=
  (b1.sub a1).cross (a2.sub a1) / directionCross a1 a2 b1 b2

/-- The nested loops shared by `computeIntersection` and `computeDifference`: the
crossing points of every edge of `points1` with every edge of `points2`, in loop order. -/
def edgeCrossings (points1 points2 : List Point) : List Point :=
  (List.range points1.length).flatMap (fun i =>
    let next_i := (i + 1) % points1.length
    (List.range points2.length).flatMap (fun j =>
      let next_j := (j + 1) % points2.length
      match lineSegmentIntersection (points1.getD i default) (points1.getD next_i default)
          (points2.getD j default) (points2.getD next_j default) with
      | some intersect => [intersect]
      | none => []))

/-- The closing `if (!result.empty()) result.computeConvexHull();`. -/
def finishResult (c : PolygonCanvas) : PolygonCanvas :=
  if !c.result.empty then { c with result := c.result.computeConvexHull } else c

/-- `PolygonCanvas::computeIntersection`. -/
def computeIntersection (c : PolygonCanvas) : PolygonCanvas :=
  let points1 := c.poly1.points
  let points2 := c.poly2.points
  let result := (points1.filter (fun p => isPointInsidePolygon p points2)).foldl
    Polygon.addPoint c.result
  let result := (points2.filter (fun p => isPointInsidePolygon p points1)).foldl
    Polygon.addPoint result
  let result := (edgeCrossings points1 points2).foldl Polygon.addPoint result
  finishResult { c with result := result }

/-- `PolygonCanvas::computeUnion`. -/
def computeUnion (c : PolygonCanvas) : PolygonCanvas :=
  let allPoints := c.poly1.points ++ c.poly2.points
  let result := allPoints.foldl Polygon.addPoint c.result
  finishResult { c with result := result }

/-- `PolygonCanvas::computeDifference`. -/
def computeDifference (c : PolygonCanvas) : PolygonCanvas :=
  let points1 := c.poly1.points
  let points2 := c.poly2.points
  let result := (points1.filter (fun p => !isPointInsidePolygon p points2)).foldl
    Polygon.addPoint c.result
  let result := (edgeCrossings points1 points2).foldl Polygon.addPoint result
  finishResult { c with result := result }

/-- `PolygonCanvas::computeResult`. -/
def computeResult (c : PolygonCanvas) : PolygonCanvas :=
  let c := { c with result := c.result.clear }
  match c.operation with
  | .INTERSECTION => computeIntersection c
  | .UNION => computeUnion c
  | .DIFFERENCE => computeDifference c

/-- The order of the first loop of `Polygon::computeConvexHull`: lower, or as low and
further left. -/
def lexLess (a b : Point) : Prop := a.y < b.y ∨ (a.y = b.y ∧ a.x < b.x)

instance (a b : Point) : Decidable (lexLess a b) := by
  unfold lexLess; infer_instance

/-- Twice the signed area of the triangle `a`, `b`, `c`: the cross product of `b - a` and
`c - a`, positive for a counter-clockwise turn. -/
def area2 (a b c : Point) : ℚ := (b.sub a).cross (c.sub a)

/-- A convex polygon as a hull reduction lists it, with cross products above the
tolerance `1e-9`: the first vertex is the lowest (then leftmost) one, and every three
vertices, taken in list order, turn counter-clockwise with a cross product above `1e-9`. -/
def IsHullReduced (A : List Point) : Prop :=
  (∀ i, i < A.length → 0 < i → lexLess (A.getD 0 default) (A.getD i default)) ∧
  (∀ k, k < A.length → ∀ j, j < k → ∀ i, i < j →
    area2 (A.getD i default) (A.getD j default) (A.getD k default) > eps)

instance (A : List Point) : Decidable (IsHullReduced A) := by
  unfold IsHullReduced; infer_instance

/-- Index-level image of `popNonLeft` on a convex vertex list. -/
def popIdx (k : Nat) : List Nat → List Nat
  | [] => []
  | j :: below =>
    match below with
    | [] => [j]
    | i :: _ => if i < j ∧ j < k then j :: below else popIdx k below

/-- State of the scan on indices: two copies of the pivot, or a strictly decreasing
stack of at least two indices. -/
def ScanInv (D : List Nat) : Prop :=
  D = [0, 0] ∨ (List.Chain' (fun a b => b < a) D ∧ 2 ≤ D.length)

/-- Canvas in mode `RESULT` holding the two operand polygons and a stored result. -/
def canvasOf (op : Operation) (ps1 ps2 old : List (ℚ × ℚ)) : PolygonCanvas :=
  { poly1 := ⟨ps1.map (fun c => ⟨c.1, c.2⟩)⟩, poly2 := ⟨ps2.map (fun c => ⟨c.1, c.2⟩)⟩,
    result := ⟨old.map (fun c => ⟨c.1, c.2⟩)⟩, mode := .RESULT, operation := op,
    movingPoint := -1, currentPolygon := -1 }

/-- A division that fails on a zero divisor. -/
def checkedDiv (a b : ℚ) : Option ℚ := if b = 0 then none else some (a / b)

/-- One iteration of the loop of `isPointInsidePolygon` with every vector access and the
division checked: `none` when an index is out of range or the divisor is zero. The
operands of `&&` are evaluated left to right, the second one only when the first holds. -/
def insideStepChecked (p : Point) (polygon : List Point) (st : Bool × Nat) (i : Nat) :
    Option (Bool × Nat) :=
  match polygon[i]?, polygon[st.2]? with
  | some pi, some pj =>
    if decide (pi.y > p.y) != decide (pj.y > p.y) then
      match checkedDiv ((pj.x - pi.x) * (p.y - pi.y)) (pj.y - pi.y) with
      | some q => if p.x < q + pi.x then some (!st.1, i) else some (st.1, i)
      | none => none
    else some (st.1, i)
  | _, _ => none

/-- `PolygonCanvas::isPointInsidePolygon` with checked accesses and division: `none` as
soon as one of them fails. -/
def isPointInsidePolygonChecked (p : Point) (polygon : List Point) : Option Bool :=
  if polygon.length < 3 then some false
  else
    ((List.range polygon.length).foldl
      (fun (st : Option (Bool × Nat)) i =>
        match st with
        | some st => insideStepChecked p polygon st i
        | none => none)
      (some (false, polygon.length - 1))).map Prod.fst

/-- `PolygonCanvas::nextPolygon`. -/
def nextPolygon (c : PolygonCanvas) : PolygonCanvas :=
  match c.mode with
  | .FIRST_POLYGON => { c with poly1 := c.poly1.computeConvexHull, mode := .SECOND_POLYGON }
  | .SECOND_POLYGON =>
    { computeResult { c with poly2 := c.poly2.computeConvexHull } with mode := .RESULT }
  | .RESULT => c

/-- Canvas in mode `SECOND_POLYGON`, the points of both polygons entered, before the
second call of `nextPolygon`. -/
def twoSquares : PolygonCanvas :=
  { (nextPolygon { canvasOf .INTERSECTION [(0, 0), (10, 0), (10, 10), (0, 10)] [] [] with
        mode := .FIRST_POLYGON }) with
    poly2 := ⟨[⟨5, 5⟩, ⟨15, 5⟩, ⟨15, 15⟩, ⟨5, 15⟩]⟩ }

/-- The order in which the sort of `Polygon::computeConvexHull` leaves two points `a`,
`b` other than the pivot `o`: `a` before `b` when the turn from `a` to `b` about `o` is
counter-clockwise, or when they are in line with `o` and `a` is not further from it. -/
def angleLe (o a b : Point) : Prop :=
  0 < area2 o a b ∨ (area2 o a b = 0 ∧ (a.sub o).dist2 ≤ (b.sub o).dist2)

instance (o a b : Point) : Decidable (angleLe o a b) := by
  unfold angleLe; infer_instance

/-- A listing of points by polar angle: first the lowest (then leftmost) point, then the
other points by polar angle about it, points in line with it by distance from it. -/
def AngularlySorted (P : List Point) : Prop :=
  (∀ i, i < P.length → 0 < i → lexLess (P.getD 0 default) (P.getD i default)) ∧
  (∀ b, b < P.length → ∀ a, a < b → 0 < a →
    angleLe (P.getD 0 default) (P.getD a default) (P.getD b default))

instance (P : List Point) : Decidable (AngularlySorted P) := by
  unfold AngularlySorted; infer_instance

/-- The indices `H` (increasing, starting with 0) of the vertices of the convex hull of
the points `P`: every point of `P` other than the two end points of an edge of the
polygon lies strictly on the counter-clockwise side of that edge. -/
def IsHullOf (H : List Nat) (P : List Point) : Prop :=
  H.head? = some 0 ∧ List.Chain' (fun a b => a < b) H ∧ (∀ h ∈ H, h < P.length) ∧
  ∀ i, i < H.length → ∀ k, k < P.length →
    k ≠ H.getD i 0 → k ≠ H.getD ((i + 1) % H.length) 0 →
      0 < area2 (P.getD (H.getD i 0) default) (P.getD (H.getD ((i + 1) % H.length) 0) default)
        (P.getD k default)

instance (H : List Nat) (P : List Point) : Decidable (IsHullOf H P) := by
  delta IsHullOf; infer_instance

/-- Global convexity of a scan stack given by indices into `P`: every three of its
points, in index order, turn counter-clockwise. -/
def StackConvex (P : List Point) (D : List Nat) : Prop :=
  ∀ a ∈ D, ∀ b ∈ D, ∀ c ∈ D, a < b → b < c →
    0 < area2 (P.getD a default) (P.getD b default) (P.getD c default)

/-- A `QPointF` read as a `Point` of `polygon_operations.h` (same two coordinates). -/
def Point.ofQPointF (q : QPointF) : Point := ⟨q.x, q.y⟩

/-- A `Point` of `polygon_operations.h` read as a `QPointF` (same two coordinates). -/
def Point.toQPointF (p : Point) : QPointF := ⟨p.x, p.y⟩

/-- The positions `H` in the point list `L`, in the order of entry, of the vertices of a
convex polygon that holds every other entry of `L` strictly inside: `H` starts at the
position of the lowest (then leftmost) point and goes round counter-clockwise, and every
entry of `L` at a position other than the two ends of an edge lies strictly on the
counter-clockwise side of that edge. -/
def IsHullAt (H : List Nat) (L : List Point) : Prop :=
  H.Nodup ∧ (∀ h ∈ H, h < L.length) ∧
  (∀ k, k < L.length → k ≠ H.getD 0 0 →
    lexLess (L.getD (H.getD 0 0) default) (L.getD k default)) ∧
  ∀ i, i < H.length → ∀ k, k < L.length →
    k ≠ H.getD i 0 → k ≠ H.getD ((i + 1) % H.length) 0 →
      0 < area2 (L.getD (H.getD i 0) default) (L.getD (H.getD ((i + 1) % H.length) 0) default)
        (L.getD k default)

instance (H : List Nat) (L : List Point) : Decidable (IsHullAt H L) := by
  delta IsHullAt; infer_instance

/-- No cross product that the comparison of the sort forms about the lowest point falls
within the tolerance `1e-9` without being zero. -/
def ToleranceFree (L : List Point) : Prop :=
  ∀ a ∈ L, ∀ b ∈ L,
    area2 (L.getD (findMinIdx L) default) a b = 0 ∨
      eps < |area2 (L.getD (findMinIdx L) default) a b|

instance (L : List Point) : Decidable (ToleranceFree L) := by
  delta ToleranceFree; infer_instance

/-- The corners of the unit square and its centre, in an order of entry that starts with
the centre. -/
def squareWithCentre : List (ℚ × ℚ) :=
  [(1 / 2, 1 / 2), (1, 1), (0, 0), (0, 1), (1, 0)]

/-- A triangle whose apex is `1e-10` above the middle of its base. -/
def flatTriangle : List (ℚ × ℚ) :=
  [(0, 0), (2, 0), (1, 1 / 10000000000)]

/-- A pixel position: both coordinates are integers of magnitude at most 16777215, the
range of the `int` coordinates of a `QPoint` inside a widget. -/
def Point.IsPixel (p : Point) : Prop :=
  p.x.den = 1 ∧ p.y.den = 1 ∧ |p.x| ≤ 16777215 ∧ |p.y| ≤ 16777215

instance (p : Point) : Decidable p.IsPixel := by
  unfold Point.IsPixel; infer_instance

/-- A strictly convex polygon as hull reduction lists it: the first vertex is the lowest
(then leftmost) one, and every three vertices, taken in list order, turn
counter-clockwise. -/
def IsConvexPolygon (A : List Point) : Prop :=
  (∀ i, i < A.length → 0 < i → lexLess (A.getD 0 default) (A.getD i default)) ∧
  (∀ k, k < A.length → ∀ j, j < k → ∀ i, i < j →
    0 < area2 (A.getD i default) (A.getD j default) (A.getD k default))

instance (A : List Point) : Decidable (IsConvexPolygon A) := by
  unfold IsConvexPolygon; infer_instance

end PolygonOps

/-! ## IEEE 754 binary64 arithmetic, and the functions of the claims in it -/

namespace Binary64

/-- The power `2 ^ e` for an integer exponent. -/
def pow2 (e : Int) : ℚ :=
  if 0 ≤ e then ((2 ^ e.toNat : Nat) : ℚ) else 1 / ((2 ^ (-e).toNat : Nat) : ℚ)

/-- The binary logarithm `⌊log₂ n⌋` by repeated halving, `fuel` steps at most. -/
def log2Aux : Nat → Nat → Nat
  | 0, _ => 0
  | fuel + 1, n => if 2 ≤ n then log2Aux fuel (n / 2) + 1 else 0

/-- The binary logarithm `⌊log₂ n⌋` of a natural number below `2 ^ 4400`. -/
def log2 (n : Nat) : Nat := log2Aux 4400 n

/-- The exponent `⌊log₂ q⌋` of a positive rational. -/
def ilog2 (q : ℚ) : Int :=
  let e : Int := (log2 q.num.natAbs : Int) - (log2 q.den : Int)
  if pow2 e ≤ q then e else e - 1

/-- Rounding of a non-negative rational to the nearest integer, ties to even. -/
def roundHalfEven (m : ℚ) : Int :=
  let f := Rat.floor m
  let r := m - f
  if r < 1 / 2 then f else if 1 / 2 < r then f + 1 else if f % 2 = 0 then f else f + 1

/-- Rounding of a real result to `double` (IEEE 754 binary64, round to nearest, ties to
even): 53 significant bits, least exponent -1022 with gradual underflow, overflow to an
infinity. The sign of a zero is not kept. -/
def rnd (q : ℚ) : Dbl :=
  if q = 0 then .fin 0
  else
    let e := max (ilog2 |q|) (-1022)
    let quantum := pow2 (e - 52)
    let r := (roundHalfEven (|q| / quantum) : ℚ) * quantum
    if pow2 1024 ≤ r then (if 0 < q then .pinf else .ninf)
    else .fin (if 0 < q then r else -r)

/-- Integer square root by Newton's iteration from above, `fuel` steps at most. -/
def isqrtAux (n : Nat) : Nat → Nat → Nat
  | 0, x => x
  | fuel + 1, x =>
    let y := (x + n / x) / 2
    if y < x then isqrtAux n fuel y else x

/-- The integer square root `⌊√n⌋`. -/
def isqrt (n : Nat) : Nat :=
  if n = 0 then 0 else isqrtAux n 128 (2 ^ (log2 n / 2 + 1))

/-- The correctly rounded square root of a non-negative rational `q`. -/
def sqrtRound (q : ℚ) : ℚ :=
  if q ≤ 0 then 0
  else
    let s : Int := ilog2 q / 2
    let quantum := pow2 (s - 52)
    let N := q / (quantum * quantum)
    let n0 := isqrt (Rat.floor N).toNat
    let h : ℚ := (n0 : ℚ) + 1 / 2
    let n : Nat := if N < h * h then n0 else if h * h < N then n0 + 1
      else if n0 % 2 = 0 then n0 else n0 + 1
    (n : ℚ) * quantum

/-- The rounding of an exact IEEE 754 result: a finite value is rounded to `double`,
an infinity or a NaN stays. -/
def ofExact : Dbl → Dbl
  | .fin q => rnd q
  | x => x

/-- Addition of two `double` values. -/
def add (a b : Dbl) : Dbl := ofExact (Dbl.add a b)

/-- Subtraction of two `double` values. -/
def sub (a b : Dbl) : Dbl := ofExact (Dbl.sub a b)

/-- Multiplication of two `double` values. -/
def mul (a b : Dbl) : Dbl := ofExact (Dbl.mul a b)

/-- Division of two `double` values (a zero divisor is taken as `+0`). -/
def div : Dbl → Dbl → Dbl
  | .fin a, .fin b => ofExact (Dbl.div a b)
  | .nan, _ => .nan
  | _, .nan => .nan
  | .fin _, _ => .fin 0
  | .pinf, .fin b => if 0 ≤ b then .pinf else .ninf
  | .ninf, .fin b => if 0 ≤ b then .ninf else .pinf
  | _, _ => .nan

/-- The function `std::sqrt` on `double`. -/
def sqrt : Dbl → Dbl
  | .fin q => if q < 0 then .nan else .fin (sqrtRound q)
  | .pinf => .pinf
  | _ => .nan

/-- The function `std::abs` on `double`. -/
def abs : Dbl → Dbl
  | .fin q => .fin |q|
  | .ninf => .pinf
  | x => x

/-- The comparison `a <= b` of two `double` values: false when one is a NaN. -/
def le : Dbl → Dbl → Bool
  | .nan, _ => false
  | _, .nan => false
  | .fin a, .fin b => decide (a ≤ b)
  | .ninf, _ => true
  | _, .pinf => true
  | _, _ => false

/-- The comparison `a < b` of two `double` values: false when one is a NaN. -/
def lt : Dbl → Dbl → Bool
  | .nan, _ => false
  | _, .nan => false
  | .fin a, .fin b => decide (a < b)
  | .pinf, _ => false
  | _, .ninf => false
  | _, _ => true

end Binary64

/-- A `QPointF` whose coordinates may have left the finite range. -/
structure DPoint where
  x : Dbl
  y : Dbl
deriving DecidableEq, Repr

instance : Inhabited DPoint := ⟨⟨.fin 0, .fin 0⟩⟩

namespace DelaunayIeee

open Binary64

/-- `Delaunay.DelaunayWidget::isPointInCircumcircle` in `double` arithmetic, every operation
rounded on its own, in the order in which the expressions are written. -/
def isPointInCircumcircle (a b c p : DPoint) : Bool :=
  let d := mul (.fin 2) (add (add (mul a.x (sub b.y c.y)) (mul b.x (sub c.y a.y)))
    (mul c.x (sub a.y b.y)))
  let ux := div (add (add (mul (add (mul a.x a.x) (mul a.y a.y)) (sub b.y c.y))
                          (mul (add (mul b.x b.x) (mul b.y b.y)) (sub c.y a.y)))
                     (mul (add (mul c.x c.x) (mul c.y c.y)) (sub a.y b.y))) d
  let uy := div (add (add (mul (add (mul a.x a.x) (mul a.y a.y)) (sub c.x b.x))
                          (mul (add (mul b.x b.x) (mul b.y b.y)) (sub a.x c.x)))
                     (mul (add (mul c.x c.x) (mul c.y c.y)) (sub b.x a.x))) d
  let radius := sqrt (add (mul (sub a.x ux) (sub a.x ux)) (mul (sub a.y uy) (sub a.y uy)))
  let distance := sqrt (add (mul (sub p.x ux) (sub p.x ux)) (mul (sub p.y uy) (sub p.y uy)))
  le distance radius

/-- The working point array `tempPoints` in `double` arithmetic. -/
def tempPoints (points : List Delaunay.Point) : List DPoint :=
  let p0 := (points.getD 0 default).pos
  let minX := points.foldl (fun m point => min m point.pos.x) p0.x
  let maxX := points.foldl (fun m point => max m point.pos.x) p0.x
  let minY := points.foldl (fun m point => min m point.pos.y) p0.y
  let maxY := points.foldl (fun m point => max m point.pos.y) p0.y
  let dx := sub (.fin maxX) (.fin minX)
  let dy := sub (.fin maxY) (.fin minY)
  let deltaMax := if lt dx dy then dy else dx
  let midX := div (add (.fin minX) (.fin maxX)) (.fin 2)
  let midY := div (add (.fin minY) (.fin maxY)) (.fin 2)
  points.map (fun point => (⟨.fin point.pos.x, .fin point.pos.y⟩ : DPoint)) ++
    [⟨sub midX (mul (.fin 20) deltaMax), sub midY deltaMax⟩,
     ⟨midX, add midY (mul (.fin 20) deltaMax)⟩,
     ⟨add midX (mul (.fin 20) deltaMax), sub midY deltaMax⟩]

/-- Whether the circumcircle of `triangle` (vertices read from `temp`) contains `p`. -/
def circumcircleContains (temp : List DPoint) (p : DPoint) (triangle : Delaunay.Triangle) :
    Bool :=
  isPointInCircumcircle (temp.getD triangle.p1 default) (temp.getD triangle.p2 default)
    (temp.getD triangle.p3 default) p

/-- One iteration of the insertion loop of `computeDelaunay`, for the input point
`i` at position `p`, with the circle test in `double` arithmetic. -/
def insertPoint (temp : List DPoint) (p : DPoint) (i : Nat)
    (triangleList : List Delaunay.Triangle) : List Delaunay.Triangle :=
  let toRemove := triangleList.filter (fun triangle => circumcircleContains temp p triangle)
  let polygon := toRemove.flatMap (fun triangle =>
    [Delaunay.Edge.make triangle.p1 triangle.p2, Delaunay.Edge.make triangle.p2 triangle.p3,
     Delaunay.Edge.make triangle.p3 triangle.p1])
  let triangleList := toRemove.foldl
    (fun tl triangle => tl.filter (fun t => decide (t ≠ triangle))) triangleList
  let uniqueEdges := polygon.filter (fun edge => decide (polygon.count edge = 1))
  triangleList ++ uniqueEdges.map (fun edge => ⟨edge.p1, edge.p2, i⟩)

/-- The working triangle list of `computeDelaunay` after the first `k` input points have
been inserted, with the circle test in `double` arithmetic. -/
def workingList (points : List Delaunay.Point) (k : Nat) : List Delaunay.Triangle :=
  let p1 := points.length
  (List.range k).foldl
    (fun triangleList i =>
      insertPoint (tempPoints points)
        ⟨.fin (points.getD i default).pos.x, .fin (points.getD i default).pos.y⟩ i
        triangleList)
    [⟨p1, p1 + 1, p1 + 2⟩]

/-- `Delaunay.DelaunayWidget::computeDelaunay` in `double` arithmetic. -/
def computeDelaunay (w : Delaunay.DelaunayWidget) : Delaunay.DelaunayWidget :=
  if w.points.length < 3 then
    { w with triangles := [] }
  else
    let triangleList := workingList w.points w.points.length
    { w with triangles := triangleList.filter (fun t =>
        !(decide (t.p1 ≥ w.points.length) || decide (t.p2 ≥ w.points.length) ||
          decide (t.p3 ≥ w.points.length))) }

/-- A point list with the point 3 dragged onto the point 1. -/
def draggedInput : List (ℚ × ℚ) :=
  [(4, 4), (1, 0), (3, 2), (1, 0), (0, 3)]

/-- The position of an input point as the circle test receives it. -/
def position (points : List Delaunay.Point) (k : Nat) : DPoint :=
  ⟨.fin (points.getD k default).pos.x, .fin (points.getD k default).pos.y⟩

/-- The denominator `d` of `isPointInCircumcircle` as the code computes it. -/
def circumDenominator (a b c : DPoint) : Dbl :=
  mul (.fin 2) (add (add (mul a.x (sub b.y c.y)) (mul b.x (sub c.y a.y)))
    (mul c.x (sub a.y b.y)))

/-- The numerator of `ux` in `isPointInCircumcircle` as the code computes it. -/
def circumNumeratorX (a b c : DPoint) : Dbl :=
  add (add (mul (add (mul a.x a.x) (mul a.y a.y)) (sub b.y c.y))
           (mul (add (mul b.x b.x) (mul b.y b.y)) (sub c.y a.y)))
      (mul (add (mul c.x c.x) (mul c.y c.y)) (sub a.y b.y))

/-- The numerator of `uy` in `isPointInCircumcircle` as the code computes it. -/
def circumNumeratorY (a b c : DPoint) : Dbl :=
  add (add (mul (add (mul a.x a.x) (mul a.y a.y)) (sub c.x b.x))
           (mul (add (mul b.x b.x) (mul b.y b.y)) (sub a.x c.x)))
      (mul (add (mul c.x c.x) (mul c.y c.y)) (sub b.x a.x))

/-- The expression `(q.x - ux) * (q.x - ux) + (q.y - uy) * (q.y - uy)` under the two
square roots of `isPointInCircumcircle`. -/
def squaredDistance (q : DPoint) (ux uy : Dbl) : Dbl :=
  add (mul (sub q.x ux) (sub q.x ux)) (mul (sub q.y uy) (sub q.y uy))

/-- A point list with the point 2 dragged onto the point 1. -/
def degenerateInput : List (ℚ × ℚ) :=
  [(0, 0), (2, 4), (2, 4), (3, 5), (1, 2), (4, 0)]

end DelaunayIeee

namespace PolygonOpsIeee

/-- `Point::operator+` in `double` arithmetic. -/
def add (p other : DPoint) : DPoint := ⟨Binary64.add p.x other.x, Binary64.add p.y other.y⟩

/-- `Point::operator-` in `double` arithmetic. -/
def sub (p other : DPoint) : DPoint := ⟨Binary64.sub p.x other.x, Binary64.sub p.y other.y⟩

/-- `Point::operator*` in `double` arithmetic. -/
def smul (p : DPoint) (scalar : Dbl) : DPoint :=
  ⟨Binary64.mul p.x scalar, Binary64.mul p.y scalar⟩

/-- `Point::cross` in `double` arithmetic. -/
def cross (p other : DPoint) : Dbl :=
  Binary64.sub (Binary64.mul p.x other.y) (Binary64.mul p.y other.x)

/-- The literal `1e-9`: the `double` nearest to it. -/
def eps : Dbl := Binary64.rnd (1 / 1000000000)

/-- `PolygonCanvas::lineSegmentIntersection` in `double` arithmetic, every operation
rounded on its own: `some result` when the function returns true after writing
`result`, `none` when it returns false. -/
def lineSegmentIntersection (a1 a2 b1 b2 : DPoint) : Option DPoint :=
  let d1 := sub a2 a1
  let d2 := sub b2 b1
  let cross := cross d1 d2
  if Binary64.lt (Binary64.abs cross) eps then none
  else
    let t := Binary64.div (PolygonOpsIeee.cross (sub b1 a1) d2) cross
    let u := Binary64.div (PolygonOpsIeee.cross (sub b1 a1) d1) cross
    if Binary64.le (.fin 0) t ∧ Binary64.le t (.fin 1) ∧
        Binary64.le (.fin 0) u ∧ Binary64.le u (.fin 1)
    then some (add a1 (smul d1 t)) else none

/-- The cross product `cross` of the two direction vectors, as the code computes it. -/
def directionCross (a1 a2 b1 b2 : DPoint) : Dbl := cross (sub a2 a1) (sub b2 b1)

/-- The parameter `t` of `lineSegmentIntersection`, as the code computes it. -/
def paramT (a1 a2 b1 b2 : DPoint) : Dbl :=
  Binary64.div (cross (sub b1 a1) (sub b2 b1)) (directionCross a1 a2 b1 b2)

/-- The parameter `u` of `lineSegmentIntersection`, as the code computes it. -/
def paramU (a1 a2 b1 b2 : DPoint) : Dbl :=
  Binary64.div (cross (sub b1 a1) (sub a2 a1)) (directionCross a1 a2 b1 b2)

end PolygonOpsIeee

/-! ## Convex hull widget -/

namespace ConvexHull

theorem wrapLoop_add_fuel (points : List Point) (startIndex : Nat) (extra : Nat) :
    ∀ (fuel current : Nat) (hullIndices result : List Nat),
      wrapLoop points startIndex fuel current hullIndices = some result →
      wrapLoop points startIndex (fuel + extra) current hullIndices = some result := by
  intro fuel
  induction fuel with
  | zero => intro current hullIndices result h; simp [wrapLoop] at h
  | succ fuel ih =>
    intro current hullIndices result h
    rw [Nat.add_right_comm]
    simp only [wrapLoop] at h ⊢
    split at h
    · rename_i hne
      rw [if_pos hne]
      exact ih _ _ _ h
    · rename_i hne
      rw [if_neg hne]
      exact h

theorem computeConvexHull_add_fuel (fuel extra : Nat) (w w' : ConvexHullWidget)
    (h : computeConvexHull fuel w = some w') :
    computeConvexHull (fuel + extra) w = some w' := by
  unfold computeConvexHull at h ⊢
  split
  · rename_i hlt
    rw [if_pos hlt] at h
    exact h
  · rename_i hlt
    rw [if_neg hlt] at h
    simp only at h ⊢
    cases hw : wrapLoop w.points (findStartIndex w.points) fuel (findStartIndex w.points) [] with
    | none => rw [hw] at h; simp at h
    | some r =>
      rw [hw] at h
      rw [wrapLoop_add_fuel _ _ extra _ _ _ _ hw]
      exact h

theorem loopingInput_cycle (fuel : Nat) :
    ∀ hullIndices : List Nat,
      wrapLoop (widgetOf loopingInput).points 0 fuel 4 hullIndices = none ∧
      wrapLoop (widgetOf loopingInput).points 0 fuel 1 hullIndices = none ∧
      wrapLoop (widgetOf loopingInput).points 0 fuel 2 hullIndices = none := by
  have h4 : nextIndex (widgetOf loopingInput).points 4 = 1 := by decide!
  have h1 : nextIndex (widgetOf loopingInput).points 1 = 2 := by decide!
  have h2 : nextIndex (widgetOf loopingInput).points 2 = 4 := by decide!
  induction fuel with
  | zero => intro hullIndices; simp [wrapLoop]
  | succ fuel ih =>
    intro hullIndices
    refine ⟨?_, ?_, ?_⟩
    · simp only [wrapLoop, h4]; exact (ih _).2.1
    · simp only [wrapLoop, h1]; exact (ih _).2.2
    · simp only [wrapLoop, h2]; exact (ih _).1

end ConvexHull

namespace ConvexHull

/-- C1, evaluated at a failing input: on the six points of `clockwiseInput` the loop ends
after five iterations with the hull (0,0), (200,100), (0,300), (0,100), (100,100); its
consecutive vertices (0,100), (100,100), (0,0) turn clockwise, so the hull is not
convex. -/
theorem hull_with_clockwise_turn (extra : Nat) :
    computeConvexHull (5 + extra) (widgetOf clockwiseInput) =
      some { widgetOf clockwiseInput with
        convexHull := [⟨0, 0⟩, ⟨200, 100⟩, ⟨0, 300⟩, ⟨0, 100⟩, ⟨100, 100⟩] } ∧
    orientation ⟨0, 100⟩ ⟨100, 100⟩ ⟨0, 0⟩ = 1 ∧
    ¬ NoClockwiseTurn [⟨0, 0⟩, ⟨200, 100⟩, ⟨0, 300⟩, ⟨0, 100⟩, ⟨100, 100⟩] :=
  ⟨computeConvexHull_add_fuel 5 extra _ _ (by decide!), by decide!, by decide!⟩

/-- C2, evaluated at a failing input: on the five points of `outsideInput` the loop ends
after three iterations with the hull (0,0), (200,0), (0,100); the input point (300,0) is
on the clockwise side of the hull edge from (200,0) to (0,100), hence outside. -/
theorem hull_leaving_point_outside (extra : Nat) :
    computeConvexHull (3 + extra) (widgetOf outsideInput) =
      some { widgetOf outsideInput with convexHull := [⟨0, 0⟩, ⟨200, 0⟩, ⟨0, 100⟩] } ∧
    (⟨⟨300, 0⟩, false⟩ : Point) ∈ (widgetOf outsideInput).points ∧
    orientation ⟨200, 0⟩ ⟨0, 100⟩ ⟨300, 0⟩ = 1 ∧
    ¬ OnOrInside [⟨0, 0⟩, ⟨200, 0⟩, ⟨0, 100⟩] ⟨300, 0⟩ :=
  ⟨computeConvexHull_add_fuel 3 extra _ _ (by decide!), by decide!, by decide!, by decide!⟩

/-- C9, evaluated at a failing input: on the five distinct points of `loopingInput` the
loop leaves the anchor index 0 for index 4 and then cycles through 4, 1, 2 for ever; no
number of iterations brings `current` back to the anchor. -/
theorem hull_loop_never_ends (fuel : Nat) :
    findStartIndex (widgetOf loopingInput).points = 0 ∧
    nextIndex (widgetOf loopingInput).points 0 = 4 ∧
    nextIndex (widgetOf loopingInput).points 4 = 1 ∧
    nextIndex (widgetOf loopingInput).points 1 = 2 ∧
    nextIndex (widgetOf loopingInput).points 2 = 4 ∧
    computeConvexHull fuel (widgetOf loopingInput) = none := by
  have hs : findStartIndex (widgetOf loopingInput).points = 0 := by decide!
  have h0 : nextIndex (widgetOf loopingInput).points 0 = 4 := by decide!
  refine ⟨hs, h0, by decide!, by decide!, by decide!, ?_⟩
  have hlen : ¬ (widgetOf loopingInput).points.length < 3 := by decide!
  unfold computeConvexHull
  rw [if_neg hlen]
  simp only [hs]
  cases fuel with
  | zero => simp [wrapLoop]
  | succ fuel =>
    simp only [wrapLoop, h0]
    rw [if_pos (by decide), (loopingInput_cycle fuel _).1]

/-- C10, evaluated at a failing input: for the three collinear points (0,0), (100,0),
(200,0) the hull lists all three, the middle point (100,0) included. -/
theorem hull_keeps_middle_collinear_point (extra : Nat) :
    computeConvexHull (3 + extra) (widgetOf collinearInput) =
      some { widgetOf collinearInput with
        convexHull := [⟨0, 0⟩, ⟨100, 0⟩, ⟨200, 0⟩] } :=
  computeConvexHull_add_fuel 3 extra _ _ (by decide!)

end ConvexHull

/-! ## Delaunay widget -/

namespace Delaunay

theorem mem_foldl_remove (toRemove : List Triangle) :
    ∀ (triangleList : List Triangle) (t : Triangle),
      t ∈ toRemove.foldl (fun tl triangle => tl.filter (fun t => decide (t ≠ triangle)))
        triangleList ↔ t ∈ triangleList ∧ t ∉ toRemove := by
  induction toRemove with
  | nil => intro triangleList t; simp
  | cons r rest ih =>
    intro triangleList t
    rw [List.foldl_cons, ih]
    simp only [List.mem_filter, decide_eq_true_eq, List.mem_cons, not_or]
    tauto

theorem mem_insertPoint (temp : List QPointF) (p : QPointF) (i : Nat)
    (triangleList : List Triangle) (t : Triangle)
    (h : t ∈ insertPoint temp p i triangleList) :
    (t ∈ triangleList ∧ circumcircleContains temp p t = false) ∨ t.p3 = i := by
  unfold insertPoint at h
  simp only [List.mem_append, List.mem_map] at h
  rcases h with h | ⟨e, _, he⟩
  · left
    rw [mem_foldl_remove] at h
    refine ⟨h.1, ?_⟩
    have h2 := h.2
    simp only [List.mem_filter, not_and, Bool.not_eq_true] at h2
    exact h2 h.1
  · right
    rw [← he]

theorem workingList_succ (points : List Point) (k : Nat) :
    workingList points (k + 1) =
      insertPoint (tempPoints points) (points.getD k default).pos k (workingList points k) := by
  unfold workingList
  simp only [List.range_succ, List.foldl_append, List.foldl_cons, List.foldl_nil]

theorem workingList_later_points (points : List Point) (i : Nat) :
    ∀ t ∈ workingList points i, ∀ k, t.p3 < k → k < i →
      circumcircleContains (tempPoints points) (points.getD k default).pos t = false := by
  induction i with
  | zero => intro t _ k _ hk; omega
  | succ i ih =>
    intro t ht k hk1 hk2
    rw [workingList_succ] at ht
    rcases mem_insertPoint _ _ _ _ _ ht with ⟨hold, hout⟩ | hnew
    · by_cases hki : k = i
      · rw [hki]; exact hout
      · exact ih t hold k hk1 (by omega)
    · omega

theorem tempPoints_getD (points : List Point) (j : Nat) (hj : j < points.length) :
    (tempPoints points).getD j default = (points.getD j default).pos := by
  unfold tempPoints
  simp only
  rw [List.getD_append _ _ _ _ (by simpa using hj)]
  rw [List.getD_eq_getElem _ _ (by simpa using hj), List.getD_eq_getElem _ _ hj]
  simp

theorem mem_computeDelaunay (w : DelaunayWidget) (t : Triangle)
    (ht : t ∈ (computeDelaunay w).triangles) :
    t ∈ workingList w.points w.points.length ∧
      t.p1 < w.points.length ∧ t.p2 < w.points.length ∧ t.p3 < w.points.length := by
  unfold computeDelaunay at ht
  split at ht
  · simp at ht
  · simp only [List.mem_filter, Bool.not_eq_true', Bool.or_eq_false_iff,
      decide_eq_false_iff_not, not_le, ge_iff_le] at ht
    exact ⟨ht.1, ht.2.1.1, ht.2.1.2, ht.2.2⟩

/-- In exact arithmetic: for the four corners of a square, which lie on one circle,
`computeDelaunay` returns a triangle whose circumcircle holds the fourth corner. After
three insertions the working list holds the triangle (0,1,2); the corner 3 is on its
circumcircle, the inclusive test removes it, and the triangles (0,1,3) and (1,2,3) are
returned; the corner 2 is on the circumcircle of (0,1,3). -/
theorem square_circumcircle_not_empty :
    workingList (widgetOf squareInput).points 3 =
      [⟨4, 5, 0⟩, ⟨4, 6, 1⟩, ⟨0, 4, 1⟩, ⟨5, 6, 2⟩, ⟨1, 6, 2⟩, ⟨0, 5, 2⟩, ⟨0, 1, 2⟩] ∧
    workingList (widgetOf squareInput).points 4 =
      [⟨4, 6, 1⟩, ⟨0, 4, 1⟩, ⟨5, 6, 2⟩, ⟨1, 6, 2⟩, ⟨4, 5, 3⟩, ⟨0, 4, 3⟩, ⟨2, 5, 3⟩,
       ⟨0, 1, 3⟩, ⟨1, 2, 3⟩] ∧
    (computeDelaunay (widgetOf squareInput)).triangles = [⟨0, 1, 3⟩, ⟨1, 2, 3⟩] ∧
    isPointInCircumcircle ⟨0, 0⟩ ⟨100, 0⟩ ⟨0, 100⟩ ⟨100, 100⟩ = true ∧
    ¬ EmptyCircumcircles (computeDelaunay (widgetOf squareInput)) :=
  ⟨by decide!, by decide!, by decide!, by decide!, by decide!⟩

/-- In exact arithmetic: the circumcircle of every triangle returned by `computeDelaunay` holds
no input point inserted after the triangle was created, that is no input point whose
index is greater than the third index of the triangle (the point that created it). -/
theorem circumcircle_free_of_later_points (w : DelaunayWidget) (t : Triangle) (k : Nat)
    (ht : t ∈ (computeDelaunay w).triangles) (hk : t.p3 < k) (hkn : k < w.points.length) :
    isPointInCircumcircle (w.points.getD t.p1 default).pos (w.points.getD t.p2 default).pos
      (w.points.getD t.p3 default).pos (w.points.getD k default).pos = false := by
  obtain ⟨hmem, h1, h2, h3⟩ := mem_computeDelaunay w t ht
  have h := workingList_later_points w.points w.points.length t hmem k hk hkn
  unfold circumcircleContains at h
  rw [tempPoints_getD _ _ h1, tempPoints_getD _ _ h2, tempPoints_getD _ _ h3] at h
  exact h

/-- In exact arithmetic: for `lateInput` the triangle (0,1,2)
is returned, and the point 3, inserted after it, is outside its circumcircle. -/
theorem circumcircle_free_of_later_points_witness :
    (⟨0, 1, 2⟩ : Triangle) ∈ (computeDelaunay (widgetOf lateInput)).triangles ∧
    isPointInCircumcircle ((widgetOf lateInput).points.getD 0 default).pos
      ((widgetOf lateInput).points.getD 1 default).pos
      ((widgetOf lateInput).points.getD 2 default).pos
      ((widgetOf lateInput).points.getD 3 default).pos = false :=
  ⟨by decide!,
   circumcircle_free_of_later_points (widgetOf lateInput) ⟨0, 1, 2⟩ 3 (by decide!)
     (by decide) (by decide)⟩

/-- C4: every triangle returned by `computeDelaunay` has its three indices below the
number of input points; none of the super-triangle indices n, n+1, n+2 is left. -/
theorem computeDelaunay_indices_in_range (w : DelaunayWidget) (t : Triangle)
    (ht : t ∈ (computeDelaunay w).triangles) :
    (0 ≤ t.p1 ∧ t.p1 < w.points.length) ∧ (0 ≤ t.p2 ∧ t.p2 < w.points.length) ∧
      (0 ≤ t.p3 ∧ t.p3 < w.points.length) ∧
      t.p1 ≠ w.points.length ∧ t.p1 ≠ w.points.length + 1 ∧ t.p1 ≠ w.points.length + 2 ∧
      t.p2 ≠ w.points.length ∧ t.p2 ≠ w.points.length + 1 ∧ t.p2 ≠ w.points.length + 2 ∧
      t.p3 ≠ w.points.length ∧ t.p3 ≠ w.points.length + 1 ∧ t.p3 ≠ w.points.length + 2 := by
  obtain ⟨_, h1, h2, h3⟩ := mem_computeDelaunay w t ht
  omega

/-- Witness for C4: the triangle (0,1,3) returned for the
square. -/
theorem computeDelaunay_indices_in_range_witness :
    (⟨0, 1, 3⟩ : Triangle) ∈ (computeDelaunay (widgetOf squareInput)).triangles ∧
      (0 < 4 ∧ 1 < 4 ∧ 3 < 4) :=
  ⟨by decide!,
   (computeDelaunay_indices_in_range (widgetOf squareInput) ⟨0, 1, 3⟩ (by decide!)).1.2,
   (computeDelaunay_indices_in_range (widgetOf squareInput) ⟨0, 1, 3⟩ (by decide!)).2.1.2,
   (computeDelaunay_indices_in_range (widgetOf squareInput) ⟨0, 1, 3⟩ (by decide!)).2.2.1.2⟩

end Delaunay

/-! ## Fewer than three points -/

/-- C7: when the point list has fewer than three points, `computeConvexHull` ends (with
any bound on the loop, which is not entered) leaving the hull empty and the points
untouched, and `computeDelaunay` leaves the triangle list empty, whatever hull or
triangles were stored before. -/
theorem fewer_than_three_points_empty_result (hw : ConvexHull.ConvexHullWidget)
    (dw : Delaunay.DelaunayWidget) (fuel : Nat) :
    (hw.points.length < 3 →
      ConvexHull.computeConvexHull fuel hw = some { hw with convexHull := [] }) ∧
    (dw.points.length < 3 →
      Delaunay.computeDelaunay dw = { dw with triangles := [] }) := by
  constructor
  · intro h
    unfold ConvexHull.computeConvexHull
    rw [if_pos h]
  · intro h
    unfold Delaunay.computeDelaunay
    rw [if_pos h]

/-- Witness for C7: two points and a stored
result in each widget. -/
theorem fewer_than_three_points_empty_result_witness :
    ConvexHull.computeConvexHull 0
        { points := [⟨⟨0, 0⟩, false⟩, ⟨⟨100, 0⟩, true⟩], convexHull := [⟨1, 2⟩, ⟨3, 4⟩, ⟨5, 6⟩],
          onlineMode := true } =
      some { points := [⟨⟨0, 0⟩, false⟩, ⟨⟨100, 0⟩, true⟩], convexHull := [],
             onlineMode := true } ∧
    Delaunay.computeDelaunay
        { points := [⟨⟨0, 0⟩, false⟩, ⟨⟨100, 0⟩, true⟩], triangles := [⟨0, 1, 2⟩],
          onlineMode := false } =
      { points := [⟨⟨0, 0⟩, false⟩, ⟨⟨100, 0⟩, true⟩], triangles := [],
        onlineMode := false } :=
  ⟨(fewer_than_three_points_empty_result
      { points := [⟨⟨0, 0⟩, false⟩, ⟨⟨100, 0⟩, true⟩], convexHull := [⟨1, 2⟩, ⟨3, 4⟩, ⟨5, 6⟩],
        onlineMode := true }
      { points := [⟨⟨0, 0⟩, false⟩, ⟨⟨100, 0⟩, true⟩], triangles := [⟨0, 1, 2⟩],
        onlineMode := false } 0).1 (by decide),
   (fewer_than_three_points_empty_result
      { points := [⟨⟨0, 0⟩, false⟩, ⟨⟨100, 0⟩, true⟩], convexHull := [⟨1, 2⟩, ⟨3, 4⟩, ⟨5, 6⟩],
        onlineMode := true }
      { points := [⟨⟨0, 0⟩, false⟩, ⟨⟨100, 0⟩, true⟩], triangles := [⟨0, 1, 2⟩],
        onlineMode := false } 0).2 (by decide)⟩

/-! ## Polygon boolean operations -/

namespace PolygonOps

theorem lineSegmentIntersection_eq (a1 a2 b1 b2 : Point) :
    lineSegmentIntersection a1 a2 b1 b2 =
      if |directionCross a1 a2 b1 b2| < eps then none
      else if paramT a1 a2 b1 b2 ≥ 0 ∧ paramT a1 a2 b1 b2 ≤ 1 ∧
          paramU a1 a2 b1 b2 ≥ 0 ∧ paramU a1 a2 b1 b2 ≤ 1
        then some (a1.add ((a2.sub a1).smul (paramT a1 a2 b1 b2))) else none := rfl

/-- In exact arithmetic: `lineSegmentIntersection` reports an intersection exactly when the cross product
of the two direction vectors has magnitude at least 1e-9 and both parameters `t` and `u`
lie in [0,1]; the point it then returns is `a1 + t (a2 - a1)` and also
`b1 + u (b2 - b1)`, a point of both closed segments; a zero cross product (parallel or
collinear segments, overlapping or not) gives no intersection. -/
theorem lineSegmentIntersection_spec (a1 a2 b1 b2 : Point) :
    ((lineSegmentIntersection a1 a2 b1 b2).isSome = true ↔
      (|directionCross a1 a2 b1 b2| ≥ eps ∧
        0 ≤ paramT a1 a2 b1 b2 ∧ paramT a1 a2 b1 b2 ≤ 1 ∧
        0 ≤ paramU a1 a2 b1 b2 ∧ paramU a1 a2 b1 b2 ≤ 1)) ∧
    (∀ r, lineSegmentIntersection a1 a2 b1 b2 = some r →
      r = a1.add ((a2.sub a1).smul (paramT a1 a2 b1 b2)) ∧
      r = b1.add ((b2.sub b1).smul (paramU a1 a2 b1 b2)) ∧
      0 ≤ paramT a1 a2 b1 b2 ∧ paramT a1 a2 b1 b2 ≤ 1 ∧
      0 ≤ paramU a1 a2 b1 b2 ∧ paramU a1 a2 b1 b2 ≤ 1) ∧
    (directionCross a1 a2 b1 b2 = 0 → lineSegmentIntersection a1 a2 b1 b2 = none) := by
  have heps : (0 : ℚ) < eps := by unfold eps; norm_num
  refine ⟨?_, ?_, ?_⟩
  · rw [lineSegmentIntersection_eq]
    by_cases hc : |directionCross a1 a2 b1 b2| < eps
    · simp [hc]
    · by_cases hp : paramT a1 a2 b1 b2 ≥ 0 ∧ paramT a1 a2 b1 b2 ≤ 1 ∧
          paramU a1 a2 b1 b2 ≥ 0 ∧ paramU a1 a2 b1 b2 ≤ 1
      · simp only [if_neg hc, if_pos hp, Option.isSome_some, true_iff]
        exact ⟨not_lt.mp hc, hp⟩
      · simp only [if_neg hc, if_neg hp, Option.isSome_none, Bool.false_eq_true, false_iff]
        intro h
        exact hp h.2
  · intro r hr
    rw [lineSegmentIntersection_eq] at hr
    by_cases hc : |directionCross a1 a2 b1 b2| < eps
    · simp [hc] at hr
    · rw [if_neg hc] at hr
      by_cases hp : paramT a1 a2 b1 b2 ≥ 0 ∧ paramT a1 a2 b1 b2 ≤ 1 ∧
          paramU a1 a2 b1 b2 ≥ 0 ∧ paramU a1 a2 b1 b2 ≤ 1
      · rw [if_pos hp] at hr
        have hr2 : r = a1.add ((a2.sub a1).smul (paramT a1 a2 b1 b2)) :=
          (Option.some.inj hr).symm
        have hne : directionCross a1 a2 b1 b2 ≠ 0 := by
          intro h0
          rw [h0, abs_zero] at hc
          exact hc heps
        refine ⟨hr2, ?_, hp⟩
        rw [hr2]
        have hne2 : (a2.x - a1.x) * (b2.y - b1.y) - (a2.y - a1.y) * (b2.x - b1.x) ≠ 0 := by
          simpa [directionCross, Point.cross, Point.sub] using hne
        simp only [Point.add, Point.smul, Point.sub, paramT, paramU, directionCross,
          Point.cross, Point.mk.injEq]
        constructor
        · field_simp
          ring
        · field_simp
          ring
      · simp [hp] at hr
  · intro h0
    rw [lineSegmentIntersection_eq, h0, abs_zero, if_pos heps]

/-- In exact arithmetic: the diagonals of a square cross in its centre. -/
theorem lineSegmentIntersection_spec_witness :
    lineSegmentIntersection ⟨0, 0⟩ ⟨10, 10⟩ ⟨0, 10⟩ ⟨10, 0⟩ = some ⟨5, 5⟩ ∧
    (⟨5, 5⟩ : Point) = (⟨0, 10⟩ : Point).add
      (((⟨10, 0⟩ : Point).sub ⟨0, 10⟩).smul (paramU ⟨0, 0⟩ ⟨10, 10⟩ ⟨0, 10⟩ ⟨10, 0⟩)) :=
  ⟨by decide!,
   ((lineSegmentIntersection_spec ⟨0, 0⟩ ⟨10, 10⟩ ⟨0, 10⟩ ⟨10, 0⟩).2.1 ⟨5, 5⟩
      (by decide!)).2.1⟩

theorem foldl_addPoint (l : List Point) :
    ∀ r : Polygon, (l.foldl Polygon.addPoint r).points = r.points ++ l := by
  induction l with
  | nil => intro r; simp
  | cons a rest ih => intro r; simp [List.foldl_cons, ih, Polygon.addPoint]

theorem edgeCrossings_nil_left (points2 : List Point) : edgeCrossings [] points2 = [] := by
  simp [edgeCrossings]

theorem edgeCrossings_nil_right (points1 : List Point) : edgeCrossings points1 [] = [] := by
  simp [edgeCrossings]

theorem isPointInsidePolygon_nil (p : Point) : isPointInsidePolygon p [] = false := by
  simp [isPointInsidePolygon]

theorem scan_ne_nil (points : List Point) (l : List Nat) :
    ∀ hull : List Point, hull ≠ [] →
      l.foldl (fun hull i => points.getD i default :: popNonLeft (points.getD i default) hull)
        hull ≠ [] := by
  induction l with
  | nil => intro hull h; simpa using h
  | cons a rest ih => intro hull _; rw [List.foldl_cons]; exact ih _ (by simp)

theorem hullOfPoints_eq_nil_iff (points : List Point) :
    hullOfPoints points = [] ↔ points = [] := by
  unfold hullOfPoints
  split
  · rfl
  · rename_i h
    simp only [List.reverse_eq_nil_iff]
    constructor
    · intro h2
      exact absurd h2 (scan_ne_nil _ _ _ (by simp))
    · intro h2
      rw [h2] at h
      simp at h

theorem finishResult_points (c : PolygonCanvas) :
    (finishResult c).result.points = hullOfPoints c.result.points := by
  unfold finishResult
  by_cases h : c.result.points = []
  · simp [Polygon.empty, h, hullOfPoints]
  · simp [Polygon.empty, h, Polygon.computeConvexHull]

/-- C8, refuted as stated: with `poly1` a triangle and `poly2` empty, Union and
Difference both leave the three vertices of `poly1` in the result. -/
theorem union_difference_with_empty_operand_not_empty :
    (computeResult (canvasOf .UNION [(0, 0), (100, 0), (0, 100)] [] [])).result.points =
      [⟨0, 0⟩, ⟨100, 0⟩, ⟨0, 100⟩] ∧
    (computeResult (canvasOf .DIFFERENCE [(0, 0), (100, 0), (0, 100)] [] [])).result.points =
      [⟨0, 0⟩, ⟨100, 0⟩, ⟨0, 100⟩] ∧
    (computeResult (canvasOf .UNION [] [(0, 0), (100, 0), (0, 100)] [])).result.points =
      [⟨0, 0⟩, ⟨100, 0⟩, ⟨0, 100⟩] :=
  ⟨by decide!, by decide!, by decide!⟩

/-- C8, amended: `computeResult` leaves the result empty for Intersection when at least
one operand is empty, for Difference when `poly1` is empty, and for Union when both
operands are empty. With one operand empty, Union yields the hull reduction of the other
operand, and Difference with `poly2` empty yields the hull reduction of `poly1`; these
results are empty only when that other operand is empty too. -/
theorem computeResult_empty_operand (c : PolygonCanvas) :
    (c.operation = .INTERSECTION → c.poly1.points = [] ∨ c.poly2.points = [] →
      (computeResult c).result.points = []) ∧
    (c.operation = .DIFFERENCE → c.poly1.points = [] →
      (computeResult c).result.points = []) ∧
    (c.operation = .UNION → c.poly1.points = [] → c.poly2.points = [] →
      (computeResult c).result.points = []) ∧
    (c.operation = .UNION → c.poly1.points = [] →
      (computeResult c).result.points = hullOfPoints c.poly2.points ∧
      ((computeResult c).result.points = [] ↔ c.poly2.points = [])) ∧
    (c.operation = .UNION → c.poly2.points = [] →
      (computeResult c).result.points = hullOfPoints c.poly1.points ∧
      ((computeResult c).result.points = [] ↔ c.poly1.points = [])) ∧
    (c.operation = .DIFFERENCE → c.poly2.points = [] →
      (computeResult c).result.points = hullOfPoints c.poly1.points ∧
      ((computeResult c).result.points = [] ↔ c.poly1.points = [])) := by
  have hU1 : c.operation = .UNION → c.poly1.points = [] →
      (computeResult c).result.points = hullOfPoints c.poly2.points := by
    intro hop h1
    simp [computeResult, hop, computeUnion, finishResult_points, foldl_addPoint, h1,
      Polygon.clear]
  have hU2 : c.operation = .UNION → c.poly2.points = [] →
      (computeResult c).result.points = hullOfPoints c.poly1.points := by
    intro hop h2
    simp [computeResult, hop, computeUnion, finishResult_points, foldl_addPoint, h2,
      Polygon.clear]
  have hD2 : c.operation = .DIFFERENCE → c.poly2.points = [] →
      (computeResult c).result.points = hullOfPoints c.poly1.points := by
    intro hop h2
    simp [computeResult, hop, computeDifference, finishResult_points, foldl_addPoint, h2,
      Polygon.clear, edgeCrossings_nil_right, isPointInsidePolygon_nil]
  refine ⟨?_, ?_, ?_, ?_, ?_, ?_⟩
  · intro hop h
    rcases h with h1 | h2
    · simp [computeResult, hop, computeIntersection, finishResult_points, foldl_addPoint, h1,
        Polygon.clear, edgeCrossings_nil_left, isPointInsidePolygon_nil, hullOfPoints]
    · simp [computeResult, hop, computeIntersection, finishResult_points, foldl_addPoint, h2,
        Polygon.clear, edgeCrossings_nil_right, isPointInsidePolygon_nil, hullOfPoints]
  · intro hop h1
    simp [computeResult, hop, computeDifference, finishResult_points, foldl_addPoint, h1,
      Polygon.clear, edgeCrossings_nil_left, hullOfPoints]
  · intro hop h1 h2
    rw [hU1 hop h1, h2]
    rfl
  · intro hop h1
    rw [hU1 hop h1]
    exact ⟨rfl, hullOfPoints_eq_nil_iff _⟩
  · intro hop h2
    rw [hU2 hop h2]
    exact ⟨rfl, hullOfPoints_eq_nil_iff _⟩
  · intro hop h2
    rw [hD2 hop h2]
    exact ⟨rfl, hullOfPoints_eq_nil_iff _⟩

/-- Witness for C8 as amended: Intersection of a triangle with the empty
polygon, over a stored result, is empty. -/
theorem computeResult_empty_operand_witness :
    (computeResult (canvasOf .INTERSECTION [(0, 0), (100, 0), (0, 100)] []
      [(1, 1), (2, 2)])).result.points = [] :=
  (computeResult_empty_operand (canvasOf .INTERSECTION [(0, 0), (100, 0), (0, 100)] []
    [(1, 1), (2, 2)])).1 rfl (Or.inr rfl)

/-! ### Intersection of a convex polygon with itself -/

theorem eps_pos : (0 : ℚ) < eps := by unfold eps; norm_num

theorem angleLess_of_area {p a b : Point} (h : eps < area2 p a b) :
    angleLess p a b = true ∧ angleLess p b a = false := by
  have he := eps_pos
  unfold area2 at h
  have hc : (b.sub p).cross (a.sub p) = - (a.sub p).cross (b.sub p) := by
    simp only [Point.cross, Point.sub]; ring
  constructor
  · unfold angleLess
    simp only
    rw [if_pos (lt_of_lt_of_le h (le_abs_self _))]
    exact decide_eq_true (lt_trans he h)
  · unfold angleLess
    simp only
    rw [hc, abs_neg, if_pos (lt_of_lt_of_le h (le_abs_self _))]
    exact decide_eq_false (by linarith)

theorem angleLess_self (p a : Point) : angleLess p a a = false := by
  have he := eps_pos
  have hc : (a.sub p).cross (a.sub p) = 0 := by
    simp only [Point.cross, Point.sub]; ring
  unfold angleLess
  simp only [hc, abs_zero]
  rw [if_neg (not_lt.mpr he.le)]
  exact decide_eq_false (lt_irrefl _)

theorem angleLess_pivot_right (p a : Point) : angleLess p a p = false := by
  have he := eps_pos
  have hc : (a.sub p).cross (p.sub p) = 0 := by
    simp only [Point.cross, Point.sub]; ring
  have hd : (p.sub p).dist2 = 0 := by
    simp only [Point.dist2, Point.sub]; ring
  unfold angleLess
  simp only [hc, hd, abs_zero]
  rw [if_neg (not_lt.mpr he.le)]
  apply decide_eq_false
  simp only [Point.dist2, not_lt]
  nlinarith [sq_nonneg (a.sub p).x, sq_nonneg (a.sub p).y]

theorem angleLess_pivot_left {p b : Point} (h : b ≠ p) : angleLess p p b = true := by
  have he := eps_pos
  have hc : (p.sub p).cross (b.sub p) = 0 := by
    simp only [Point.cross, Point.sub]; ring
  have hd : (p.sub p).dist2 = 0 := by
    simp only [Point.dist2, Point.sub]; ring
  unfold angleLess
  simp only [hc, hd, abs_zero]
  rw [if_neg (not_lt.mpr he.le)]
  apply decide_eq_true
  cases p with | mk px py =>
  cases b with | mk bx b_y =>
  simp only [Point.dist2, Point.sub]
  by_contra hcon
  apply h
  have hx : bx - px = 0 := by nlinarith [sq_nonneg (bx - px), sq_nonneg (b_y - py)]
  have hy : b_y - py = 0 := by nlinarith [sq_nonneg (bx - px), sq_nonneg (b_y - py)]
  simp only [Point.mk.injEq]
  constructor <;> linarith

theorem lexLess_ne {a b : Point} (h : lexLess a b) : b ≠ a := by
  intro hab
  rw [hab] at h
  rcases h with h1 | ⟨_, h2⟩
  · exact lt_irrefl _ h1
  · exact lt_irrefl _ h2

theorem angleLess_vertex {A : List Point} (hA : IsHullReduced A) {a b : Nat}
    (ha : a < A.length) (hb : b < A.length) :
    angleLess (A.getD 0 default) (A.getD a default) (A.getD b default) = decide (a < b) := by
  rcases Nat.eq_zero_or_pos a with ha0 | ha0
  · subst ha0
    rcases Nat.eq_zero_or_pos b with hb0 | hb0
    · subst hb0
      rw [angleLess_self]; simp
    · rw [angleLess_pivot_left (lexLess_ne (hA.1 b hb hb0))]
      exact (decide_eq_true hb0).symm
  · rcases Nat.eq_zero_or_pos b with hb0 | hb0
    · subst hb0
      rw [angleLess_pivot_right]; simp
    · rcases Nat.lt_trichotomy a b with hab | hab | hab
      · rw [(angleLess_of_area (hA.2 b hb a hab 0 ha0)).1]
        exact (decide_eq_true hab).symm
      · subst hab
        rw [angleLess_self]; simp
      · rw [(angleLess_of_area (hA.2 a ha b hab 0 hb0)).2]
        exact (decide_eq_false (Nat.lt_asymm hab)).symm

theorem vertex_injective {A : List Point} (hA : IsHullReduced A) {a b : Nat}
    (ha : a < A.length) (hb : b < A.length) (h : A.getD a default = A.getD b default) :
    a = b := by
  have h1 := angleLess_vertex hA ha hb
  have h2 := angleLess_vertex hA hb ha
  rw [h, angleLess_self] at h1
  rw [h, angleLess_self] at h2
  have h1' : ¬ a < b := by simpa using h1.symm
  have h2' : ¬ b < a := by simpa using h2.symm
  omega

theorem popNonLeft_cons_cons (p3 p2 p1 : Point) (rest : List Point) :
    popNonLeft p3 (p2 :: p1 :: rest) =
      if (p2.sub p1).cross (p3.sub p1) ≤ 0 then popNonLeft p3 (p1 :: rest)
      else p2 :: p1 :: rest := by
  rw [popNonLeft]

theorem popIdx_cons_cons (k j i : Nat) (rest : List Nat) :
    popIdx k (j :: i :: rest) =
      if i < j ∧ j < k then j :: i :: rest else popIdx k (i :: rest) := by
  rw [popIdx]

theorem popNonLeft_of_area {p1 p2 p3 : Point} (h : eps < area2 p1 p2 p3) (rest : List Point) :
    popNonLeft p3 (p2 :: p1 :: rest) = p2 :: p1 :: rest := by
  have he := eps_pos
  unfold area2 at h
  rw [popNonLeft_cons_cons, if_neg (by linarith)]

theorem popNonLeft_same_top (p1 p3 : Point) (rest : List Point) :
    popNonLeft p3 (p3 :: p1 :: rest) = popNonLeft p3 (p1 :: rest) := by
  have hc : (p3.sub p1).cross (p3.sub p1) = 0 := by
    simp only [Point.cross, Point.sub]; ring
  rw [popNonLeft_cons_cons, if_pos (le_of_eq hc)]

theorem popNonLeft_same_below (p1 p3 : Point) (rest : List Point) :
    popNonLeft p3 (p1 :: p1 :: rest) = popNonLeft p3 (p1 :: rest) := by
  have hc : (p1.sub p1).cross (p3.sub p1) = 0 := by
    simp only [Point.cross, Point.sub]; ring
  rw [popNonLeft_cons_cons, if_pos (le_of_eq hc)]

theorem popNonLeft_map {A : List Point} (hA : IsHullReduced A) (k : Nat) (hk : k < A.length) :
    ∀ D : List Nat, List.Chain' (fun a b => b ≤ a) D → (∀ j ∈ D.head?, j ≤ k) →
      popNonLeft (A.getD k default) (D.map (fun i => A.getD i default)) =
        (popIdx k D).map (fun i => A.getD i default) := by
  intro D
  induction D with
  | nil => intro _ _; rfl
  | cons j below ih =>
    intro hch hhead
    have hjk : j ≤ k := hhead j (by simp)
    cases below with
    | nil => rfl
    | cons i rest =>
      have hij : i ≤ j := (List.chain'_cons.mp hch).1
      have hch' : List.Chain' (fun a b => b ≤ a) (i :: rest) := (List.chain'_cons.mp hch).2
      have ih' := ih hch' (by intro x hx; simp at hx; omega)
      by_cases hc : i < j ∧ j < k
      · rw [popIdx_cons_cons, if_pos hc]
        simp only [List.map_cons]
        exact popNonLeft_of_area (hA.2 k hk j hc.2 i hc.1) _
      · rw [popIdx_cons_cons, if_neg hc, ← ih']
        simp only [List.map_cons]
        by_cases hij' : i = j
        · subst hij'
          exact popNonLeft_same_below _ _ _
        · have hjk' : j = k := by omega
          subst hjk'
          exact popNonLeft_same_top _ _ _

theorem popIdx_of_strict (k : Nat) :
    ∀ D : List Nat, List.Chain' (fun a b => b < a) D → (∀ j ∈ D.head?, j < k) →
      popIdx k D = D := by
  intro D hch hhead
  cases D with
  | nil => rfl
  | cons j below =>
    cases below with
    | nil => rfl
    | cons i rest =>
      have hij : i < j := (List.chain'_cons.mp hch).1
      have hjk : j < k := hhead j (by simp)
      rw [popIdx_cons_cons, if_pos (And.intro hij hjk)]

theorem scan_step {D : List Nat} (hD : ScanInv D) {k : Nat} (hk : ∀ j ∈ D.head?, j ≤ k) :
    ScanInv (k :: popIdx k D) ∧ (∀ x, x ∈ k :: popIdx k D ↔ x = k ∨ x ∈ D) := by
  rcases hD with h0 | ⟨hch, hlen⟩
  · subst h0
    have hp : popIdx k [0, 0] = [0] := by
      rw [popIdx_cons_cons, if_neg (by omega)]; rfl
    rw [hp]
    constructor
    · rcases Nat.eq_zero_or_pos k with hk0 | hk0
      · left; rw [hk0]
      · right; exact ⟨by simp [hk0], by simp⟩
    · intro x; simp
  · match D, hch, hlen, hk with
    | j :: i :: rest, hch, _, hk =>
      have hjk : j ≤ k := hk j (by simp)
      have hij : i < j := (List.chain'_cons.mp hch).1
      have hch' : List.Chain' (fun a b => b < a) (i :: rest) := (List.chain'_cons.mp hch).2
      rcases Nat.lt_or_eq_of_le hjk with hlt | heq
      · rw [popIdx_of_strict k _ hch (by intro x hx; simp at hx; omega)]
        constructor
        · right
          exact ⟨List.chain'_cons.mpr ⟨hlt, hch⟩, by simp⟩
        · intro x; simp
      · subst heq
        have hp : popIdx j (j :: i :: rest) = i :: rest := by
          have : ¬ (i < j ∧ j < j) := by omega
          rw [popIdx_cons_cons, if_neg this]
          exact popIdx_of_strict j _ hch' (by intro x hx; simp at hx; omega)
        rw [hp]
        constructor
        · right; exact ⟨hch, by simp⟩
        · intro x; simp

theorem scan_fold :
    ∀ (J D : List Nat), ScanInv D → List.Chain' (fun a b => a ≤ b) (D.head?.toList ++ J) →
      ScanInv (J.foldl (fun D k => k :: popIdx k D) D) ∧
      (∀ x, x ∈ J.foldl (fun D k => k :: popIdx k D) D ↔ x ∈ D ∨ x ∈ J) := by
  intro J
  induction J with
  | nil => intro D hD _; simp [hD]
  | cons k rest ih =>
    intro D hD hch
    have hne : D ≠ [] := by
      rcases hD with h | ⟨_, h⟩
      · rw [h]; simp
      · intro h0; rw [h0] at h; simp at h
    obtain ⟨j, tl, rfl⟩ := List.exists_cons_of_ne_nil hne
    simp only [List.head?_cons, Option.toList_some, List.singleton_append] at hch
    have hjk : j ≤ k := (List.chain'_cons.mp hch).1
    have hch' : List.Chain' (fun a b => a ≤ b) (k :: rest) := (List.chain'_cons.mp hch).2
    obtain ⟨hinv, hmem⟩ := scan_step hD (k := k) (by intro x hx; simp at hx; omega)
    rw [List.foldl_cons]
    obtain ⟨h1, h2⟩ := ih (k :: popIdx k (j :: tl)) hinv (by simpa using hch')
    refine ⟨h1, ?_⟩
    intro x
    rw [h2, hmem]
    simp only [List.mem_cons]
    tauto

theorem ScanInv.chain_le {D : List Nat} (hD : ScanInv D) : List.Chain' (fun a b => b ≤ a) D := by
  rcases hD with h | ⟨h, _⟩
  · rw [h]; simp
  · exact h.imp (fun {_ _} hab => Nat.le_of_lt hab)

theorem scan_map {A : List Point} (hA : IsHullReduced A) :
    ∀ (J D : List Nat), ScanInv D → List.Chain' (fun a b => a ≤ b) (D.head?.toList ++ J) →
      (∀ j ∈ J, j < A.length) →
      (J.map (fun i => A.getD i default)).foldl (fun hull x => x :: popNonLeft x hull)
          (D.map (fun i => A.getD i default)) =
        (J.foldl (fun D k => k :: popIdx k D) D).map (fun i => A.getD i default) := by
  intro J
  induction J with
  | nil => intro D _ _ _; rfl
  | cons k rest ih =>
    intro D hD hch hlt
    have hne : D ≠ [] := by
      rcases hD with h | ⟨_, h⟩
      · rw [h]; simp
      · intro h0; rw [h0] at h; simp at h
    obtain ⟨j, tl, rfl⟩ := List.exists_cons_of_ne_nil hne
    simp only [List.head?_cons, Option.toList_some, List.singleton_append] at hch
    have hjk : j ≤ k := (List.chain'_cons.mp hch).1
    have hch' : List.Chain' (fun a b => a ≤ b) (k :: rest) := (List.chain'_cons.mp hch).2
    have hk : k < A.length := hlt k (by simp)
    obtain ⟨hinv, _⟩ := scan_step hD (k := k) (by intro x hx; simp at hx; omega)
    simp only [List.map_cons, List.foldl_cons]
    have hpop := popNonLeft_map hA k hk (j :: tl) hD.chain_le
      (by intro x hx; simp at hx; omega)
    simp only [List.map_cons] at hpop
    rw [hpop]
    have := ih (k :: popIdx k (j :: tl)) hinv (by simpa using hch')
      (fun x hx => hlt x (List.mem_cons_of_mem _ hx))
    simpa using this

theorem insertSorted_map {A : List Point} (hA : IsHullReduced A) (a : Nat) (ha : a < A.length) :
    ∀ J : List Nat, (∀ j ∈ J, j < A.length) →
      insertSorted (angleLess (A.getD 0 default)) (A.getD a default)
          (J.map (fun i => A.getD i default)) =
        (J.orderedInsert (fun x y => x ≤ y) a).map (fun i => A.getD i default) := by
  intro J
  induction J with
  | nil => intro _; rfl
  | cons b rest ih =>
    intro hJ
    have hb : b < A.length := hJ b (by simp)
    simp only [List.map_cons, insertSorted, List.orderedInsert]
    rw [angleLess_vertex hA hb ha]
    by_cases hba : b < a
    · rw [if_pos (by simpa using hba), if_neg (by omega)]
      simp only [List.map_cons]
      rw [ih (fun x hx => hJ x (List.mem_cons_of_mem _ hx))]
    · rw [if_neg (by simpa using hba), if_pos (by omega)]
      simp only [List.map_cons]

theorem stdSort_map {A : List Point} (hA : IsHullReduced A) :
    ∀ J : List Nat, (∀ j ∈ J, j < A.length) →
      stdSort (angleLess (A.getD 0 default)) (J.map (fun i => A.getD i default)) =
        (J.insertionSort (fun x y => x ≤ y)).map (fun i => A.getD i default) := by
  intro J
  induction J with
  | nil => intro _; rfl
  | cons a rest ih =>
    intro hJ
    simp only [List.map_cons, stdSort, List.insertionSort]
    rw [ih (fun x hx => hJ x (List.mem_cons_of_mem _ hx))]
    exact insertSorted_map hA a (hJ a (by simp)) _
      (fun x hx => hJ x (List.mem_cons_of_mem _ ((List.mem_insertionSort _).mp hx)))

theorem eq_range_of_strict {D : List Nat} {m : Nat} (hch : List.Chain' (fun a b => b < a) D)
    (hmem : ∀ x, x ∈ D ↔ x < m) : D.reverse = List.range m := by
  have hs : List.Sorted (· < ·) D.reverse := by
    rw [List.Sorted, List.pairwise_reverse]
    exact List.chain'_iff_pairwise.mp hch
  apply List.eq_of_perm_of_sorted _ hs (List.sorted_lt_range m)
  rw [List.perm_ext_iff_of_nodup hs.nodup (List.nodup_range m)]
  intro x
  simp [hmem]

theorem lexLess_irrefl (a : Point) : ¬ lexLess a a := by
  intro h
  exact lexLess_ne h rfl

theorem lexLess_trans {a b c : Point} (hab : lexLess a b) (hbc : lexLess b c) : lexLess a c := by
  unfold lexLess at *
  rcases hab with h1 | ⟨h1, h2⟩ <;> rcases hbc with h3 | ⟨h3, h4⟩
  · left; linarith
  · left; linarith
  · left; linarith
  · right; exact ⟨by linarith, by linarith⟩

theorem findMin_fold (points : List Point) :
    ∀ (len start cur : Nat), cur < start → start + len ≤ points.length →
      (∀ i, i < start → ¬ lexLess (points.getD i default) (points.getD cur default)) →
      (List.range' start len).foldl
          (fun minIdx i =>
            if (points.getD i default).y < (points.getD minIdx default).y ∨
                ((points.getD i default).y = (points.getD minIdx default).y ∧
                  (points.getD i default).x < (points.getD minIdx default).x)
            then i else minIdx) cur < start + len ∧
      (∀ i, i < start + len → ¬ lexLess (points.getD i default) (points.getD
        ((List.range' start len).foldl
          (fun minIdx i =>
            if (points.getD i default).y < (points.getD minIdx default).y ∨
                ((points.getD i default).y = (points.getD minIdx default).y ∧
                  (points.getD i default).x < (points.getD minIdx default).x)
            then i else minIdx) cur) default)) := by
  intro len
  induction len with
  | zero =>
    intro start cur hcur _ hmin
    simp only [List.range'_zero, List.foldl_nil, Nat.add_zero]
    exact ⟨hcur, hmin⟩
  | succ len ih =>
    intro start cur hcur hlen hmin
    rw [List.range'_succ, List.foldl_cons]
    have hadd : start + (len + 1) = (start + 1) + len := by omega
    rw [hadd]
    by_cases hless : lexLess (points.getD start default) (points.getD cur default)
    · have hl := hless
      unfold lexLess at hl
      rw [if_pos hl]
      apply ih (start + 1) start (by omega) (by omega)
      intro i hi hcon
      rcases Nat.lt_or_eq_of_le (Nat.lt_succ_iff.mp hi) with h | h
      · exact hmin i h (lexLess_trans hcon hless)
      · rw [h] at hcon; exact lexLess_irrefl _ hcon
    · have hl := hless
      unfold lexLess at hl
      rw [if_neg hl]
      apply ih (start + 1) cur (by omega) (by omega)
      intro i hi
      rcases Nat.lt_or_eq_of_le (Nat.lt_succ_iff.mp hi) with h | h
      · exact hmin i h
      · rw [h]; exact hless

theorem findMinIdx_spec (points : List Point) (hne : points ≠ []) :
    findMinIdx points < points.length ∧
    ∀ x ∈ points, ¬ lexLess x (points.getD (findMinIdx points) default) := by
  have hpos : 0 < points.length := List.length_pos.mpr hne
  have h := findMin_fold points (points.length - 1) 1 0 (by omega) (by omega)
    (by intro i hi; have : i = 0 := by omega
        rw [this]; exact lexLess_irrefl _)
  have hadd : 1 + (points.length - 1) = points.length := by omega
  rw [hadd] at h
  refine ⟨h.1, ?_⟩
  intro x hx
  obtain ⟨i, hi, rfl⟩ := List.mem_iff_getElem.mp hx
  have := h.2 i hi
  rw [List.getD_eq_getElem _ _ hi] at this
  exact this

theorem mem_swap {α : Type} (l : List α) (a b : Nat) (ha : a < l.length) (hb : b < l.length)
    (x : α) : x ∈ (l.set a l[b]).set b l[a] ↔ x ∈ l := by
  constructor
  · intro hx
    obtain ⟨j, hj, rfl⟩ := List.mem_iff_getElem.mp hx
    simp only [List.length_set] at hj
    rw [List.getElem_set]
    split
    · exact List.getElem_mem _
    · rw [List.getElem_set]
      split
      · exact List.getElem_mem _
      · exact List.getElem_mem _
  · intro hx
    obtain ⟨j, hj, rfl⟩ := List.mem_iff_getElem.mp hx
    by_cases hja : j = a
    · subst hja
      apply List.mem_iff_getElem.mpr
      refine ⟨b, by simpa using hb, ?_⟩
      rw [List.getElem_set]
      simp
    · by_cases hjb : j = b
      · subst hjb
        apply List.mem_iff_getElem.mpr
        refine ⟨a, by simpa using ha, ?_⟩
        rw [List.getElem_set, if_neg (fun h => hja h), List.getElem_set]
        simp
      · apply List.mem_iff_getElem.mpr
        refine ⟨j, by simpa using hj, ?_⟩
        rw [List.getElem_set, if_neg (fun h => hjb h.symm), List.getElem_set,
          if_neg (fun h => hja h.symm)]

theorem foldl_range'_getD_aux {α β : Type} (f : β → α → β) (d : α) (l : List α) :
    ∀ (len k : Nat) (init : β), l.length - k = len →
      (List.range' k len).foldl (fun h i => f h (l.getD i d)) init =
        (l.drop k).foldl f init := by
  intro len
  induction len with
  | zero =>
    intro k init hlen
    have : l.drop k = [] := List.drop_eq_nil_of_le (by omega)
    rw [this]; rfl
  | succ len ih =>
    intro k init hlen
    have hk : k < l.length := by omega
    rw [List.range'_succ, List.foldl_cons, List.drop_eq_getElem_cons hk, List.foldl_cons,
      List.getD_eq_getElem _ _ hk]
    exact ih (k + 1) _ (by omega)

theorem foldl_range'_getD {α β : Type} (f : β → α → β) (d : α) (l : List α) (k : Nat)
    (init : β) :
    (List.range' k (l.length - k)).foldl (fun h i => f h (l.getD i d)) init =
      (l.drop k).foldl f init :=
  foldl_range'_getD_aux f d l _ k init rfl

theorem map_getD_range (A : List Point) :
    (List.range A.length).map (fun i => A.getD i default) = A := by
  apply List.ext_getElem
  · simp
  · intro i h1 h2
    simp only [List.getElem_map, List.getElem_range]
    exact List.getD_eq_getElem _ _ h2

theorem insertSorted_length (less : Point → Point → Bool) (a : Point) :
    ∀ l : List Point, (insertSorted less a l).length = l.length + 1 := by
  intro l
  induction l with
  | nil => rfl
  | cons b rest ih =>
    simp only [insertSorted]
    split
    · simp [ih]
    · simp

theorem stdSort_length (less : Point → Point → Bool) :
    ∀ l : List Point, (stdSort less l).length = l.length := by
  intro l
  induction l with
  | nil => rfl
  | cons a rest ih => simp [stdSort, insertSorted_length, ih]

theorem hullOfPoints_eq (points swapped sorted : List Point) (h : 3 ≤ points.length)
    (hswap : swapped = (points.set 0 (points.getD (findMinIdx points) default)).set
      (findMinIdx points) (points.getD 0 default))
    (hsort : sorted = swapped.take 1 ++
      stdSort (angleLess (swapped.getD 0 default)) (swapped.drop 1)) :
    hullOfPoints points =
      ((sorted.drop 2).foldl (fun hull x => x :: popNonLeft x hull)
        [sorted.getD 1 default, sorted.getD 0 default]).reverse := by
  subst hsort
  subst hswap
  unfold hullOfPoints
  rw [if_neg (by omega)]
  simp only
  rw [← foldl_range'_getD (fun hull x => x :: popNonLeft x hull) default]
  congr 3
  simp only [List.length_append, List.length_take, List.length_set, stdSort_length,
    List.length_drop]
  omega

theorem exists_index_list (A : List Point) :
    ∀ L : List Point, (∀ x ∈ L, x ∈ A) →
      ∃ I : List Nat, L = I.map (fun i => A.getD i default) ∧ ∀ i ∈ I, i < A.length := by
  intro L
  induction L with
  | nil => intro _; exact ⟨[], rfl, by simp⟩
  | cons x rest ih =>
    intro h
    obtain ⟨I, hI, hlt⟩ := ih (fun y hy => h y (List.mem_cons_of_mem _ hy))
    obtain ⟨i, hi, hx⟩ := List.mem_iff_getElem.mp (h x (by simp))
    refine ⟨i :: I, ?_, ?_⟩
    · simp only [List.map_cons, List.getD_eq_getElem _ _ hi, hx, hI]
    · intro j hj
      rcases List.mem_cons.mp hj with hj | hj
      · rw [hj]; exact hi
      · exact hlt j hj

theorem map_swap {α β : Type} (f : α → β) (d : β) (l : List α) (a b : Nat)
    (ha : a < l.length) (hb : b < l.length) :
    ((l.map f).set a ((l.map f).getD b d)).set b ((l.map f).getD a d) =
      ((l.set a l[b]).set b l[a]).map f := by
  rw [List.map_set, List.map_set, List.getD_eq_getElem _ _ (by simpa using hb),
    List.getD_eq_getElem _ _ (by simpa using ha)]
  simp only [List.getElem_map]

theorem swap_head {α : Type} (l : List α) (b : Nat) (h0 : 0 < l.length) (hb : b < l.length) :
    ∃ tl, (l.set 0 l[b]).set b l[0] = l[b] :: tl := by
  have hlen : 0 < ((l.set 0 l[b]).set b l[0]).length := by simpa using h0
  have hne : (l.set 0 l[b]).set b l[0] ≠ [] := List.length_pos.mp hlen
  obtain ⟨z, tl, hz⟩ := List.exists_cons_of_ne_nil hne
  refine ⟨tl, ?_⟩
  have h1 : ((l.set 0 l[b]).set b l[0])[0] = z := by simp [hz]
  rw [List.getElem_set] at h1
  by_cases hb0 : b = 0
  · subst hb0
    simp only [if_true] at h1
    rw [hz, ← h1]
  · rw [if_neg hb0, List.getElem_set] at h1
    simp only [if_true] at h1
    rw [hz, ← h1]

theorem hullOfPoints_map {A : List Point} (hA : IsHullReduced A) (hm : 3 ≤ A.length)
    (I : List Nat) (hI1 : ∀ i ∈ I, i < A.length) (hI2 : ∀ i, i < A.length → i ∈ I) :
    hullOfPoints (I.map (fun i => A.getD i default)) = A := by
  have hn : 3 ≤ I.length := by
    have hsub : List.range A.length ⊆ I := by
      intro i hi; exact hI2 i (List.mem_range.mp hi)
    have := ((List.nodup_range A.length).subperm hsub).length_le
    simp only [List.length_range] at this
    omega
  have hLlen : (I.map (fun i => A.getD i default)).length = I.length := List.length_map _ _
  have hLne : I.map (fun i => A.getD i default) ≠ [] := by
    intro h; rw [h] at hLlen; simp at hLlen; omega
  -- the lowest point is found at a position holding index 0
  obtain ⟨hq, hmin⟩ := findMinIdx_spec _ hLne
  rw [hLlen] at hq
  have hq0 : I[findMinIdx (I.map (fun i => A.getD i default))] = 0 := by
    by_contra hne
    have h0 : A.getD 0 default ∈ I.map (fun i => A.getD i default) :=
      List.mem_map.mpr ⟨0, hI2 0 (by omega), rfl⟩
    apply hmin _ h0
    have e : (I.map (fun i => A.getD i default)).getD
        (findMinIdx (I.map (fun i => A.getD i default))) default =
        A.getD I[findMinIdx (I.map (fun i => A.getD i default))] default := by
      rw [List.getD_eq_getElem _ _ (by rw [hLlen]; exact hq), List.getElem_map]
    rw [e]
    exact hA.1 _ (hI1 _ (List.getElem_mem _)) (Nat.pos_of_ne_zero hne)
  -- the swap, on indices
  obtain ⟨J, hJ⟩ := swap_head I _ (by omega) hq
  have hmemJ : ∀ x, x ∈ (I[findMinIdx (I.map (fun i => A.getD i default))] :: J) ↔ x ∈ I := by
    intro x; rw [← hJ]; exact mem_swap I 0 _ (by omega) hq x
  rw [hq0] at hJ hmemJ
  have hJ1 : ∀ j ∈ J, j < A.length := fun j hj =>
    hI1 j ((hmemJ j).mp (List.mem_cons_of_mem _ hj))
  have hJlen : J.length + 1 = I.length := by
    have := congrArg List.length hJ
    simp only [List.length_set, List.length_cons] at this
    omega
  have hswap := map_swap (fun i => A.getD i default) default I 0 _ (by omega) hq
  rw [hq0, hJ] at hswap
  -- the sort, on indices
  have hsorted : ((0 :: J).map (fun i => A.getD i default)).take 1 ++
      stdSort (angleLess (((0 :: J).map (fun i => A.getD i default)).getD 0 default))
        (((0 :: J).map (fun i => A.getD i default)).drop 1) =
      (0 :: J.insertionSort (fun x y => x ≤ y)).map (fun i => A.getD i default) := by
    simp only [List.map_cons, List.take_succ_cons, List.take_zero, List.drop_succ_cons,
      List.drop_zero, List.getD_cons_zero, List.singleton_append]
    rw [stdSort_map hA J hJ1]
  rw [hullOfPoints_eq _ _ _ (by rw [hLlen]; exact hn) hswap.symm hsorted.symm]
  -- the scan, on indices
  have hslen : (J.insertionSort (fun x y => x ≤ y)).length = J.length :=
    List.length_insertionSort _ _
  have hsmem : ∀ x, x ∈ J.insertionSort (fun x y => x ≤ y) ↔ x ∈ J :=
    fun x => List.mem_insertionSort _
  have hssorted := List.sorted_insertionSort (fun x y : Nat => x ≤ y) J
  generalize J.insertionSort (fun x y => x ≤ y) = S at hslen hsmem hssorted
  match S, hslen, hsmem, hssorted with
  | [], hslen, _, _ => simp at hslen; omega
  | j1 :: S2, _, hsmem, hssorted =>
    simp only [List.map_cons, List.drop_succ_cons, List.drop_zero, List.getD_cons_succ,
      List.getD_cons_zero]
    have hinv : ScanInv [j1, 0] := by
      rcases Nat.eq_zero_or_pos j1 with h | h
      · left; rw [h]
      · right; exact ⟨by simp [h], by simp⟩
    have hchain : List.Chain' (fun a b => a ≤ b) (([j1, 0] : List Nat).head?.toList ++ S2) := by
      simpa using hssorted.chain'
    have hS2 : ∀ j ∈ S2, j < A.length := fun j hj =>
      hJ1 j ((hsmem j).mp (List.mem_cons_of_mem _ hj))
    have hmap := scan_map hA S2 [j1, 0] hinv hchain hS2
    simp only [List.map_cons, List.map_nil] at hmap
    rw [hmap]
    obtain ⟨hfin, hfmem⟩ := scan_fold S2 [j1, 0] hinv hchain
    generalize S2.foldl (fun D k => k :: popIdx k D) [j1, 0] = D at hfin hfmem
    have hDmem : ∀ x, x ∈ D ↔ x < A.length := by
      intro x
      rw [hfmem]
      constructor
      · intro h
        have hx : x ∈ (0 :: J) := by
          rcases h with h | h
          · rcases List.mem_cons.mp h with h | h
            · exact List.mem_cons_of_mem _ ((hsmem x).mp (by rw [h]; simp))
            · simp at h; rw [h]; simp
          · exact List.mem_cons_of_mem _ ((hsmem x).mp (List.mem_cons_of_mem _ h))
        exact hI1 x ((hmemJ x).mp hx)
      · intro h
        have hx : x ∈ (0 :: J) := (hmemJ x).mpr (hI2 x h)
        rcases List.mem_cons.mp hx with h0 | hxJ
        · left; rw [h0]; simp
        · rcases List.mem_cons.mp ((hsmem x).mpr hxJ) with h1 | h1
          · left; rw [h1]; simp
          · right; exact h1
    have hstrict : List.Chain' (fun a b => b < a) D := by
      rcases hfin with h | ⟨h, _⟩
      · have h1 : 1 ∈ D := (hDmem 1).mpr (by omega)
        rw [h] at h1
        simp at h1
      · exact h
    rw [← List.map_reverse, eq_range_of_strict hstrict hDmem]
    exact map_getD_range A

theorem hullOfPoints_of_vertices {A : List Point} (hA : IsHullReduced A) (hm : 3 ≤ A.length)
    (L : List Point) (h1 : ∀ x ∈ L, x ∈ A) (h2 : ∀ x ∈ A, x ∈ L) : hullOfPoints L = A := by
  obtain ⟨I, hI, hlt⟩ := exists_index_list A L h1
  subst hI
  apply hullOfPoints_map hA hm I hlt
  intro i hi
  have hmem : A.getD i default ∈ A := by
    rw [List.getD_eq_getElem _ _ hi]; exact List.getElem_mem _
  obtain ⟨j, hj, hji⟩ := List.mem_map.mp (h2 _ hmem)
  have := vertex_injective hA (hlt j hj) hi hji
  rw [← this]; exact hj

theorem area2_rotate (a b c : Point) : area2 a b c = area2 b c a := by
  simp only [area2, Point.cross, Point.sub]; ring

/-- Same edge twice: parallel, no intersection. -/
theorem crossing_same_edge (a1 a2 : Point) : lineSegmentIntersection a1 a2 a1 a2 = none := by
  have hc : directionCross a1 a2 a1 a2 = 0 := by
    simp only [directionCross, Point.cross, Point.sub]; ring
  rw [lineSegmentIntersection_eq, hc, abs_zero, if_pos eps_pos]

/-- The second edge ends where the first one starts. -/
theorem crossing_at_start (a1 a2 b1 : Point) (x : Point)
    (h : lineSegmentIntersection a1 a2 b1 a1 = some x) : x = a1 := by
  rw [lineSegmentIntersection_eq] at h
  have ht : paramT a1 a2 b1 a1 = 0 := by
    have : (b1.sub a1).cross (a1.sub b1) = 0 := by
      simp only [Point.cross, Point.sub]; ring
    simp only [paramT, this, zero_div]
  split at h
  · simp at h
  · split at h
    · rw [ht] at h
      have := (Option.some.inj h).symm
      rw [this]
      simp [Point.add, Point.smul]
    · simp at h

/-- The second edge starts where the first one ends. -/
theorem crossing_at_end (a1 a2 b2 : Point) (x : Point)
    (h : lineSegmentIntersection a1 a2 a2 b2 = some x) : x = a2 := by
  rw [lineSegmentIntersection_eq] at h
  split at h
  · simp at h
  · rename_i hc
    have hne : directionCross a1 a2 a2 b2 ≠ 0 := by
      intro h0; rw [h0, abs_zero] at hc; exact hc eps_pos
    have ht : paramT a1 a2 a2 b2 = 1 := by
      unfold paramT
      exact div_self hne
    split at h
    · rw [ht] at h
      have := (Option.some.inj h).symm
      rw [this]
      cases a1; cases a2
      simp [Point.add, Point.smul, Point.sub]
    · simp at h

/-- Both end points of the second edge strictly to the left of the first edge. -/
theorem crossing_disjoint (a1 a2 b1 b2 : Point) (h1 : 0 < area2 a1 a2 b1)
    (h2 : 0 < area2 a1 a2 b2) : lineSegmentIntersection a1 a2 b1 b2 = none := by
  rw [lineSegmentIntersection_eq]
  split
  · rfl
  · rename_i hc
    have hne : directionCross a1 a2 b1 b2 ≠ 0 := by
      intro h0; rw [h0, abs_zero] at hc; exact hc eps_pos
    rw [if_neg]
    rintro ⟨_, _, hu0, hu1⟩
    have hmul : paramU a1 a2 b1 b2 * directionCross a1 a2 b1 b2 = - area2 a1 a2 b1 := by
      unfold paramU
      rw [div_mul_cancel₀ _ hne]
      simp only [area2, Point.cross, Point.sub]; ring
    have hdc : directionCross a1 a2 b1 b2 = area2 a1 a2 b2 - area2 a1 a2 b1 := by
      simp only [directionCross, area2, Point.cross, Point.sub]; ring
    rcases lt_or_gt_of_ne hne with hneg | hpos
    · nlinarith
    · nlinarith

/-- The crossing of an edge with the edge that ends at its start is that start. -/
theorem crossing_start_found (a1 a2 b1 : Point) (h : eps < area2 a1 a2 b1) :
    lineSegmentIntersection a1 a2 b1 a1 = some a1 := by
  have hdc : directionCross a1 a2 b1 a1 = - area2 a1 a2 b1 := by
    simp only [directionCross, area2, Point.cross, Point.sub]; ring
  have hne : directionCross a1 a2 b1 a1 ≠ 0 := by
    rw [hdc]; have := eps_pos; linarith
  have ht : paramT a1 a2 b1 a1 = 0 := by
    have : (b1.sub a1).cross (a1.sub b1) = 0 := by
      simp only [Point.cross, Point.sub]; ring
    simp only [paramT, this, zero_div]
  have hu : paramU a1 a2 b1 a1 = 1 := by
    unfold paramU
    have : (b1.sub a1).cross (a2.sub a1) = directionCross a1 a2 b1 a1 := by
      simp only [directionCross, Point.cross, Point.sub]; ring
    rw [this]
    exact div_self hne
  rw [lineSegmentIntersection_eq, if_neg, if_pos]
  · rw [ht]; simp [Point.add, Point.smul]
  · rw [ht, hu]; norm_num
  · rw [hdc, abs_neg, not_lt]
    exact le_trans h.le (le_abs_self _)

theorem area2_next {A : List Point} (hA : IsHullReduced A) {i k : Nat} (hi : i < A.length)
    (hk : k < A.length) (hki : k ≠ i) (hkn : k ≠ (i + 1) % A.length) :
    eps < area2 (A.getD i default) (A.getD ((i + 1) % A.length) default) (A.getD k default) := by
  by_cases hlast : i + 1 < A.length
  · rw [Nat.mod_eq_of_lt hlast] at hkn ⊢
    rcases Nat.lt_or_gt_of_ne hki with h | h
    · rw [← area2_rotate]
      exact hA.2 (i + 1) hlast i (by omega) k h
    · exact hA.2 k hk (i + 1) (by omega) i (by omega)
  · have hi' : i + 1 = A.length := by omega
    rw [hi', Nat.mod_self] at hkn ⊢
    rw [area2_rotate]
    exact hA.2 i hi k (by omega) 0 (by omega)

theorem mem_edgeCrossings (points1 points2 : List Point) (x : Point) :
    x ∈ edgeCrossings points1 points2 ↔
      ∃ i, i < points1.length ∧ ∃ j, j < points2.length ∧
        lineSegmentIntersection (points1.getD i default)
          (points1.getD ((i + 1) % points1.length) default) (points2.getD j default)
          (points2.getD ((j + 1) % points2.length) default) = some x := by
  unfold edgeCrossings
  simp only [List.mem_flatMap, List.mem_range]
  constructor
  · rintro ⟨i, hi, j, hj, h⟩
    refine ⟨i, hi, j, hj, ?_⟩
    split at h
    · rename_i q hq
      rw [hq]; simp at h; rw [h]
    · simp at h
  · rintro ⟨i, hi, j, hj, h⟩
    refine ⟨i, hi, j, hj, ?_⟩
    rw [h]; simp

theorem getD_mem {A : List Point} {i : Nat} (hi : i < A.length) : A.getD i default ∈ A := by
  rw [List.getD_eq_getElem _ _ hi]; exact List.getElem_mem _

theorem edgeCrossings_self_subset {A : List Point} (hA : IsHullReduced A) (hm : 3 ≤ A.length)
    (x : Point) (hx : x ∈ edgeCrossings A A) : x ∈ A := by
  obtain ⟨i, hi, j, hj, h⟩ := (mem_edgeCrossings A A x).mp hx
  have hni : (i + 1) % A.length < A.length := Nat.mod_lt _ (by omega)
  have hnj : (j + 1) % A.length < A.length := Nat.mod_lt _ (by omega)
  by_cases hji : j = i
  · subst hji
    rw [crossing_same_edge] at h
    simp at h
  · by_cases hnji : (j + 1) % A.length = i
    · rw [hnji] at h
      rw [crossing_at_start _ _ _ _ h]
      exact getD_mem hi
    · by_cases hjni : j = (i + 1) % A.length
      · rw [← hjni] at h
        rw [crossing_at_end _ _ _ _ h]
        exact getD_mem hj
      · have hnn : (j + 1) % A.length ≠ (i + 1) % A.length := by
          intro heq
          apply hji
          by_cases h1 : j + 1 < A.length <;> by_cases h2 : i + 1 < A.length
          · rw [Nat.mod_eq_of_lt h1, Nat.mod_eq_of_lt h2] at heq; omega
          · have h2' : i + 1 = A.length := by omega
            rw [Nat.mod_eq_of_lt h1, h2', Nat.mod_self] at heq; omega
          · have h1' : j + 1 = A.length := by omega
            rw [Nat.mod_eq_of_lt h2, h1', Nat.mod_self] at heq; omega
          · omega
        have he := eps_pos
        rw [crossing_disjoint _ _ _ _
          (lt_trans he (area2_next hA hi hj hji hjni))
          (lt_trans he (area2_next hA hi hnj hnji hnn))] at h
        simp at h

theorem subset_edgeCrossings_self {A : List Point} (hA : IsHullReduced A) (hm : 3 ≤ A.length)
    (x : Point) (hx : x ∈ A) : x ∈ edgeCrossings A A := by
  obtain ⟨i, hi, rfl⟩ := List.mem_iff_getElem.mp hx
  rw [mem_edgeCrossings]
  have hpred : ((i + A.length - 1) % A.length + 1) % A.length = i := by
    rcases Nat.eq_zero_or_pos i with h0 | h0
    · subst h0
      have : (0 + A.length - 1) % A.length = A.length - 1 := by
        rw [Nat.zero_add]; exact Nat.mod_eq_of_lt (by omega)
      rw [this]
      have : A.length - 1 + 1 = A.length := by omega
      rw [this, Nat.mod_self]
    · have : (i + A.length - 1) % A.length = i - 1 := by
        have e : i + A.length - 1 = (i - 1) + A.length := by omega
        rw [e, Nat.add_mod_right]
        exact Nat.mod_eq_of_lt (by omega)
      rw [this]
      have : i - 1 + 1 = i := by omega
      rw [this]
      exact Nat.mod_eq_of_lt hi
  have hpl : (i + A.length - 1) % A.length < A.length := Nat.mod_lt _ (by omega)
  have hpi : (i + A.length - 1) % A.length ≠ i := by
    intro h
    rw [h] at hpred
    by_cases h1 : i + 1 < A.length
    · rw [Nat.mod_eq_of_lt h1] at hpred; omega
    · have : i + 1 = A.length := by omega
      rw [this, Nat.mod_self] at hpred; omega
  have hpn : (i + A.length - 1) % A.length ≠ (i + 1) % A.length := by
    intro h
    rw [h] at hpred
    by_cases h1 : i + 1 < A.length
    · rw [Nat.mod_eq_of_lt h1] at hpred
      by_cases h2 : i + 1 + 1 < A.length
      · rw [Nat.mod_eq_of_lt h2] at hpred; omega
      · have : i + 1 + 1 = A.length := by omega
        rw [this, Nat.mod_self] at hpred; omega
    · have : i + 1 = A.length := by omega
      rw [this, Nat.mod_self] at hpred
      rw [Nat.mod_eq_of_lt (by omega : 0 + 1 < A.length)] at hpred
      omega
  refine ⟨i, hi, (i + A.length - 1) % A.length, hpl, ?_⟩
  rw [hpred, ← List.getD_eq_getElem A default hi]
  exact crossing_start_found _ _ _ (area2_next hA hi hpl hpi hpn)

theorem computeResult_intersection_self (c : PolygonCanvas) (A : List Point)
    (hA : IsHullReduced A) (hm : 3 ≤ A.length) (hop : c.operation = .INTERSECTION)
    (h1 : c.poly1.points = A) (h2 : c.poly2.points = A) :
    (computeResult c).result.points = A := by
  simp only [computeResult, hop, computeIntersection, finishResult_points, foldl_addPoint,
    Polygon.clear, h1, h2, List.nil_append]
  apply hullOfPoints_of_vertices hA hm
  · intro x hx
    simp only [List.mem_append, List.mem_filter] at hx
    rcases hx with (hx | hx) | hx
    · exact hx.1
    · exact hx.1
    · exact edgeCrossings_self_subset hA hm x hx
  · intro x hx
    simp only [List.mem_append]
    right
    exact subset_edgeCrossings_self hA hm x hx

theorem area2_pixels_ge_one {a b c : Point} (ha : a.IsPixel) (hb : b.IsPixel)
    (hc : c.IsPixel) (h : 0 < area2 a b c) : 1 ≤ area2 a b c := by
  have e : ∀ q : ℚ, q.den = 1 → (q.num : ℚ) = q := fun q hq => Rat.coe_int_num_of_den_eq_one hq
  have key : area2 a b c = (((b.x.num - a.x.num) * (c.y.num - a.y.num) -
      (b.y.num - a.y.num) * (c.x.num - a.x.num) : ℤ) : ℚ) := by
    push_cast
    rw [e _ ha.1, e _ ha.2.1, e _ hb.1, e _ hb.2.1, e _ hc.1, e _ hc.2.1]
    simp only [area2, Point.sub, Point.cross]
  rw [key] at h ⊢
  have h' : (0 : ℤ) < (b.x.num - a.x.num) * (c.y.num - a.y.num) -
      (b.y.num - a.y.num) * (c.x.num - a.x.num) := by exact_mod_cast h
  exact_mod_cast h'

theorem isHullReduced_of_pixels {A : List Point} (hA : IsConvexPolygon A)
    (hpix : ∀ p ∈ A, p.IsPixel) : IsHullReduced A := by
  refine ⟨hA.1, ?_⟩
  intro k hk j hj i hi
  have hmem : ∀ t, t < A.length → (A.getD t default).IsPixel := by
    intro t ht
    apply hpix
    rw [List.getD_eq_getElem _ _ ht]
    exact List.getElem_mem _
  have h1 := area2_pixels_ge_one (hmem i (by omega)) (hmem j (by omega)) (hmem k hk)
    (hA.2 k hk j hj i hi)
  have : eps < 1 := by unfold eps; norm_num
  exact lt_of_lt_of_le this h1

/-- C5: let A be a convex polygon with at least three vertices, a hull-reduced vertex
list (counter-clockwise from its lowest, then leftmost, vertex, every three vertices in
list order turning counter-clockwise) of pixel positions, as `poly1` and `poly2` hold
them. Then hull reduction leaves A as it is, and Intersection with poly1 = poly2 = A
yields exactly the vertex list A; in particular the result has the same set of points
as A. -/
theorem intersection_with_itself (c : PolygonCanvas) (A : List Point)
    (hA : IsConvexPolygon A) (hpix : ∀ p ∈ A, p.IsPixel) (hm : 3 ≤ A.length)
    (hop : c.operation = .INTERSECTION)
    (h1 : c.poly1.points = A) (h2 : c.poly2.points = A) :
    hullOfPoints A = A ∧ (computeResult c).result.points = A ∧
      ∀ p, p ∈ (computeResult c).result.points ↔ p ∈ A := by
  have hR := isHullReduced_of_pixels hA hpix
  have key := computeResult_intersection_self c A hR hm hop h1 h2
  exact ⟨hullOfPoints_of_vertices hR hm A (fun _ h => h) (fun _ h => h), key,
    fun p => by rw [key]⟩

/-- Witness for C5: the square (0,0), (10,0), (10,10), (0,10). -/
theorem intersection_with_itself_witness :
    (computeResult (canvasOf .INTERSECTION [(0, 0), (10, 0), (10, 10), (0, 10)]
      [(0, 0), (10, 0), (10, 10), (0, 10)] [(7, 7)])).result.points =
      [⟨0, 0⟩, ⟨10, 0⟩, ⟨10, 10⟩, ⟨0, 10⟩] :=
  (intersection_with_itself
    (canvasOf .INTERSECTION [(0, 0), (10, 0), (10, 10), (0, 10)]
      [(0, 0), (10, 0), (10, 10), (0, 10)] [(7, 7)])
    [⟨0, 0⟩, ⟨10, 0⟩, ⟨10, 10⟩, ⟨0, 10⟩] (by decide!) (by decide!) (by decide) rfl rfl
    rfl).2.1

end PolygonOps

/-! ## Delaunay widget: degenerate triangles, distinct indices, the square with its centre -/

namespace Delaunay

theorem isPointInCircumcircle_eq (a b c p : QPointF) :
    isPointInCircumcircle a b c p =
      Dbl.sqrtLe
        (Dbl.add
          (Dbl.mul
            (Dbl.sub (.fin p.x) (Dbl.div (circumNumeratorX a b c) (circumDenominator a b c)))
            (Dbl.sub (.fin p.x) (Dbl.div (circumNumeratorX a b c) (circumDenominator a b c))))
          (Dbl.mul
            (Dbl.sub (.fin p.y) (Dbl.div (circumNumeratorY a b c) (circumDenominator a b c)))
            (Dbl.sub (.fin p.y) (Dbl.div (circumNumeratorY a b c) (circumDenominator a b c)))))
        (Dbl.add
          (Dbl.mul
            (Dbl.sub (.fin a.x) (Dbl.div (circumNumeratorX a b c) (circumDenominator a b c)))
            (Dbl.sub (.fin a.x) (Dbl.div (circumNumeratorX a b c) (circumDenominator a b c))))
          (Dbl.mul
            (Dbl.sub (.fin a.y) (Dbl.div (circumNumeratorY a b c) (circumDenominator a b c)))
            (Dbl.sub (.fin a.y) (Dbl.div (circumNumeratorY a b c) (circumDenominator a b c))))) :=
  rfl

theorem div_zero_neg {n : ℚ} (h : n < 0) : Dbl.div n 0 = .ninf := by
  simp [Dbl.div, h.ne, not_lt.mpr h.le]

theorem div_zero_pos {n : ℚ} (h : 0 < n) : Dbl.div n 0 = .pinf := by
  simp [Dbl.div, h.ne', h]

theorem div_zero_zero : Dbl.div 0 0 = .nan := by
  simp [Dbl.div]

theorem isPointInCircumcircle_degenerate (a b c p : QPointF)
    (hd : circumDenominator a b c = 0) :
    isPointInCircumcircle a b c p =
      decide (circumNumeratorX a b c ≠ 0 ∧ circumNumeratorY a b c ≠ 0) := by
  rw [isPointInCircumcircle_eq, hd]
  rcases lt_trichotomy (circumNumeratorX a b c) 0 with hx | hx | hx
  · rw [div_zero_neg hx]
    rcases lt_trichotomy (circumNumeratorY a b c) 0 with hy | hy | hy
    · rw [div_zero_neg hy]
      simp [hx.ne, hy.ne, Dbl.sub, Dbl.neg, Dbl.add, Dbl.mul, Dbl.sqrtLe]
    · rw [hy, div_zero_zero]
      simp [Dbl.sub, Dbl.neg, Dbl.add, Dbl.mul, Dbl.sqrtLe]
    · rw [div_zero_pos hy]
      simp [hx.ne, hy.ne', Dbl.sub, Dbl.neg, Dbl.add, Dbl.mul, Dbl.sqrtLe]
  · rw [hx, div_zero_zero]
    simp [Dbl.sub, Dbl.neg, Dbl.add, Dbl.mul, Dbl.sqrtLe]
  · rw [div_zero_pos hx]
    rcases lt_trichotomy (circumNumeratorY a b c) 0 with hy | hy | hy
    · rw [div_zero_neg hy]
      simp [hx.ne', hy.ne, Dbl.sub, Dbl.neg, Dbl.add, Dbl.mul, Dbl.sqrtLe]
    · rw [hy, div_zero_zero]
      simp [Dbl.sub, Dbl.neg, Dbl.add, Dbl.mul, Dbl.sqrtLe]
    · rw [div_zero_pos hy]
      simp [hx.ne', hy.ne', Dbl.sub, Dbl.neg, Dbl.add, Dbl.mul, Dbl.sqrtLe]

theorem mem_insertPoint_new (temp : List QPointF) (p : QPointF) (i : Nat)
    (triangleList : List Triangle) (t : Triangle)
    (h : t ∈ insertPoint temp p i triangleList) :
    t ∈ triangleList ∨
      ∃ old ∈ triangleList,
        t = ⟨min old.p1 old.p2, max old.p1 old.p2, i⟩ ∨
        t = ⟨min old.p2 old.p3, max old.p2 old.p3, i⟩ ∨
        t = ⟨min old.p3 old.p1, max old.p3 old.p1, i⟩ := by
  unfold insertPoint at h
  simp only [List.mem_append, List.mem_map] at h
  rcases h with h | ⟨e, he, het⟩
  · left
    rw [mem_foldl_remove] at h
    exact h.1
  · right
    have he' := (List.mem_filter.mp he).1
    simp only [List.mem_flatMap, List.mem_filter] at he'
    obtain ⟨old, ⟨hold, _⟩, hedge⟩ := he'
    refine ⟨old, hold, ?_⟩
    simp only [List.mem_cons, List.mem_singleton, List.not_mem_nil, or_false] at hedge
    rcases hedge with h1 | h1 | h1
    · left; rw [← het, h1]; rfl
    · right; left; rw [← het, h1]; rfl
    · right; right; rw [← het, h1]; rfl

/-- Invariant of the insertion loop: before the insertion of point `k`, every working
triangle has pairwise distinct indices, each below `k` or one of the three synthetic
indices. -/
theorem workingList_distinct (points : List Point) (k : Nat) (hk : k ≤ points.length) :
    ∀ t ∈ workingList points k, t.Distinct ∧
      (t.p1 < k ∨ points.length ≤ t.p1) ∧ (t.p2 < k ∨ points.length ≤ t.p2) ∧
      (t.p3 < k ∨ points.length ≤ t.p3) := by
  induction k with
  | zero =>
    intro t ht
    simp only [workingList, List.range_zero, List.foldl_nil, List.mem_singleton] at ht
    subst ht
    simp only [Triangle.Distinct]
    omega
  | succ k ih =>
    intro t ht
    rw [workingList_succ] at ht
    have ih' := ih (by omega)
    rcases mem_insertPoint_new _ _ _ _ _ ht with hold | ⟨old, hold, hnew⟩
    · obtain ⟨hd, h1, h2, h3⟩ := ih' t hold
      exact ⟨hd, by omega, by omega, by omega⟩
    · obtain ⟨⟨d1, d2, d3⟩, h1, h2, h3⟩ := ih' old hold
      rcases hnew with h | h | h <;> subst h <;> simp only [Triangle.Distinct] <;>
        (refine ⟨⟨?_, ?_, ?_⟩, ?_, ?_, ?_⟩ <;> omega)

/-- C13: for the corners (0,0), (1,0), (1,1), (0,1) of the unit square followed by its
centre (1/2,1/2), `computeDelaunay` returns exactly four triangles, each made of the
centre (index 4) and the two end points of one side of the square: the sides 0-1, 3-0,
1-2 and 2-3, each once. -/
theorem square_with_centre :
    (computeDelaunay (widgetOf squareWithCentre)).triangles =
      [⟨0, 1, 4⟩, ⟨0, 3, 4⟩, ⟨1, 2, 4⟩, ⟨2, 3, 4⟩] ∧
    (computeDelaunay (widgetOf squareWithCentre)).triangles.length = 4 := by
  have h : (computeDelaunay (widgetOf squareWithCentre)).triangles =
      [⟨0, 1, 4⟩, ⟨0, 3, 4⟩, ⟨1, 2, 4⟩, ⟨2, 3, 4⟩] := by decide!
  exact ⟨h, by rw [h]; rfl⟩

/-- C15: at every step of the insertion loop (before the insertion of point k, for every
k up to the number of points) every working triangle has three pairwise distinct
indices, each below k or one of the synthetic indices n, n+1, n+2; hence every
returned triangle has three pairwise distinct indices. -/
theorem working_triangles_distinct (w : DelaunayWidget) :
    (∀ k, k ≤ w.points.length → ∀ t ∈ workingList w.points k, t.Distinct ∧
      (t.p1 < k ∨ w.points.length ≤ t.p1) ∧ (t.p2 < k ∨ w.points.length ≤ t.p2) ∧
      (t.p3 < k ∨ w.points.length ≤ t.p3)) ∧
    (∀ t ∈ (computeDelaunay w).triangles, t.Distinct) := by
  refine ⟨fun k hk => workingList_distinct w.points k hk, ?_⟩
  intro t ht
  exact (workingList_distinct w.points w.points.length (le_refl _) t
    (mem_computeDelaunay w t ht).1).1

/-- Witness for C15: the triangle (0,1,3) returned for the square. -/
theorem working_triangles_distinct_witness :
    (⟨0, 1, 3⟩ : Triangle) ∈ (computeDelaunay (widgetOf squareInput)).triangles ∧
      (⟨0, 1, 3⟩ : Triangle).Distinct :=
  ⟨by decide!, (working_triangles_distinct (widgetOf squareInput)).2 ⟨0, 1, 3⟩ (by decide!)⟩

end Delaunay

/-! ## Polygon boolean operations: the checked inside test, the two squares -/

namespace PolygonOps

theorem crossing_test_divisor_ne_zero (p pi pj : Point)
    (h : (decide (pi.y > p.y) != decide (pj.y > p.y)) = true) : pj.y - pi.y ≠ 0 := by
  intro h0
  have : pj.y = pi.y := by linarith
  rw [this] at h
  simp at h

theorem insideStepChecked_eq (p : Point) (polygon : List Point) (st : Bool × Nat) (i : Nat)
    (hi : i < polygon.length) (hj : st.2 < polygon.length) :
    insideStepChecked p polygon st i =
      some (if (decide ((polygon.getD i default).y > p.y) !=
                decide ((polygon.getD st.2 default).y > p.y)) &&
            decide (p.x < ((polygon.getD st.2 default).x - (polygon.getD i default).x) *
              (p.y - (polygon.getD i default).y) /
              ((polygon.getD st.2 default).y - (polygon.getD i default).y) +
              (polygon.getD i default).x)
          then (!st.1, i) else (st.1, i)) := by
  unfold insideStepChecked
  rw [List.getD_eq_getElem _ _ hi, List.getD_eq_getElem _ _ hj,
    List.getElem?_eq_getElem hi, List.getElem?_eq_getElem hj]
  simp only
  by_cases hc : (decide (polygon[i].y > p.y) != decide (polygon[st.2].y > p.y)) = true
  · have hne := crossing_test_divisor_ne_zero p _ _ hc
    rw [if_pos hc]
    simp only [checkedDiv, if_neg hne, hc, Bool.true_and, decide_eq_true_eq]
    split <;> rfl
  · rw [if_neg hc]
    simp only [Bool.not_eq_true] at hc
    simp [hc]

theorem inside_fold_checked (p : Point) (polygon : List Point) :
    ∀ (l : List Nat), (∀ i ∈ l, i < polygon.length) →
      ∀ st : Bool × Nat, st.2 < polygon.length →
        l.foldl (fun (st : Option (Bool × Nat)) i =>
            match st with
            | some st => insideStepChecked p polygon st i
            | none => none) (some st) =
          some (l.foldl (fun (st : Bool × Nat) i =>
            let pi := polygon.getD i default
            let pj := polygon.getD st.2 default
            if (decide (pi.y > p.y) != decide (pj.y > p.y)) &&
                decide (p.x < (pj.x - pi.x) * (p.y - pi.y) / (pj.y - pi.y) + pi.x)
            then (!st.1, i) else (st.1, i)) st) := by
  intro l
  induction l with
  | nil => intro _ st _; rfl
  | cons i rest ih =>
    intro hl st hst
    have hi : i < polygon.length := hl i (by simp)
    simp only [List.foldl_cons]
    rw [insideStepChecked_eq p polygon st i hi hst]
    apply ih (fun k hk => hl k (List.mem_cons_of_mem _ hk))
    split <;> exact hi

theorem isPointInsidePolygonChecked_eq (p : Point) (polygon : List Point) :
    isPointInsidePolygonChecked p polygon = some (isPointInsidePolygon p polygon) := by
  unfold isPointInsidePolygonChecked isPointInsidePolygon
  split
  · rfl
  · rename_i h
    rw [inside_fold_checked p polygon _ (fun i hi => List.mem_range.mp hi) _ (by simp; omega)]
    rfl

/-- C16: in `isPointInsidePolygon` the crossing test of the first operand of `&&`
implies that the two y-coordinates differ, so the divisor is never zero when the second
operand is evaluated, and every index is in range: the function with checked vector
accesses and checked division returns, for every point and every polygon, the result of
the unchecked one. -/
theorem inside_test_never_fails (p : Point) (polygon : List Point) :
    isPointInsidePolygonChecked p polygon = some (isPointInsidePolygon p polygon) ∧
    (∀ pi pj : Point, (decide (pi.y > p.y) != decide (pj.y > p.y)) = true →
      pj.y - pi.y ≠ 0 ∧ checkedDiv ((pj.x - pi.x) * (p.y - pi.y)) (pj.y - pi.y) =
        some ((pj.x - pi.x) * (p.y - pi.y) / (pj.y - pi.y))) := by
  refine ⟨isPointInsidePolygonChecked_eq p polygon, ?_⟩
  intro pi pj h
  have hne := crossing_test_divisor_ne_zero p pi pj h
  exact ⟨hne, by simp [checkedDiv, hne]⟩

/-- Witness for C16: a point inside a square whose first and last vertices are level. -/
theorem inside_test_never_fails_witness :
    isPointInsidePolygonChecked ⟨5, 5⟩ [⟨0, 0⟩, ⟨10, 0⟩, ⟨10, 10⟩, ⟨0, 10⟩] = some true ∧
    (⟨10, 10⟩ : Point).y - (⟨10, 0⟩ : Point).y ≠ 0 :=
  ⟨by decide!,
   ((inside_test_never_fails ⟨5, 5⟩ [⟨0, 0⟩, ⟨10, 0⟩, ⟨10, 10⟩, ⟨0, 10⟩]).2 ⟨10, 0⟩ ⟨10, 10⟩
      (by decide!)).1⟩

/-- C12: with `poly1` the square (0,0), (10,0), (10,10), (0,10), already hull-reduced by
the first call of `nextPolygon`, and `poly2` the square (5,5), (15,5), (15,15), (5,15),
the second call of `nextPolygon` hull-reduces `poly2` (both squares stay as they are) and
leaves the Intersection result (5,5), (10,5), (10,10), (5,10): exactly the four corners of
the overlapping square, a list that hull reduction leaves unchanged. -/
theorem two_squares_intersection :
    twoSquares.mode = .SECOND_POLYGON ∧
    (nextPolygon twoSquares).poly1.points = [⟨0, 0⟩, ⟨10, 0⟩, ⟨10, 10⟩, ⟨0, 10⟩] ∧
    (nextPolygon twoSquares).poly2.points = [⟨5, 5⟩, ⟨15, 5⟩, ⟨15, 15⟩, ⟨5, 15⟩] ∧
    (nextPolygon twoSquares).mode = .RESULT ∧
    (nextPolygon twoSquares).result.points = [⟨5, 5⟩, ⟨10, 5⟩, ⟨10, 10⟩, ⟨5, 10⟩] ∧
    hullOfPoints [⟨5, 5⟩, ⟨10, 5⟩, ⟨10, 10⟩, ⟨5, 10⟩] =
      [⟨5, 5⟩, ⟨10, 5⟩, ⟨10, 10⟩, ⟨5, 10⟩] :=
  ⟨by decide!, by decide!, by decide!, by decide!, by decide!, by decide!⟩

end PolygonOps

/-! ## The two hull constructions on a point list with a hull certificate -/

namespace PolygonOps

theorem area2_swap (a b c : Point) : area2 a c b = - area2 a b c := by
  simp only [area2, Point.cross, Point.sub]; ring

theorem area2_rot (a b c : Point) : area2 a b c = area2 b c a := by
  simp only [area2, Point.cross, Point.sub]; ring

theorem area2_same_right (a b : Point) : area2 a b b = 0 := by
  simp only [area2, Point.cross, Point.sub]; ring

theorem area2_same_left (a b : Point) : area2 a a b = 0 := by
  simp only [area2, Point.cross, Point.sub]; ring

theorem area2_same_ends (a b : Point) : area2 a b a = 0 := by
  simp only [area2, Point.cross, Point.sub]; ring

theorem pos_rot1 {a b c : Point} (h : 0 < area2 a b c) : 0 < area2 b c a := by
  rw [← area2_rot]; exact h

theorem pos_rot2 {a b c : Point} (h : 0 < area2 a b c) : 0 < area2 c a b := by
  rw [area2_rot c a b]; exact h

theorem ccw_trans {o s p q r : Point} (h1 : 0 < area2 o s p) (h2 : 0 < area2 o s q)
    (h3 : 0 < area2 o s r) (h4 : 0 < area2 o p q) (h5 : 0 < area2 o q r) :
    0 < area2 o p r := by
  have key : area2 o s q * area2 o p r =
      area2 o s p * area2 o q r + area2 o s r * area2 o p q := by
    simp only [area2, Point.cross, Point.sub]; ring
  by_contra hneg
  push_neg at hneg
  nlinarith [mul_pos h1 h5, mul_pos h3 h4, mul_nonneg h2.le (neg_nonneg.mpr hneg)]

theorem ccw_trans' {o s p q r : Point} (h1 : 0 < area2 o p s) (h2 : 0 < area2 o q s)
    (h3 : 0 < area2 o r s) (h4 : 0 < area2 o p q) (h5 : 0 < area2 o q r) :
    0 < area2 o p r := by
  have key : area2 o q s * area2 o p r =
      area2 o p s * area2 o q r + area2 o r s * area2 o p q := by
    simp only [area2, Point.cross, Point.sub]; ring
  by_contra hneg
  push_neg at hneg
  nlinarith [mul_pos h1 h5, mul_pos h3 h4, mul_nonneg h2.le (neg_nonneg.mpr hneg)]

theorem area2_barycentric (o s x t u w : Point) :
    area2 o s x * area2 u w t =
      area2 t s x * area2 u w o + area2 o t x * area2 u w s + area2 o s t * area2 u w x := by
  simp only [area2, Point.cross, Point.sub]; ring

/-- A point above the pivot, or level with it and to its right, has a positive squared
distance from it. -/
theorem dist2_pos_of_lexLess {o a : Point} (ha : lexLess o a) : 0 < (a.sub o).dist2 := by
  simp only [Point.dist2, Point.sub]
  rcases ha with h | ⟨_, h⟩
  · nlinarith [sq_nonneg (a.x - o.x), mul_pos (sub_pos.mpr h) (sub_pos.mpr h)]
  · nlinarith [sq_nonneg (a.y - o.y), mul_pos (sub_pos.mpr h) (sub_pos.mpr h)]

/-- Two points in line with the pivot, both in the half plane of the sort, lie on the
same side of it. -/
theorem dot_pos_of_collinear {o a b : Point} (ha : lexLess o a) (hb : lexLess o b)
    (h : area2 o a b = 0) :
    0 < (a.x - o.x) * (b.x - o.x) + (a.y - o.y) * (b.y - o.y) := by
  simp only [area2, Point.cross, Point.sub] at h
  rcases ha with ha | ⟨ha1, ha2⟩
  · rcases hb with hb | ⟨hb1, hb2⟩
    · have huy : 0 < a.y - o.y := sub_pos.mpr ha
      have hvy : 0 < b.y - o.y := sub_pos.mpr hb
      have e : ((a.x - o.x) * (b.x - o.x)) * ((a.y - o.y) * (b.y - o.y)) =
          ((a.y - o.y) * (b.x - o.x)) * ((a.y - o.y) * (b.x - o.x)) := by
        linear_combination ((a.y - o.y) * (b.x - o.x)) * h
      have hp := mul_pos huy hvy
      have hnn : 0 ≤ (a.x - o.x) * (b.x - o.x) := by
        by_contra hneg
        push_neg at hneg
        have := mul_neg_of_neg_of_pos hneg hp
        nlinarith [mul_self_nonneg ((a.y - o.y) * (b.x - o.x))]
      linarith
    · exfalso
      have huy : 0 < a.y - o.y := sub_pos.mpr ha
      have hvx : 0 < b.x - o.x := sub_pos.mpr hb2
      have := mul_pos huy hvx
      rw [← hb1] at h
      simp only [sub_self, mul_zero, zero_sub] at h
      linarith
  · rcases hb with hb | ⟨hb1, hb2⟩
    · exfalso
      have hux : 0 < a.x - o.x := sub_pos.mpr ha2
      have hvy : 0 < b.y - o.y := sub_pos.mpr hb
      have := mul_pos hux hvy
      rw [← ha1] at h
      simp only [sub_self, zero_mul, sub_zero] at h
      linarith
    · have hux : 0 < a.x - o.x := sub_pos.mpr ha2
      have hvx : 0 < b.x - o.x := sub_pos.mpr hb2
      have := mul_pos hux hvx
      rw [← ha1, ← hb1]
      simp only [sub_self, mul_zero, add_zero]
      exact this

/-- A point `k` in line with `o` and `t` is an affine combination of the two: every
signed area with `k` is the same combination of the areas with `t` and with `o`. -/
theorem ray_affine (o t k x y : Point) (h : area2 o t k = 0) :
    (t.sub o).dist2 * area2 x y k =
      ((t.x - o.x) * (k.x - o.x) + (t.y - o.y) * (k.y - o.y)) * area2 x y t -
      (((t.x - o.x) * (k.x - o.x) + (t.y - o.y) * (k.y - o.y)) - (t.sub o).dist2) *
        area2 x y o := by
  simp only [area2, Point.cross, Point.sub, Point.dist2] at h ⊢
  linear_combination ((y.x - x.x) * (t.x - o.x) + (y.y - x.y) * (t.y - o.y)) * h

/-- A point `k` on the ray from `o` through `t`, not nearer than `t`, is not strictly to
the left of a directed line through `t` that has `o` strictly to its left. -/
theorem ray_beyond {o t k x y : Point} (ht : lexLess o t) (hk : lexLess o k)
    (hcol : area2 o t k = 0) (hd : (t.sub o).dist2 ≤ (k.sub o).dist2)
    (hz : area2 x y t = 0) (hpos : 0 < area2 x y o) : area2 x y k ≤ 0 := by
  have hU := dist2_pos_of_lexLess ht
  have hD := dot_pos_of_collinear ht hk hcol
  have lag : ((t.x - o.x) * (k.x - o.x) + (t.y - o.y) * (k.y - o.y)) *
      ((t.x - o.x) * (k.x - o.x) + (t.y - o.y) * (k.y - o.y)) =
      (t.sub o).dist2 * (k.sub o).dist2 := by
    simp only [area2, Point.cross, Point.sub, Point.dist2] at hcol ⊢
    linear_combination (-((t.x - o.x) * (k.y - o.y) - (t.y - o.y) * (k.x - o.x))) * hcol
  have hDU : (t.sub o).dist2 ≤ (t.x - o.x) * (k.x - o.x) + (t.y - o.y) * (k.y - o.y) := by
    by_contra hlt
    push_neg at hlt
    have h1 := mul_lt_mul_of_pos_left hlt hD
    have h2 := mul_lt_mul_of_pos_right hlt hU
    have h3 := mul_le_mul_of_nonneg_left hd hU.le
    linarith
  have key := ray_affine o t k x y hcol
  rw [hz, mul_zero, zero_sub] at key
  by_contra hneg
  push_neg at hneg
  have h1 := mul_pos hU hneg
  have h2 := mul_nonneg (sub_nonneg.mpr hDU) hpos.le
  linarith

/-- Counter-clockwise turns about the pivot compose within the half plane of the sort. -/
theorem angular_trans {o a b c : Point} (ha : lexLess o a) (hb : lexLess o b)
    (hc : lexLess o c) (h1 : 0 < area2 o a b) (h2 : 0 < area2 o b c) : 0 < area2 o a c := by
  have key : (b.y - o.y) * area2 o a c =
      (a.y - o.y) * area2 o b c + (c.y - o.y) * area2 o a b := by
    simp only [area2, Point.cross, Point.sub]; ring
  have hay : 0 ≤ a.y - o.y := by
    rcases ha with h | ⟨h, _⟩
    · exact (sub_pos.mpr h).le
    · rw [h, sub_self]
  have hby : 0 < b.y - o.y := by
    rcases hb with h | ⟨h, hx⟩
    · exact sub_pos.mpr h
    · exfalso
      simp only [area2, Point.cross, Point.sub] at h1
      rw [← h] at h1
      simp only [sub_self, mul_zero, zero_sub] at h1
      have := mul_nonneg hay (sub_pos.mpr hx).le
      linarith
  have hcy : 0 < c.y - o.y := by
    rcases hc with h | ⟨h, hx⟩
    · exact sub_pos.mpr h
    · exfalso
      simp only [area2, Point.cross, Point.sub] at h2
      rw [← h] at h2
      simp only [sub_self, mul_zero, zero_sub] at h2
      have := mul_pos hby (sub_pos.mpr hx)
      linarith
  by_contra hneg
  push_neg at hneg
  have h3 := mul_nonneg hay h2.le
  have h4 := mul_pos hcy h1
  have h5 := mul_nonneg hby.le (neg_nonneg.mpr hneg)
  linarith

theorem angular_nonneg {P : List Point} (hP : AngularlySorted P) {a b : Nat} (ha : 0 < a)
    (hab : a < b) (hb : b < P.length) :
    0 ≤ area2 (P.getD 0 default) (P.getD a default) (P.getD b default) := by
  rcases hP.2 b hb a hab ha with h | ⟨h, _⟩
  · exact h.le
  · exact h.ge

theorem hull_edge {P : List Point} {H : List Nat} (hH : IsHullOf H P) {i k : Nat}
    (hi : i + 1 < H.length) (hk : k < P.length) (h1 : k ≠ H.getD i 0)
    (h2 : k ≠ H.getD (i + 1) 0) :
    0 < area2 (P.getD (H.getD i 0) default) (P.getD (H.getD (i + 1) 0) default)
      (P.getD k default) := by
  have := hH.2.2.2 i (by omega) k hk h1
  rw [Nat.mod_eq_of_lt hi] at this
  exact this h2

theorem hull_head {P : List Point} {H : List Nat} (hH : IsHullOf H P) : H.getD 0 0 = 0 := by
  have := hH.1
  cases H with
  | nil => simp at this
  | cons a rest => simp at this; simp [this]

theorem chain_getD_lt {H : List Nat} (hc : List.Chain' (fun a b => a < b) H) {i j : Nat}
    (hij : i < j) (hj : j < H.length) : H.getD i 0 < H.getD j 0 := by
  have hp : List.Pairwise (fun a b => a < b) H := List.chain'_iff_pairwise.mp hc
  rw [List.getD_eq_getElem _ _ (by omega), List.getD_eq_getElem _ _ hj]
  exact List.pairwise_iff_getElem.mp hp i j (by omega) hj hij

theorem hull_closing_edge {P : List Point} {H : List Nat} (hH : IsHullOf H P)
    (hm : 2 ≤ H.length) {k : Nat} (hk : k < P.length) (h1 : k ≠ H.getD (H.length - 1) 0)
    (h2 : k ≠ 0) :
    0 < area2 (P.getD (H.getD (H.length - 1) 0) default) (P.getD 0 default)
      (P.getD k default) := by
  have := hH.2.2.2 (H.length - 1) (by omega) k hk h1
  have e : (H.length - 1 + 1) % H.length = 0 := by
    have : H.length - 1 + 1 = H.length := by omega
    rw [this, Nat.mod_self]
  rw [e, hull_head hH] at this
  exact this h2

theorem hull_last {P : List Point} {H : List Nat} (hP : AngularlySorted P)
    (hH : IsHullOf H P) (hm : 2 ≤ H.length) : H.getD (H.length - 1) 0 = P.length - 1 := by
  have hlt : H.getD (H.length - 1) 0 < P.length := by
    apply hH.2.2.1
    rw [List.getD_eq_getElem _ _ (by omega)]
    exact List.getElem_mem _
  have hpos : 0 < H.getD (H.length - 1) 0 := by
    have := chain_getD_lt hH.2.1 (i := 0) (j := H.length - 1) (by omega) (by omega)
    omega
  by_contra hne
  have hk : P.length - 1 < P.length := by omega
  have h1 := hull_closing_edge hH hm hk (fun h => hne h.symm) (by omega)
  have h2 := angular_nonneg hP hpos (show H.getD (H.length - 1) 0 < P.length - 1 by omega) hk
  rw [area2_rot, area2_swap] at h1
  linarith

/-- The successor of a hull vertex other than the last one. -/
theorem hull_next {P : List Point} {H : List Nat} (hP : AngularlySorted P)
    (hH : IsHullOf H P) (hm : 2 ≤ H.length) {t k : Nat} (htk : t < k) (hk : k < P.length)
    (ht : t ∈ H) : ∃ i, i + 1 < H.length ∧ H.getD i 0 = t ∧ t < H.getD (i + 1) 0 ∧
      H.getD (i + 1) 0 < P.length := by
  obtain ⟨i, hi, hti⟩ := List.mem_iff_getElem.mp ht
  have hti' : H.getD i 0 = t := by rw [List.getD_eq_getElem _ _ hi]; exact hti
  have hlast := hull_last hP hH hm
  have hi1 : i + 1 < H.length := by
    by_contra hcon
    have : i = H.length - 1 := by omega
    rw [this, hlast] at hti'
    omega
  refine ⟨i, hi1, hti', ?_, ?_⟩
  · rw [← hti']; exact chain_getD_lt hH.2.1 (by omega) hi1
  · apply hH.2.2.1
    rw [List.getD_eq_getElem _ _ hi1]
    exact List.getElem_mem _

/-- A hull vertex and a later point turn strictly counter-clockwise about the pivot. -/
theorem hull_angular_pos {P : List Point} {H : List Nat} (hP : AngularlySorted P)
    (hH : IsHullOf H P) (hm : 2 ≤ H.length) {t k : Nat} (ht0 : 0 < t) (htk : t < k)
    (hk : k < P.length) (ht : t ∈ H) :
    0 < area2 (P.getD 0 default) (P.getD t default) (P.getD k default) := by
  rcases hP.2 k hk t htk ht0 with h | ⟨h0, hd⟩
  · exact h
  · exfalso
    obtain ⟨i, hi1, hti, hnext, hnlt⟩ := hull_next hP hH hm htk hk ht
    have e0 := hull_edge hH hi1 (show 0 < P.length by omega) (by omega) (by omega)
    rw [hti] at e0
    by_cases hkn : k = H.getD (i + 1) 0
    · rw [← hkn] at e0
      have := pos_rot2 e0
      rw [h0] at this
      exact lt_irrefl _ this
    · have ek := hull_edge hH hi1 hk (by omega) hkn
      rw [hti] at ek
      have := ray_beyond (hP.1 t (by omega) ht0) (hP.1 k hk (by omega)) h0 hd
        (area2_same_ends _ _) e0
      linarith

/-- A hull vertex is never popped: with `s` below it on the stack and a later point `k`
arriving, the three points turn counter-clockwise. -/
theorem hull_vertex_left_turn {P : List Point} {H : List Nat} (hP : AngularlySorted P)
    (hH : IsHullOf H P) (hm : 2 ≤ H.length) {s t k : Nat} (hst : s < t) (htk : t < k)
    (hk : k < P.length) (ht : t ∈ H) :
    0 < area2 (P.getD s default) (P.getD t default) (P.getD k default) := by
  rcases Nat.eq_zero_or_pos s with hs | hs
  · rw [hs]; exact hull_angular_pos hP hH hm (by omega) htk hk ht
  · obtain ⟨i, hi1, hti', hnext, hnlt⟩ := hull_next hP hH hm htk hk ht
    have e0 := hull_edge hH hi1 (show 0 < P.length by omega) (by omega) (by omega)
    have es := hull_edge hH hi1 (show s < P.length by omega) (by omega) (by omega)
    rw [hti'] at e0 es
    have ek : 0 ≤ area2 (P.getD t default) (P.getD (H.getD (i + 1) 0) default)
        (P.getD k default) := by
      by_cases hkn : k = H.getD (i + 1) 0
      · rw [← hkn, area2_same_right]
      · have := hull_edge hH hi1 hk (by omega) hkn
        rw [hti'] at this
        exact this.le
    have a1 := hull_angular_pos hP hH hm (show 0 < t by omega) htk hk ht
    have a2 := angular_nonneg hP hs hst (show t < P.length by omega)
    have hzero : area2 (P.getD t default) (P.getD (H.getD (i + 1) 0) default)
        (P.getD t default) = 0 := area2_same_ends _ _
    have key := area2_barycentric (P.getD 0 default) (P.getD s default) (P.getD k default)
      (P.getD t default) (P.getD t default) (P.getD (H.getD (i + 1) 0) default)
    rw [hzero, mul_zero] at key
    have hr : area2 (P.getD t default) (P.getD s default) (P.getD k default) =
        - area2 (P.getD s default) (P.getD t default) (P.getD k default) := by
      simp only [area2, Point.cross, Point.sub]; ring
    rw [hr] at key
    by_contra hneg
    push_neg at hneg
    nlinarith [mul_pos a1 es, mul_nonneg a2 ek, mul_nonneg (neg_nonneg.mpr hneg) e0.le]

theorem chain_head_gt {D : List Nat} {t : Nat}
    (hc : List.Chain' (fun a b => b < a) (t :: D)) : ∀ d ∈ D, d < t := by
  have hp : List.Pairwise (fun a b => b < a) (t :: D) := List.chain'_iff_pairwise.mp hc
  exact (List.pairwise_cons.mp hp).1

/-- The arriving point turns strictly counter-clockwise about the pivot with the top of
the stack once it does so with the two top elements. -/
theorem top_angular_pos {P : List Point} (hP : AngularlySorted P) {k t s : Nat}
    {rest : List Nat} (hk : k < P.length) (htk : t < k)
    (hc : List.Chain' (fun a b => b < a) (t :: s :: rest))
    (hconv : StackConvex P (t :: s :: rest)) (h0 : 0 ∈ t :: s :: rest)
    (htop : 0 < area2 (P.getD s default) (P.getD t default) (P.getD k default)) :
    0 < area2 (P.getD 0 default) (P.getD t default) (P.getD k default) := by
  have hst : s < t := chain_head_gt hc s (by simp)
  rcases Nat.eq_zero_or_pos s with hs | hs
  · rw [hs] at htop; exact htop
  · rcases hP.2 k hk t htk (by omega) with h | ⟨hz, hd⟩
    · exact h
    · exfalso
      have g := hconv 0 h0 s (by simp) t (by simp) hs hst
      have := ray_beyond (hP.1 t (by omega) (by omega)) (hP.1 k hk (by omega)) hz hd
        (area2_same_right _ _) (pos_rot1 g)
      linarith

/-- The arriving point turns strictly counter-clockwise about the pivot with every
stack element but the pivot. -/
theorem stack_angular_pos {P : List Point} (hP : AngularlySorted P) {k t s : Nat}
    {rest : List Nat} (hk : k < P.length) (htk : t < k)
    (hc : List.Chain' (fun a b => b < a) (t :: s :: rest))
    (hconv : StackConvex P (t :: s :: rest)) (h0 : 0 ∈ t :: s :: rest)
    (htop : 0 < area2 (P.getD s default) (P.getD t default) (P.getD k default))
    {b : Nat} (hb : b ∈ t :: s :: rest) (hb0 : 0 < b) :
    0 < area2 (P.getD 0 default) (P.getD b default) (P.getD k default) := by
  have ht := top_angular_pos hP hk htk hc hconv h0 htop
  rcases List.mem_cons.mp hb with hbt | hbr
  · rw [hbt]; exact ht
  · have hlt : b < t := chain_head_gt hc b hbr
    have g := hconv 0 h0 b hb t (by simp) hb0 hlt
    exact angular_trans (hP.1 b (by omega) hb0) (hP.1 t (by omega) (by omega))
      (hP.1 k hk (by omega)) g ht

/-- Left turn with the top of the stack, for every lower stack element but the pivot. -/
theorem push_top_turn {P : List Point} (hP : AngularlySorted P) {k t s : Nat}
    {rest : List Nat} (hk : k < P.length) (htk : t < k)
    (hc : List.Chain' (fun a b => b < a) (t :: s :: rest))
    (hconv : StackConvex P (t :: s :: rest)) (h0 : 0 ∈ t :: s :: rest)
    (htop : 0 < area2 (P.getD s default) (P.getD t default) (P.getD k default))
    {a : Nat} (ha : a ∈ s :: rest) (ha0 : 0 < a) :
    0 < area2 (P.getD a default) (P.getD t default) (P.getD k default) := by
  have hst : s < t := chain_head_gt hc s (by simp)
  rcases List.mem_cons.mp ha with has | har
  · rw [has]; exact htop
  · have hc' : List.Chain' (fun a b => b < a) (s :: rest) := (List.chain'_cons.mp hc).2
    have has : a < s := chain_head_gt hc' a har
    have g1 : 0 < area2 (P.getD t default) (P.getD k default) (P.getD s default) :=
      pos_rot1 htop
    have g2 : 0 < area2 (P.getD t default) (P.getD 0 default) (P.getD s default) :=
      pos_rot2 (hconv 0 h0 s (by simp) t (by simp) (by omega) hst)
    have g3 : 0 < area2 (P.getD t default) (P.getD a default) (P.getD s default) :=
      pos_rot2 (hconv a (by simp [har]) s (by simp) t (by simp) has hst)
    have g4 : 0 < area2 (P.getD t default) (P.getD k default) (P.getD 0 default) :=
      pos_rot1 (top_angular_pos hP hk htk hc hconv h0 htop)
    have g5 : 0 < area2 (P.getD t default) (P.getD 0 default) (P.getD a default) :=
      pos_rot2 (hconv 0 h0 a (by simp [har]) t (by simp) ha0 (by omega))
    exact pos_rot2 (ccw_trans' g1 g2 g3 g4 g5)

/-- The stack stays globally convex when `k` is pushed after the pops. -/
theorem push_convex {P : List Point} (hP : AngularlySorted P) {k : Nat} {D : List Nat}
    (hk : k < P.length) (hlt : ∀ d ∈ D, d < k)
    (hc : List.Chain' (fun a b => b < a) D) (hconv : StackConvex P D) (h0 : 0 ∈ D)
    (htop : ∀ t s rest, D = t :: s :: rest →
      0 < area2 (P.getD s default) (P.getD t default) (P.getD k default)) :
    StackConvex P (k :: D) := by
  intro a ha b hb c hc' hab hbc
  rcases List.mem_cons.mp hc' with hck | hcD
  · subst hck
    have haD : a ∈ D := by
      rcases List.mem_cons.mp ha with h | h
      · omega
      · exact h
    have hbD : b ∈ D := by
      rcases List.mem_cons.mp hb with h | h
      · omega
      · exact h
    -- the stack has at least two elements
    match D, hlt, hc, hconv, h0, htop, haD, hbD with
    | [], _, _, _, _, _, haD, _ => simp at haD
    | [t], _, _, _, _, _, haD, hbD =>
      simp at haD hbD; omega
    | t :: s :: rest, hlt, hc, hconv, h0, htop, haD, hbD =>
      have htk : t < c := hlt t (by simp)
      have htop' := htop t s rest rfl
      rcases Nat.eq_zero_or_pos a with ha0 | ha0
      · rw [ha0]
        exact stack_angular_pos hP hk htk hc hconv h0 htop' hbD (by omega)
      · have hbt : b ≤ t := by
          rcases List.mem_cons.mp hbD with h | h
          · omega
          · exact (chain_head_gt hc b h).le
        have haS : a ∈ s :: rest := by
          rcases List.mem_cons.mp haD with h | h
          · omega
          · exact h
        rcases Nat.lt_or_eq_of_le hbt with hbt' | hbt'
        · have hbS : b ∈ s :: rest := by
            rcases List.mem_cons.mp hbD with h | h
            · omega
            · exact h
          have s1 := push_top_turn hP hk htk hc hconv h0 htop' hbS (by omega)
          have g2 : 0 < area2 (P.getD b default) (P.getD t default) (P.getD 0 default) :=
            pos_rot1 (hconv 0 h0 b hbD t (by simp) (by omega) hbt')
          have g3 : 0 < area2 (P.getD b default) (P.getD t default) (P.getD a default) :=
            pos_rot1 (hconv a haD b hbD t (by simp) hab hbt')
          have g4 : 0 < area2 (P.getD b default) (P.getD c default) (P.getD 0 default) :=
            pos_rot1 (stack_angular_pos hP hk htk hc hconv h0 htop' hbD (by omega))
          have g5 : 0 < area2 (P.getD b default) (P.getD 0 default) (P.getD a default) :=
            pos_rot2 (hconv 0 h0 a haD b hbD ha0 hab)
          exact pos_rot2 (ccw_trans s1 g2 g3 g4 g5)
        · rw [hbt']
          exact push_top_turn hP hk htk hc hconv h0 htop' haS ha0
  · have haD : a ∈ D := by
      rcases List.mem_cons.mp ha with h | h
      · have := hlt c hcD; omega
      · exact h
    have hbD : b ∈ D := by
      rcases List.mem_cons.mp hb with h | h
      · have := hlt c hcD; omega
      · exact h
    exact hconv a haD b hbD c hcD hab hbc

/-- The pivot stays on the stack: it is the bottom of every non-empty suffix. -/
theorem zero_mem_suffix {D D' : List Nat} (hc : List.Chain' (fun a b => b < a) D)
    (h0 : 0 ∈ D) (hs : D' <:+ D) (hne : D' ≠ []) : 0 ∈ D' := by
  obtain ⟨pre, rfl⟩ := hs
  rcases List.mem_append.mp h0 with h | h
  · exfalso
    have hp : List.Pairwise (fun a b => b < a) (pre ++ D') := List.chain'_iff_pairwise.mp hc
    obtain ⟨x, hx⟩ := List.exists_mem_of_ne_nil D' hne
    have := (List.pairwise_append.mp hp).2.2 0 h x hx
    omega
  · exact h

/-- The `while` loop of the scan on a stack of indices into `P`: it stops on a non-empty
suffix of the stack that keeps every hull vertex and whose two top elements turn
counter-clockwise with the arriving point. -/
theorem pop_spec {P : List Point} {H : List Nat} (hP : AngularlySorted P)
    (hH : IsHullOf H P) (hm : 2 ≤ H.length) {k : Nat} (hk : k < P.length) :
    ∀ D : List Nat, List.Chain' (fun a b => b < a) D → (∀ d ∈ D, d < k) →
      ∃ D', popNonLeft (P.getD k default) (D.map (fun i => P.getD i default)) =
          D'.map (fun i => P.getD i default) ∧
        D' <:+ D ∧ (D ≠ [] → D' ≠ []) ∧
        (∀ t s rest, D' = t :: s :: rest →
          0 < area2 (P.getD s default) (P.getD t default) (P.getD k default)) ∧
        (∀ h ∈ D, h ∈ H → h ∈ D') := by
  intro D
  induction D with
  | nil => intro _ _; exact ⟨[], rfl, List.suffix_refl _, fun h => h, by simp, by simp⟩
  | cons t below ih =>
    intro hc hlt
    cases below with
    | nil =>
      refine ⟨[t], rfl, List.suffix_refl _, fun h => h, by simp, fun h hh _ => hh⟩
    | cons s rest =>
      have hc' : List.Chain' (fun a b => b < a) (s :: rest) := (List.chain'_cons.mp hc).2
      have hst : s < t := chain_head_gt hc s (by simp)
      simp only [List.map_cons]
      rw [popNonLeft_cons_cons]
      by_cases hturn : ((P.getD t default).sub (P.getD s default)).cross
          ((P.getD k default).sub (P.getD s default)) ≤ 0
      · rw [if_pos hturn]
        obtain ⟨D', h1, h2, h3, h4, h5⟩ := ih hc' (fun d hd => hlt d (List.mem_cons_of_mem _ hd))
        refine ⟨D', by simpa using h1, ?_, fun _ => h3 (by simp), h4, ?_⟩
        · exact h2.trans (List.suffix_cons _ _)
        · intro h hh hhH
          rcases List.mem_cons.mp hh with hht | hhr
          · exfalso
            have := hull_vertex_left_turn hP hH hm hst (hlt t (by simp)) hk (hht ▸ hhH)
            unfold area2 at this
            linarith
          · exact h5 h hhr hhH
      · rw [if_neg hturn]
        refine ⟨t :: s :: rest, rfl, List.suffix_refl _, fun h => h, ?_, fun h hh _ => hh⟩
        intro t' s' rest' heq
        simp only [List.cons.injEq] at heq
        obtain ⟨rfl, rfl, _⟩ := heq
        unfold area2
        exact not_le.mp hturn

theorem scan_general {P : List Point} {H : List Nat} (hP : AngularlySorted P)
    (hH : IsHullOf H P) (hm : 2 ≤ H.length) :
    ∀ (len k : Nat) (D : List Nat), k + len = P.length →
      List.Chain' (fun a b => b < a) D → 0 ∈ D → (∀ d ∈ D, d < k) → StackConvex P D →
      (∀ h ∈ H, h < k → h ∈ D) →
      ∃ D', ((List.range' k len).map (fun i => P.getD i default)).foldl
            (fun hull x => x :: popNonLeft x hull) (D.map (fun i => P.getD i default)) =
          D'.map (fun i => P.getD i default) ∧
        List.Chain' (fun a b => b < a) D' ∧ (∀ d ∈ D', d < P.length) ∧ StackConvex P D' ∧
        (∀ h ∈ H, h ∈ D') := by
  intro len
  induction len with
  | zero =>
    intro k D hk hc _ hlt hconv hhull
    refine ⟨D, rfl, hc, fun d hd => by have := hlt d hd; omega, hconv, ?_⟩
    intro h hh
    exact hhull h hh (by have := hH.2.2.1 h hh; omega)
  | succ len ih =>
    intro k D hk hc h0 hlt hconv hhull
    have hkn : k < P.length := by omega
    have hne : D ≠ [] := List.ne_nil_of_mem h0
    obtain ⟨D1, h1, h2, h3, h4, h5⟩ := pop_spec hP hH hm hkn D hc hlt
    have hsub : ∀ d ∈ D1, d ∈ D := fun d hd => h2.subset hd
    have hc1 : List.Chain' (fun a b => b < a) D1 := hc.suffix h2
    have hlt1 : ∀ d ∈ D1, d < k := fun d hd => hlt d (hsub d hd)
    have hconv1 : StackConvex P D1 := fun a ha b hb c hc' =>
      hconv a (hsub a ha) b (hsub b hb) c (hsub c hc')
    have h01 : 0 ∈ D1 := zero_mem_suffix hc h0 h2 (h3 hne)
    rw [List.range'_succ, List.map_cons, List.foldl_cons, h1]
    have hnew : List.Chain' (fun a b => b < a) (k :: D1) := by
      cases D1 with
      | nil => exact List.chain'_singleton _
      | cons t rest => exact List.chain'_cons.mpr ⟨hlt1 t (by simp), hc1⟩
    have := ih (k + 1) (k :: D1) (by omega) hnew (List.mem_cons_of_mem _ h01)
      (by
        intro d hd
        rcases List.mem_cons.mp hd with h | h
        · omega
        · have := hlt1 d h; omega)
      (push_convex hP hkn hlt1 hc1 hconv1 h01 h4)
      (by
        intro h hh hlt'
        rcases Nat.lt_or_eq_of_le (Nat.lt_succ_iff.mp hlt') with hl | he
        · exact List.mem_cons_of_mem _ (h5 h (hhull h hh hl) hh)
        · rw [he]; simp)
    simpa using this

theorem gap_of_not_mem :
    ∀ H : List Nat, List.Chain' (fun a b => a < b) H → ∀ w, w ∉ H → H.getD 0 0 < w →
      w < H.getD (H.length - 1) 0 →
      ∃ i, i + 1 < H.length ∧ H.getD i 0 < w ∧ w < H.getD (i + 1) 0 := by
  intro H
  induction H with
  | nil => intro _ w _ _ h2; simp at h2
  | cons a rest ih =>
    intro hc w hw h1 h2
    cases rest with
    | nil => simp at h1 h2; omega
    | cons b rest' =>
      have hwb : w ≠ b := fun h => hw (by simp [h])
      simp only [List.getD_cons_zero] at h1
      by_cases hlt : w < b
      · exact ⟨0, by simp, by simpa using h1, by simpa using hlt⟩
      · have hc' := (List.chain'_cons.mp hc).2
        have hb : b < w := by omega
        obtain ⟨i, hi1, hi2, hi3⟩ := ih hc' w (fun h => hw (List.mem_cons_of_mem _ h))
          (by simpa using hb) (by simpa using h2)
        refine ⟨i + 1, by simpa using hi1, by simpa using hi2, by simpa using hi3⟩

theorem final_stack_eq_hull {P : List Point} {H D : List Nat} (hP : AngularlySorted P)
    (hH : IsHullOf H P) (hm : 2 ≤ H.length) (hc : List.Chain' (fun a b => b < a) D)
    (hlt : ∀ d ∈ D, d < P.length) (hconv : StackConvex P D) (hhull : ∀ h ∈ H, h ∈ D) :
    D.reverse = H := by
  have hback : ∀ w ∈ D, w ∈ H := by
    intro w hw
    by_contra hnot
    have h0 : H.getD 0 0 < w := by
      rw [hull_head hH]
      rcases Nat.eq_zero_or_pos w with h | h
      · exfalso; apply hnot; rw [h, ← hull_head hH, List.getD_eq_getElem _ _ (by omega)]
        exact List.getElem_mem _
      · exact h
    have hl : w < H.getD (H.length - 1) 0 := by
      rw [hull_last hP hH hm]
      have := hlt w hw
      rcases Nat.lt_or_eq_of_le (Nat.le_sub_one_of_lt this) with h | h
      · exact h
      · exfalso; apply hnot
        rw [h, ← hull_last hP hH hm, List.getD_eq_getElem _ _ (by omega)]
        exact List.getElem_mem _
    obtain ⟨i, hi, hi1, hi2⟩ := gap_of_not_mem H hH.2.1 w hnot h0 hl
    have hmem1 : H.getD i 0 ∈ H := by
      rw [List.getD_eq_getElem _ _ (by omega)]; exact List.getElem_mem _
    have hmem2 : H.getD (i + 1) 0 ∈ H := by
      rw [List.getD_eq_getElem _ _ hi]; exact List.getElem_mem _
    have c1 := hconv _ (hhull _ hmem1) w hw _ (hhull _ hmem2) hi1 hi2
    have c2 := hull_edge hH hi (hlt w hw) (by omega) (by omega)
    rw [area2_swap] at c1
    linarith
  have hs1 : List.Sorted (· < ·) D.reverse := by
    rw [List.Sorted, List.pairwise_reverse]
    exact List.chain'_iff_pairwise.mp hc
  have hs2 : List.Sorted (· < ·) H := List.chain'_iff_pairwise.mp hH.2.1
  apply List.eq_of_perm_of_sorted _ hs1 hs2
  rw [List.perm_ext_iff_of_nodup hs1.nodup hs2.nodup]
  intro x
  simp only [List.mem_reverse]
  exact ⟨hback x, hhull x⟩

theorem drop_eq_map_range' (P : List Point) (k : Nat) :
    P.drop k = (List.range' k (P.length - k)).map (fun i => P.getD i default) := by
  apply List.ext_getElem
  · simp
  · intro i h1 h2
    simp only [List.getElem_drop, List.getElem_map, List.getElem_range']
    rw [List.getD_eq_getElem _ _ (by simp at h1; omega)]
    congr 1
    omega

/-- The scan of `Polygon::computeConvexHull` on an angularly sorted list returns the
hull vertices. -/
theorem scan_sorted_eq_hull {P : List Point} {H : List Nat} (hP : AngularlySorted P)
    (hH : IsHullOf H P) (hm : 2 ≤ H.length) (hn : 3 ≤ P.length) :
    ((P.drop 2).foldl (fun hull x => x :: popNonLeft x hull)
        [P.getD 1 default, P.getD 0 default]).reverse =
      H.map (fun i => P.getD i default) := by
  rw [drop_eq_map_range']
  have hinit : StackConvex P [1, 0] := by
    intro a ha b hb c hc hab hbc
    simp at ha hb hc
    omega
  obtain ⟨D, h1, h2, h3, h4, h5⟩ := scan_general hP hH hm (P.length - 2) 2 [1, 0] (by omega)
    (by simp) (by simp) (by intro d hd; simp at hd; omega) hinit
    (by intro h _ hlt; simp; omega)
  simp only [List.map_cons, List.map_nil] at h1
  rw [h1, ← List.map_reverse, final_stack_eq_hull hP hH hm h2 h3 h4 h5]

theorem angleLe_identity (o a b c : Point) :
    (b.sub o).dist2 * area2 o a c =
      ((b.x - o.x) * (c.x - o.x) + (b.y - o.y) * (c.y - o.y)) * area2 o a b +
      ((a.x - o.x) * (b.x - o.x) + (a.y - o.y) * (b.y - o.y)) * area2 o b c := by
  simp only [area2, Point.cross, Point.sub, Point.dist2]; ring

/-- The order of the sort is transitive on the half plane above the pivot. -/
theorem angleLe_trans {o a b c : Point} (ha : lexLess o a) (hb : lexLess o b)
    (hc : lexLess o c) (h1 : angleLe o a b) (h2 : angleLe o b c) : angleLe o a c := by
  have hU := dist2_pos_of_lexLess hb
  have key := angleLe_identity o a b c
  rcases h1 with h1 | ⟨h1, d1⟩
  · rcases h2 with h2 | ⟨h2, d2⟩
    · exact Or.inl (angular_trans ha hb hc h1 h2)
    · left
      have hD := dot_pos_of_collinear hb hc h2
      rw [h2, mul_zero, add_zero] at key
      have := mul_pos hD h1
      by_contra hneg
      push_neg at hneg
      have := mul_nonneg hU.le (neg_nonneg.mpr hneg)
      linarith
  · rcases h2 with h2 | ⟨h2, d2⟩
    · left
      have hD := dot_pos_of_collinear ha hb h1
      rw [h1, mul_zero, zero_add] at key
      have := mul_pos hD h2
      by_contra hneg
      push_neg at hneg
      have := mul_nonneg hU.le (neg_nonneg.mpr hneg)
      linarith
    · right
      rw [h1, h2, mul_zero, mul_zero, add_zero] at key
      refine ⟨?_, le_trans d1 d2⟩
      rcases mul_eq_zero.mp key with h | h
      · exact absurd h hU.ne'
      · exact h

/-- The comparison of the sort on two points whose cross product about the pivot is zero
or beyond the tolerance. -/
theorem angleLess_iff {o a b : Point} (htol : area2 o a b = 0 ∨ eps < |area2 o a b|) :
    angleLess o a b = true ↔
      0 < area2 o a b ∨ (area2 o a b = 0 ∧ (a.sub o).dist2 < (b.sub o).dist2) := by
  have he := eps_pos
  have hdef : (a.sub o).cross (b.sub o) = area2 o a b := rfl
  unfold angleLess
  simp only [hdef]
  rcases htol with h | h
  · rw [h, abs_zero, if_neg (not_lt.mpr he.le)]
    simp
  · rw [if_pos h]
    have hne : area2 o a b ≠ 0 := by
      intro h0
      rw [h0, abs_zero] at h
      linarith
    simp [hne]

theorem angleLe_of_angleLess {o a b : Point} (htol : area2 o a b = 0 ∨ eps < |area2 o a b|)
    (h : angleLess o a b = true) : angleLe o a b := by
  rcases (angleLess_iff htol).mp h with h1 | ⟨h1, h2⟩
  · exact Or.inl h1
  · exact Or.inr ⟨h1, h2.le⟩

theorem angleLe_of_not_angleLess {o a b : Point}
    (htol : area2 o b a = 0 ∨ eps < |area2 o b a|) (h : ¬ angleLess o b a = true) :
    angleLe o a b := by
  rw [angleLess_iff htol] at h
  push_neg at h
  have e : area2 o b a = - area2 o a b := area2_swap o a b
  rw [e] at h
  rcases lt_or_eq_of_le (show 0 ≤ area2 o a b by linarith [h.1]) with h1 | h1
  · exact Or.inl h1
  · right
    refine ⟨h1.symm, ?_⟩
    exact h.2 (by rw [← h1, neg_zero])

theorem mem_insertSorted (less : Point → Point → Bool) (a x : Point) :
    ∀ R : List Point, x ∈ insertSorted less a R ↔ x = a ∨ x ∈ R := by
  intro R
  induction R with
  | nil => simp [insertSorted]
  | cons b rest ih =>
    simp only [insertSorted]
    split_ifs
    · simp only [List.mem_cons, ih]
      tauto
    · simp only [List.mem_cons]

theorem insertSorted_perm (less : Point → Point → Bool) (a : Point) :
    ∀ R : List Point, (insertSorted less a R).Perm (a :: R) := by
  intro R
  induction R with
  | nil => exact List.Perm.refl _
  | cons b rest ih =>
    simp only [insertSorted]
    split_ifs
    · exact ((List.Perm.cons b ih).trans (List.Perm.swap a b rest))
    · exact List.Perm.refl _

theorem stdSort_perm (less : Point → Point → Bool) :
    ∀ T : List Point, (stdSort less T).Perm T := by
  intro T
  induction T with
  | nil => exact List.Perm.refl _
  | cons a rest ih =>
    simp only [stdSort]
    exact (insertSorted_perm less a _).trans (List.Perm.cons a ih)

/-- Insertion into a list in the order of the sort keeps the order. -/
theorem insertSorted_pairwise (o a : Point) (ha : lexLess o a) :
    ∀ R : List Point, (∀ x ∈ R, lexLess o x) →
      (∀ x ∈ R, area2 o x a = 0 ∨ eps < |area2 o x a|) →
      List.Pairwise (angleLe o) R → List.Pairwise (angleLe o) (insertSorted (angleLess o) a R) := by
  intro R
  induction R with
  | nil => intro _ _ _; simp [insertSorted]
  | cons b rest ih =>
    intro hhalf htol hp
    have hb := hhalf b (by simp)
    obtain ⟨hp1, hp2⟩ := List.pairwise_cons.mp hp
    simp only [insertSorted]
    split_ifs with hless
    · apply List.pairwise_cons.mpr
      refine ⟨?_, ih (fun x hx => hhalf x (List.mem_cons_of_mem _ hx))
        (fun x hx => htol x (List.mem_cons_of_mem _ hx)) hp2⟩
      intro x hx
      rcases (mem_insertSorted _ a x rest).mp hx with h | h
      · rw [h]; exact angleLe_of_angleLess (htol b (by simp)) hless
      · exact hp1 x h
    · apply List.pairwise_cons.mpr
      have hab : angleLe o a b := angleLe_of_not_angleLess (htol b (by simp)) hless
      refine ⟨?_, hp⟩
      intro x hx
      rcases List.mem_cons.mp hx with h | h
      · rw [h]; exact hab
      · exact angleLe_trans ha hb (hhalf x (List.mem_cons_of_mem _ h)) hab (hp1 x h)

/-- The sort of `Polygon::computeConvexHull` leaves the points above the pivot in the
order `angleLe`, when no cross product falls within the tolerance. -/
theorem stdSort_pairwise (o : Point) :
    ∀ T : List Point, (∀ x ∈ T, lexLess o x) →
      (∀ a ∈ T, ∀ b ∈ T, area2 o a b = 0 ∨ eps < |area2 o a b|) →
      List.Pairwise (angleLe o) (stdSort (angleLess o) T) := by
  intro T
  induction T with
  | nil => intro _ _; simp [stdSort]
  | cons a rest ih =>
    intro hhalf htol
    simp only [stdSort]
    have hmem : ∀ x, x ∈ stdSort (angleLess o) rest → x ∈ rest :=
      fun x hx => (stdSort_perm _ rest).mem_iff.mp hx
    apply insertSorted_pairwise o a (hhalf a (by simp))
    · intro x hx; exact hhalf x (List.mem_cons_of_mem _ (hmem x hx))
    · intro x hx; exact htol x (List.mem_cons_of_mem _ (hmem x hx)) a (by simp)
    · exact ih (fun x hx => hhalf x (List.mem_cons_of_mem _ hx))
        (fun x hx y hy => htol x (List.mem_cons_of_mem _ hx) y (List.mem_cons_of_mem _ hy))

theorem hullAt_getD_lt {L : List Point} {H : List Nat} (hH : IsHullAt H L) {i : Nat}
    (hi : i < H.length) : H.getD i 0 < L.length := by
  apply hH.2.1
  rw [List.getD_eq_getElem _ _ hi]
  exact List.getElem_mem _

theorem hullAt_inj {L : List Point} {H : List Nat} (hH : IsHullAt H L) {i j : Nat}
    (hi : i < H.length) (hj : j < H.length) (h : H.getD i 0 = H.getD j 0) : i = j := by
  rw [List.getD_eq_getElem _ _ hi, List.getD_eq_getElem _ _ hj] at h
  exact (List.Nodup.getElem_inj_iff hH.1).mp h

theorem hullAt_length_le {L : List Point} {H : List Nat} (hH : IsHullAt H L) :
    H.length ≤ L.length := by
  have hsub : H ⊆ List.range L.length := fun h hh => List.mem_range.mpr (hH.2.1 h hh)
  have := (hH.1.subperm hsub).length_le
  simpa using this

/-- A hull vertex is entered once: no other position of the list holds the same point. -/
theorem hullAt_point_unique {L : List Point} {H : List Nat} (hH : IsHullAt H L)
    (hm : 3 ≤ H.length) {i k : Nat} (hi : i < H.length) (hk : k < L.length)
    (h : L.getD k default = L.getD (H.getD i 0) default) : k = H.getD i 0 := by
  by_contra hne
  by_cases hk1 : k = H.getD ((i + 1) % H.length) 0
  · -- use the edge that ends at the vertex
    rcases Nat.eq_zero_or_pos i with hi0 | hi0
    · subst hi0
      have e1 : (H.length - 1 + 1) % H.length = 0 := by
        rw [show H.length - 1 + 1 = H.length by omega, Nat.mod_self]
      have e2 : (0 + 1) % H.length = 1 := Nat.mod_eq_of_lt (by omega)
      rw [e2] at hk1
      have hk2 : k ≠ H.getD (H.length - 1) 0 := by
        rw [hk1]
        intro h'
        have := hullAt_inj hH (by omega) (by omega) h'
        omega
      have := hH.2.2.2 (H.length - 1) (by omega) k hk hk2 (by rw [e1]; exact hne)
      rw [e1, h, area2_same_right] at this
      exact lt_irrefl _ this
    · have e1 : (i - 1 + 1) % H.length = i := by
        rw [show i - 1 + 1 = i by omega]; exact Nat.mod_eq_of_lt hi
      have hk2 : k ≠ H.getD (i - 1) 0 := by
        rw [hk1]
        intro h'
        have := hullAt_inj hH (Nat.mod_lt _ (by omega)) (by omega) h'
        by_cases hlast : i + 1 < H.length
        · rw [Nat.mod_eq_of_lt hlast] at this; omega
        · rw [show i + 1 = H.length by omega, Nat.mod_self] at this; omega
      have := hH.2.2.2 (i - 1) (by omega) k hk hk2 (by rw [e1]; exact hne)
      rw [e1, h, area2_same_right] at this
      exact lt_irrefl _ this
  · have := hH.2.2.2 i hi k hk hne hk1
    rw [h, area2_same_ends] at this
    exact lt_irrefl _ this

theorem findMinIdx_hullAt {L : List Point} {H : List Nat} (hH : IsHullAt H L)
    (hm : 1 ≤ H.length) : findMinIdx L = H.getD 0 0 := by
  have h0 := hullAt_getD_lt hH (show 0 < H.length by omega)
  have hne : L ≠ [] := by
    intro h; rw [h] at h0; simp at h0
  obtain ⟨hq, hmin⟩ := findMinIdx_spec L hne
  by_contra hcon
  have := hH.2.2.1 _ hq hcon
  apply hmin (L.getD (H.getD 0 0) default) _ this
  rw [List.getD_eq_getElem _ _ h0]
  exact List.getElem_mem _

/-- The entries of a list after the swap of positions 0 and `q`. -/
theorem getD_swap (L : List Point) (q j : Nat) (hj : j < L.length) :
    ((L.set 0 (L.getD q default)).set q (L.getD 0 default)).getD j default =
      L.getD (if j = q then 0 else if j = 0 then q else j) default := by
  rw [List.getD_eq_getElem _ _ (by simpa using hj), List.getElem_set]
  by_cases h1 : j = q
  · rw [if_pos h1.symm, if_pos h1]
  · rw [if_neg (fun h => h1 h.symm), if_neg h1, List.getElem_set]
    by_cases h2 : j = 0
    · rw [if_pos h2.symm, if_pos h2]
    · rw [if_neg (fun h => h2 h.symm), if_neg h2, List.getD_eq_getElem _ _ hj]

/-- A point held at one position only is held at one position only after a
rearrangement. -/
theorem unique_index_of_perm {S L : List Point} (hperm : S.Perm L) {v : Point}
    (huniq : ∀ i j, i < L.length → j < L.length → L.getD i default = v →
      L.getD j default = v → i = j) :
    ∀ i j, i < S.length → j < S.length → S.getD i default = v →
      S.getD j default = v → i = j := by
  have hL : List.Pairwise (fun x y : Point => ¬ (x = v ∧ y = v)) L := by
    apply List.pairwise_iff_getElem.mpr
    intro i j hi hj hij hboth
    have := huniq i j hi hj (by rw [List.getD_eq_getElem _ _ hi]; exact hboth.1)
      (by rw [List.getD_eq_getElem _ _ hj]; exact hboth.2)
    omega
  have hS := (hperm.pairwise_iff (fun {x y} h hxy => h ⟨hxy.2, hxy.1⟩)).mpr hL
  have key : ∀ i j, i < j → j < S.length → S.getD i default = v →
      S.getD j default = v → False := by
    intro i j hij hj h1 h2
    have hi : i < S.length := by omega
    rw [List.getD_eq_getElem _ _ hi] at h1
    rw [List.getD_eq_getElem _ _ hj] at h2
    exact List.pairwise_iff_getElem.mp hS i j hi hj hij ⟨h1, h2⟩
  intro i j hi hj h1 h2
  rcases Nat.lt_trichotomy i j with h | h | h
  · exact (key i j h hj h1 h2).elim
  · exact h
  · exact (key j i h hi h2 h1).elim

theorem swap_index_lt {n q j : Nat} (hq : q < n) (hj : j < n) :
    (if j = q then 0 else if j = 0 then q else j) < n := by
  split_ifs <;> omega

theorem swap_index_inj {q a b : Nat}
    (h : (if a = q then 0 else if a = 0 then q else a) =
      (if b = q then 0 else if b = 0 then q else b)) : a = b := by
  split_ifs at h <;> omega

/-- The list that the scan of `Polygon::computeConvexHull` reads, when the input has a
hull certificate and no cross product within the tolerance: the lowest point, then the
other entries in the order of the sort. -/
theorem sorted_of_hullAt {L : List Point} {H : List Nat} (hH : IsHullAt H L)
    (hm : 3 ≤ H.length) (htol : ToleranceFree L) :
    ∃ S : List Point,
      hullOfPoints L =
        ((S.drop 2).foldl (fun hull x => x :: popNonLeft x hull)
          [S.getD 1 default, S.getD 0 default]).reverse ∧
      S.length = L.length ∧
      (∃ R, S = L.getD (H.getD 0 0) default :: R) ∧
      AngularlySorted S ∧
      (∀ x, x ∈ S ↔ x ∈ L) ∧
      (∀ i, i < H.length → ∀ a b, a < S.length → b < S.length →
        S.getD a default = L.getD (H.getD i 0) default →
        S.getD b default = L.getD (H.getD i 0) default → a = b) := by
  have hq := findMinIdx_hullAt hH (by omega)
  have hqlt : H.getD 0 0 < L.length := hullAt_getD_lt hH (by omega)
  have hn : 3 ≤ L.length := le_trans hm (hullAt_length_le hH)
  obtain ⟨tl, htl⟩ := swap_head L (H.getD 0 0) (by omega) hqlt
  have hmemsw := mem_swap L 0 (H.getD 0 0) (by omega) hqlt
  rw [htl] at hmemsw
  have h0lt : 0 < L.length := by omega
  have e0 : L[0] = L.getD 0 default := (List.getD_eq_getElem _ _ h0lt).symm
  have eq1 : L[H.getD 0 0] = L.getD (H.getD 0 0) default :=
    (List.getD_eq_getElem _ _ hqlt).symm
  rw [e0, eq1] at htl
  rw [eq1] at hmemsw
  have htllen : tl.length + 1 = L.length := by
    have := congrArg List.length htl
    simp only [List.length_set, List.length_cons] at this
    omega
  -- the entries of the tail
  have hsw : ∀ j, j < L.length →
      (L.getD (H.getD 0 0) default :: tl).getD j default =
        L.getD (if j = H.getD 0 0 then 0 else if j = 0 then H.getD 0 0 else j) default := by
    intro j hj
    rw [← htl]
    exact getD_swap L _ j hj
  have htail : ∀ x ∈ tl, ∃ k, k < L.length ∧ k ≠ H.getD 0 0 ∧ x = L.getD k default := by
    intro x hx
    obtain ⟨j, hj, e⟩ := List.mem_iff_getElem.mp hx
    have h1 := hsw (j + 1) (by omega)
    rw [List.getD_cons_succ, List.getD_eq_getElem _ _ hj, e] at h1
    refine ⟨_, swap_index_lt hqlt (show j + 1 < L.length by omega), ?_, h1⟩
    by_cases hjq : j + 1 = H.getD 0 0
    · rw [if_pos hjq]; omega
    · rw [if_neg hjq, if_neg (by omega)]; exact hjq
  have hhalf : ∀ x ∈ tl, lexLess (L.getD (H.getD 0 0) default) x := by
    intro x hx
    obtain ⟨k, hk, hkq, e⟩ := htail x hx
    rw [e]
    exact hH.2.2.1 k hk hkq
  have htailL : ∀ x ∈ tl, x ∈ L := by
    intro x hx
    obtain ⟨k, hk, _, e⟩ := htail x hx
    rw [e, List.getD_eq_getElem _ _ hk]
    exact List.getElem_mem _
  have htol' : ∀ a ∈ tl, ∀ b ∈ tl,
      area2 (L.getD (H.getD 0 0) default) a b = 0 ∨
        eps < |area2 (L.getD (H.getD 0 0) default) a b| := by
    intro a ha b hb
    have := htol a (htailL a ha) b (htailL b hb)
    rw [hq] at this
    exact this
  obtain ⟨R, hRlen, hRperm, hp⟩ : ∃ R : List Point, R.length = tl.length ∧ R.Perm tl ∧
      List.Pairwise (angleLe (L.getD (H.getD 0 0) default)) R ∧
      R = stdSort (angleLess (L.getD (H.getD 0 0) default)) tl :=
    ⟨_, stdSort_length _ tl, stdSort_perm _ tl,
      stdSort_pairwise (L.getD (H.getD 0 0) default) tl hhalf htol', rfl⟩
  obtain ⟨hp, hRdef⟩ := hp
  have hperm : (L.getD (H.getD 0 0) default :: R).Perm (L.getD (H.getD 0 0) default :: tl) :=
    List.Perm.cons _ hRperm
  refine ⟨L.getD (H.getD 0 0) default :: R, ?_, ?_, ⟨_, rfl⟩, ⟨?_, ?_⟩, ?_, ?_⟩
  · rw [hRdef]
    exact hullOfPoints_eq L (L.getD (H.getD 0 0) default :: tl) _ hn
      (by rw [hq]; exact htl.symm) rfl
  · rw [List.length_cons, hRlen]
    exact htllen
  · intro i hi hi0
    obtain ⟨i', rfl⟩ : ∃ i', i = i' + 1 := ⟨i - 1, by omega⟩
    rw [List.length_cons] at hi
    have hi' : i' < R.length := by omega
    rw [List.getD_cons_succ, List.getD_cons_zero, List.getD_eq_getElem _ _ hi']
    exact hhalf _ (hRperm.mem_iff.mp (List.getElem_mem _))
  · intro b hb a hab ha0
    obtain ⟨a', rfl⟩ : ∃ a', a = a' + 1 := ⟨a - 1, by omega⟩
    obtain ⟨b', rfl⟩ : ∃ b', b = b' + 1 := ⟨b - 1, by omega⟩
    rw [List.length_cons] at hb
    have hb' : b' < R.length := by omega
    have ha' : a' < R.length := by omega
    rw [List.getD_cons_succ, List.getD_cons_succ, List.getD_cons_zero,
      List.getD_eq_getElem _ _ hb', List.getD_eq_getElem _ _ ha']
    exact List.pairwise_iff_getElem.mp hp a' b' ha' hb' (by omega)
  · intro x
    rw [hperm.mem_iff]
    exact hmemsw x
  · intro i hi
    apply unique_index_of_perm hperm
    intro a b ha hb h1 h2
    rw [List.length_cons] at ha hb
    rw [hsw a (by omega)] at h1
    rw [hsw b (by omega)] at h2
    have k1 := hullAt_point_unique hH hm hi (swap_index_lt hqlt (show a < L.length by omega)) h1
    have k2 := hullAt_point_unique hH hm hi (swap_index_lt hqlt (show b < L.length by omega)) h2
    exact swap_index_inj (k1.trans k2.symm)

theorem chain'_of_getD {H : List Nat}
    (h : ∀ i, i + 1 < H.length → H.getD i 0 < H.getD (i + 1) 0) :
    List.Chain' (fun a b => a < b) H := by
  apply List.chain'_iff_get.mpr
  intro i hi
  have := h i (by omega)
  rw [List.getD_eq_getElem _ _ (by omega), List.getD_eq_getElem _ _ (by omega)] at this
  exact this

/-- The sort and scan of `Polygon::computeConvexHull` on a point list with a hull
certificate and no cross product within the tolerance return the hull vertices. -/
theorem hullOfPoints_of_hullAt {L : List Point} {H : List Nat} (hH : IsHullAt H L)
    (hm : 3 ≤ H.length) (htol : ToleranceFree L) :
    hullOfPoints L = H.map (fun i => L.getD i default) := by
  obtain ⟨S, hscan, hlen, ⟨R, hSR⟩, hS, hmem, huniq⟩ := sorted_of_hullAt hH hm htol
  have hn : 3 ≤ L.length := le_trans hm (hullAt_length_le hH)
  have hv : ∀ i, i < H.length →
      S.indexOf (L.getD (H.getD i 0) default) < S.length ∧
      S.getD (S.indexOf (L.getD (H.getD i 0) default)) default =
        L.getD (H.getD i 0) default := by
    intro i hi
    have hmemS : L.getD (H.getD i 0) default ∈ S :=
      (hmem _).mpr (by
        rw [List.getD_eq_getElem _ _ (hullAt_getD_lt hH hi)]; exact List.getElem_mem _)
    have hlt := List.indexOf_lt_length.mpr hmemS
    exact ⟨hlt, by rw [List.getD_eq_getElem _ _ hlt]; exact List.getElem_indexOf hlt⟩
  have hidx : ∀ i, i < H.length → ∀ j, j < S.length →
      S.getD j default = L.getD (H.getD i 0) default →
      j = S.indexOf (L.getD (H.getD i 0) default) :=
    fun i hi j hj e => huniq i hi j _ hj (hv i hi).1 e (hv i hi).2
  have hdist : ∀ i j, i < H.length → j < H.length →
      L.getD (H.getD i 0) default = L.getD (H.getD j 0) default → i = j := by
    intro i j hi hj e
    exact hullAt_inj hH hi hj (hullAt_point_unique hH hm hj (hullAt_getD_lt hH hi) e)
  have hpos0 : S.indexOf (L.getD (H.getD 0 0) default) = 0 := by
    rw [hSR]; exact List.indexOf_cons_self _ _
  have hS0 : S.getD 0 default = L.getD (H.getD 0 0) default := by rw [hSR]; rfl
  obtain ⟨H', hHdef, hHlen, hgetD⟩ : ∃ H' : List Nat,
      H' = H.map (fun h => S.indexOf (L.getD h default)) ∧ H'.length = H.length ∧
      ∀ i, i < H.length → H'.getD i 0 = S.indexOf (L.getD (H.getD i 0) default) := by
    refine ⟨_, rfl, List.length_map _ _, ?_⟩
    intro i hi
    rw [List.getD_eq_getElem _ _ (by rw [List.length_map]; exact hi), List.getElem_map,
      List.getD_eq_getElem _ _ hi]
  -- the hull vertices other than the pivot stand behind it
  have hpos : ∀ i, i < H.length → 0 < i → 0 < S.indexOf (L.getD (H.getD i 0) default) := by
    intro i hi hi0
    rcases Nat.eq_zero_or_pos (S.indexOf (L.getD (H.getD i 0) default)) with h | h
    · exfalso
      have := (hv i hi).2
      rw [h, hS0] at this
      have := hdist 0 i (by omega) hi this
      omega
    · exact h
  -- consecutive hull vertices turn counter-clockwise about the pivot
  have hturn : ∀ i, 0 < i → i + 1 < H.length →
      0 < area2 (L.getD (H.getD 0 0) default) (L.getD (H.getD i 0) default)
        (L.getD (H.getD (i + 1) 0) default) := by
    intro i hi0 hi1
    have h1 : H.getD 0 0 ≠ H.getD i 0 := by
      intro h; have := hullAt_inj hH (by omega) (by omega) h; omega
    have h2 : H.getD 0 0 ≠ H.getD ((i + 1) % H.length) 0 := by
      rw [Nat.mod_eq_of_lt hi1]
      intro h; have := hullAt_inj hH (by omega) (by omega) h; omega
    have := hH.2.2.2 i (by omega) (H.getD 0 0) (hullAt_getD_lt hH (by omega)) h1 h2
    rw [Nat.mod_eq_of_lt hi1] at this
    exact pos_rot2 this
  have hhull : IsHullOf H' S := by
    refine ⟨?_, ?_, ?_, ?_⟩
    · rw [hHdef]
      match H, hm, hpos0 with
      | h0 :: rest, _, hpos0 =>
        simp only [List.getD_cons_zero] at hpos0
        simp only [List.map_cons, List.head?_cons, hpos0]
    · apply chain'_of_getD
      intro i hi
      rw [hHlen] at hi
      rw [hgetD i (by omega), hgetD (i + 1) hi]
      rcases Nat.eq_zero_or_pos i with hi0 | hi0
      · subst hi0
        rw [hpos0]
        exact hpos 1 hi (by omega)
      · by_contra hnot
        have hle : S.indexOf (L.getD (H.getD (i + 1) 0) default) ≤
            S.indexOf (L.getD (H.getD i 0) default) := by omega
        rcases Nat.lt_or_eq_of_le hle with hlt | heq
        · have h1 := angular_nonneg hS (hpos (i + 1) hi (by omega)) hlt (hv i (by omega)).1
          rw [(hv i (by omega)).2, (hv (i + 1) hi).2, hS0, area2_swap] at h1
          have := hturn i hi0 hi
          linarith
        · have e := (hv (i + 1) hi).2
          rw [heq, (hv i (by omega)).2] at e
          have := hdist i (i + 1) (by omega) hi e
          omega
    · intro h hh
      rw [hHdef] at hh
      obtain ⟨x, hx, rfl⟩ := List.mem_map.mp hh
      obtain ⟨i, hi, rfl⟩ := List.mem_iff_getElem.mp hx
      have := (hv i hi).1
      rw [List.getD_eq_getElem _ _ hi] at this
      exact this
    · intro i hi k hk hk1 hk2
      rw [hHlen] at hi
      have hi' : (i + 1) % H.length < H.length := Nat.mod_lt _ (by omega)
      rw [hHlen]
      rw [hHlen, hgetD _ hi'] at hk2
      rw [hgetD i hi] at hk1
      rw [hgetD i hi, hgetD _ hi', (hv i hi).2, (hv _ hi').2]
      have hkL : S.getD k default ∈ L := (hmem _).mp (by
        rw [List.getD_eq_getElem _ _ hk]; exact List.getElem_mem _)
      obtain ⟨j, hj, e⟩ := List.mem_iff_getElem.mp hkL
      have e' : S.getD k default = L.getD j default := by
        rw [List.getD_eq_getElem _ _ hj]; exact e.symm
      rw [e']
      apply hH.2.2.2 i hi j hj
      · intro hji
        apply hk1
        apply hidx i hi k hk
        rw [e', hji]
      · intro hji
        apply hk2
        apply hidx _ hi' k hk
        rw [e', hji]
  rw [hscan, scan_sorted_eq_hull hS hhull (by omega) (by omega), hHdef, List.map_map]
  apply List.map_congr_left
  intro h hh
  obtain ⟨i, hi, rfl⟩ := List.mem_iff_getElem.mp hh
  have := (hv i hi).2
  rw [List.getD_eq_getElem _ _ hi] at this
  exact this

theorem toQPointF_ofQPointF (q : QPointF) : (Point.ofQPointF q).toQPointF = q := by
  cases q; rfl

theorem getD_map_ofQPointF (pts : List ConvexHull.Point) (i : Nat) :
    (pts.map (fun pt => Point.ofQPointF pt.pos)).getD i default =
      Point.ofQPointF (pts.getD i default).pos := by
  have h := List.getD_map (fun pt : ConvexHull.Point => Point.ofQPointF pt.pos) (l := pts)
    (n := i) (d := default)
  exact h

theorem orientation_eq_two_iff (p q r : QPointF) :
    ConvexHull.orientation p q r = 2 ↔
      0 < area2 (Point.ofQPointF p) (Point.ofQPointF q) (Point.ofQPointF r) := by
  have key : area2 (Point.ofQPointF p) (Point.ofQPointF q) (Point.ofQPointF r) =
      - ((q.y - p.y) * (r.x - q.x) - (q.x - p.x) * (r.y - q.y)) := by
    simp only [area2, Point.sub, Point.cross, Point.ofQPointF]
    ring
  rw [key]
  unfold ConvexHull.orientation
  simp only
  split_ifs with h1 h2
  · rw [h1]; simp
  · constructor
    · intro h; exact absurd h (by decide)
    · intro h; linarith
  · constructor
    · intro _
      have : (q.y - p.y) * (r.x - q.x) - (q.x - p.x) * (r.y - q.y) < 0 :=
        lt_of_le_of_ne (not_lt.mp h2) h1
      linarith
    · intro _; rfl

theorem findStartIndex_eq_findMinIdx (pts : List ConvexHull.Point) :
    ConvexHull.findStartIndex pts = findMinIdx (pts.map (fun pt => Point.ofQPointF pt.pos)) := by
  unfold ConvexHull.findStartIndex findMinIdx
  simp only [List.length_map, getD_map_ofQPointF]
  rfl

/-- The inner loop of the gift wrapping: when every other point lies strictly to the
left of the ray from position `c` to position `t`, the loop never selects `c`, and
once it has met `t` it keeps it. -/
theorem nextIndex_fold (pts : List ConvexHull.Point) (c t : Nat)
    (hedge : ∀ k, k < pts.length → k ≠ c → k ≠ t →
      0 < area2 (Point.ofQPointF (pts.getD c default).pos)
        (Point.ofQPointF (pts.getD t default).pos)
        (Point.ofQPointF (pts.getD k default).pos)) :
    ∀ (l : List Nat) (next : Nat), (∀ i ∈ l, i < pts.length) → next < pts.length →
      next ≠ c →
      l.foldl (fun next i =>
          if ConvexHull.orientation (pts.getD c default).pos (pts.getD i default).pos
              (pts.getD next default).pos = 2
          then i else next) next ≠ c ∧
      ((t ∈ l ∨ next = t) →
        l.foldl (fun next i =>
          if ConvexHull.orientation (pts.getD c default).pos (pts.getD i default).pos
              (pts.getD next default).pos = 2
          then i else next) next = t) := by
  intro l
  induction l with
  | nil =>
    intro next _ _ hne
    refine ⟨hne, ?_⟩
    intro h
    rcases h with h | h
    · simp at h
    · exact h
  | cons i rest ih =>
    intro next hl hnext hne
    have hi : i < pts.length := hl i (by simp)
    have hrest : ∀ j ∈ rest, j < pts.length := fun j hj => hl j (List.mem_cons_of_mem _ hj)
    simp only [List.foldl_cons]
    -- the value of `next` after this step
    have hstep1 : (if ConvexHull.orientation (pts.getD c default).pos (pts.getD i default).pos
              (pts.getD next default).pos = 2 then i else next) < pts.length := by
      split_ifs
      · exact hi
      · exact hnext
    have hstep2 : (if ConvexHull.orientation (pts.getD c default).pos (pts.getD i default).pos
              (pts.getD next default).pos = 2 then i else next) ≠ c := by
      split_ifs with h
      · intro hic
        rw [hic, orientation_eq_two_iff] at h
        have : area2 (Point.ofQPointF (pts.getD c default).pos)
            (Point.ofQPointF (pts.getD c default).pos)
            (Point.ofQPointF (pts.getD next default).pos) = 0 := by
          simp only [area2, Point.sub, Point.cross]; ring
        linarith
      · exact hne
    obtain ⟨ih1, ih2⟩ := ih _ hrest hstep1 hstep2
    refine ⟨ih1, ?_⟩
    intro h
    apply ih2
    by_cases hnt : next = t
    · right
      rw [if_neg, hnt]
      rw [hnt, orientation_eq_two_iff]
      by_cases hic : i = c
      · rw [hic]
        have : area2 (Point.ofQPointF (pts.getD c default).pos)
            (Point.ofQPointF (pts.getD c default).pos)
            (Point.ofQPointF (pts.getD t default).pos) = 0 := by
          simp only [area2, Point.sub, Point.cross]; ring
        linarith
      · by_cases hit : i = t
        · rw [hit]
          have : area2 (Point.ofQPointF (pts.getD c default).pos)
              (Point.ofQPointF (pts.getD t default).pos)
              (Point.ofQPointF (pts.getD t default).pos) = 0 := by
            simp only [area2, Point.sub, Point.cross]; ring
          linarith
        · have := hedge i hi hic hit
          rw [area2_swap]
          linarith
    · rcases h with h | h
      · rcases List.mem_cons.mp h with h | h
        · right
          rw [if_pos, h]
          rw [← h, orientation_eq_two_iff]
          exact hedge next hnext hne hnt
        · left; exact h
      · exact absurd h hnt

theorem nextIndex_eq (pts : List ConvexHull.Point) (c t : Nat) (hn : 2 ≤ pts.length)
    (hc : c < pts.length) (ht : t < pts.length)
    (hedge : ∀ k, k < pts.length → k ≠ c → k ≠ t →
      0 < area2 (Point.ofQPointF (pts.getD c default).pos)
        (Point.ofQPointF (pts.getD t default).pos)
        (Point.ofQPointF (pts.getD k default).pos)) :
    ConvexHull.nextIndex pts c = t := by
  unfold ConvexHull.nextIndex
  have h0 : (c + 1) % pts.length < pts.length := Nat.mod_lt _ (by omega)
  have h1 : (c + 1) % pts.length ≠ c := by
    by_cases h : c + 1 < pts.length
    · rw [Nat.mod_eq_of_lt h]; omega
    · have : c + 1 = pts.length := by omega
      rw [this, Nat.mod_self]; omega
  exact (nextIndex_fold pts c t hedge (List.range pts.length) _
    (fun i hi => List.mem_range.mp hi) h0 h1).2 (Or.inl (List.mem_range.mpr ht))

/-- One round of the gift wrapping from the position of a hull vertex selects the
position of the next hull vertex. -/
theorem wrap_successor {pts : List ConvexHull.Point} {H : List Nat}
    (hH : IsHullAt H (pts.map (fun pt => Point.ofQPointF pt.pos))) (hm : 2 ≤ H.length)
    {i : Nat} (hi : i < H.length) :
    ConvexHull.nextIndex pts (H.getD i 0) = H.getD ((i + 1) % H.length) 0 := by
  have hlen : (pts.map (fun pt => Point.ofQPointF pt.pos)).length = pts.length :=
    List.length_map _ _
  have hHL := hullAt_length_le hH
  have hi' : (i + 1) % H.length < H.length := Nat.mod_lt _ (by omega)
  have hc := hullAt_getD_lt hH hi
  have ht := hullAt_getD_lt hH hi'
  rw [hlen] at hc ht hHL
  apply nextIndex_eq pts _ _ (by omega) hc ht
  intro k hk hkc hkt
  have := hH.2.2.2 i hi k (by rw [hlen]; exact hk) hkc hkt
  rw [getD_map_ofQPointF, getD_map_ofQPointF, getD_map_ofQPointF] at this
  exact this

/-- The gift-wrapping loop, entered at the position of the hull vertex number `i`, walks
through the positions of the remaining hull vertices and stops. -/
theorem wrapLoop_hull {pts : List ConvexHull.Point} {H : List Nat}
    (hH : IsHullAt H (pts.map (fun pt => Point.ofQPointF pt.pos))) (hm : 2 ≤ H.length) :
    ∀ (d i : Nat), i + d + 1 = H.length → ∀ acc : List Nat,
      ConvexHull.wrapLoop pts (H.getD 0 0) (d + 1) (H.getD i 0) acc =
        some (acc ++ H.drop i) := by
  intro d
  induction d with
  | zero =>
    intro i hi acc
    have hi' : i < H.length := by omega
    have hnext := wrap_successor hH hm hi'
    have e : (i + 1) % H.length = 0 := by
      have : i + 1 = H.length := by omega
      rw [this, Nat.mod_self]
    rw [e] at hnext
    simp only [ConvexHull.wrapLoop, hnext, ne_eq, not_true_eq_false, if_false]
    rw [List.drop_eq_getElem_cons hi', List.drop_of_length_le (by omega),
      List.getD_eq_getElem _ _ hi']
  | succ d ih =>
    intro i hi acc
    have hi' : i < H.length := by omega
    have hnext := wrap_successor hH hm hi'
    rw [Nat.mod_eq_of_lt (by omega)] at hnext
    have hne : H.getD (i + 1) 0 ≠ H.getD 0 0 := by
      intro h
      have := hullAt_inj hH (show i + 1 < H.length by omega) (show 0 < H.length by omega) h
      omega
    rw [ConvexHull.wrapLoop]
    simp only [hnext, ne_eq, hne, not_false_eq_true, if_true]
    rw [ih (i + 1) (by omega), List.drop_eq_getElem_cons hi']
    simp only [List.append_assoc, List.singleton_append, List.getD_eq_getElem _ _ hi']

/-- The gift wrapping of `ConvexHullWidget::computeConvexHull` on a point list with a
hull certificate returns the hull vertices. -/
theorem widget_hull_of_hullAt (w : ConvexHull.ConvexHullWidget) {H : List Nat} (extra : Nat)
    (hH : IsHullAt H (w.points.map (fun pt => Point.ofQPointF pt.pos)))
    (hm : 3 ≤ H.length) :
    ConvexHull.computeConvexHull (H.length + extra) w =
      some { w with convexHull := H.map (fun i => (w.points.getD i default).pos) } := by
  apply ConvexHull.computeConvexHull_add_fuel
  have hHL := hullAt_length_le hH
  rw [List.length_map] at hHL
  have hstart : ConvexHull.findStartIndex w.points = H.getD 0 0 := by
    rw [findStartIndex_eq_findMinIdx]
    exact findMinIdx_hullAt hH (by omega)
  unfold ConvexHull.computeConvexHull
  rw [if_neg (by omega)]
  simp only
  rw [hstart]
  have hloop := wrapLoop_hull hH (by omega) (H.length - 1) 0 (by omega) []
  rw [show H.length - 1 + 1 = H.length by omega] at hloop
  rw [hloop]
  simp only [List.nil_append, List.drop_zero]

end PolygonOps

/-! ## Delaunay widget in double arithmetic -/

namespace DelaunayIeee

open Binary64

theorem ieee_mem_insertPoint (temp : List DPoint) (p : DPoint) (i : Nat)
    (triangleList : List Delaunay.Triangle) (t : Delaunay.Triangle)
    (h : t ∈ insertPoint temp p i triangleList) :
    (t ∈ triangleList ∧ circumcircleContains temp p t = false) ∨ t.p3 = i := by
  unfold insertPoint at h
  simp only [List.mem_append, List.mem_map] at h
  rcases h with h | ⟨e, _, he⟩
  · left
    rw [Delaunay.mem_foldl_remove] at h
    refine ⟨h.1, ?_⟩
    have h2 := h.2
    simp only [List.mem_filter, not_and, Bool.not_eq_true] at h2
    exact h2 h.1
  · right
    rw [← he]

theorem ieee_workingList_succ (points : List Delaunay.Point) (k : Nat) :
    workingList points (k + 1) =
      insertPoint (tempPoints points) (position points k) k (workingList points k) := by
  unfold workingList position
  simp only [List.range_succ, List.foldl_append, List.foldl_cons, List.foldl_nil]

theorem ieee_workingList_later_points (points : List Delaunay.Point) (i : Nat) :
    ∀ t ∈ workingList points i, ∀ k, t.p3 < k → k < i →
      circumcircleContains (tempPoints points) (position points k) t = false := by
  induction i with
  | zero => intro t _ k _ hk; omega
  | succ i ih =>
    intro t ht k hk1 hk2
    rw [ieee_workingList_succ] at ht
    rcases ieee_mem_insertPoint _ _ _ _ _ ht with ⟨hold, hout⟩ | hnew
    · by_cases hki : k = i
      · rw [hki]; exact hout
      · exact ih t hold k hk1 (by omega)
    · omega

theorem ieee_tempPoints_getD (points : List Delaunay.Point) (j : Nat) (hj : j < points.length) :
    (tempPoints points).getD j default = position points j := by
  unfold tempPoints position
  simp only
  rw [List.getD_append _ _ _ _ (by simpa using hj)]
  rw [List.getD_eq_getElem _ _ (by simpa using hj), List.getD_eq_getElem _ _ hj]
  simp

theorem ieee_mem_computeDelaunay (w : Delaunay.DelaunayWidget) (t : Delaunay.Triangle)
    (ht : t ∈ (computeDelaunay w).triangles) :
    t ∈ workingList w.points w.points.length ∧
      t.p1 < w.points.length ∧ t.p2 < w.points.length ∧ t.p3 < w.points.length := by
  unfold computeDelaunay at ht
  split at ht
  · simp at ht
  · simp only [List.mem_filter, Bool.not_eq_true', Bool.or_eq_false_iff,
      decide_eq_false_iff_not, not_le, ge_iff_le] at ht
    exact ⟨ht.1, ht.2.1.1, ht.2.1.2, ht.2.2⟩

theorem ieee_isPointInCircumcircle_eq (a b c p : DPoint) :
    isPointInCircumcircle a b c p =
      le (sqrt (squaredDistance p (div (circumNumeratorX a b c) (circumDenominator a b c))
          (div (circumNumeratorY a b c) (circumDenominator a b c))))
        (sqrt (squaredDistance a (div (circumNumeratorX a b c) (circumDenominator a b c))
          (div (circumNumeratorY a b c) (circumDenominator a b c)))) := rfl

/-- A quotient by zero: NaN for a zero or NaN numerator, an infinity otherwise. -/
theorem div_zero_cases (n : Dbl) :
    (div n (.fin 0) = .nan ∧ (n = .fin 0 ∨ n = .nan)) ∨
    ((div n (.fin 0) = .pinf ∨ div n (.fin 0) = .ninf) ∧ n ≠ .fin 0 ∧ n ≠ .nan) := by
  cases n with
  | fin q =>
    rcases lt_trichotomy q 0 with h | h | h
    · right
      refine ⟨Or.inr ?_, ?_, by simp⟩
      · simp [div, Dbl.div, ofExact, h.ne, not_lt.mpr h.le]
      · intro e; injection e with e; exact h.ne e
    · left
      subst h
      exact ⟨by simp [div, Dbl.div, ofExact], Or.inl rfl⟩
    · right
      refine ⟨Or.inl ?_, ?_, by simp⟩
      · simp [div, Dbl.div, ofExact, h.ne', h]
      · intro e; injection e with e; exact h.ne' e
  | pinf => right; exact ⟨Or.inl (by simp [div]), by simp, by simp⟩
  | ninf => right; exact ⟨Or.inr (by simp [div]), by simp, by simp⟩
  | nan => left; exact ⟨by simp [div], Or.inr rfl⟩

/-- The squared distance of a finite coordinate from an infinite one is `+inf`, from a
NaN it is NaN. -/
theorem sq_sub_infinite (x : ℚ) (u : Dbl) :
    (u = .nan → mul (sub (.fin x) u) (sub (.fin x) u) = .nan) ∧
    ((u = .pinf ∨ u = .ninf) → mul (sub (.fin x) u) (sub (.fin x) u) = .pinf) := by
  refine ⟨?_, ?_⟩
  · intro h; subst h; rfl
  · intro h
    rcases h with h | h <;> subst h <;> rfl

theorem squaredDistance_degenerate (x y : ℚ) (nx ny : Dbl) :
    (nx ≠ .fin 0 ∧ nx ≠ .nan ∧ ny ≠ .fin 0 ∧ ny ≠ .nan →
      sqrt (squaredDistance ⟨.fin x, .fin y⟩ (div nx (.fin 0)) (div ny (.fin 0))) = .pinf) ∧
    (¬ (nx ≠ .fin 0 ∧ nx ≠ .nan ∧ ny ≠ .fin 0 ∧ ny ≠ .nan) →
      sqrt (squaredDistance ⟨.fin x, .fin y⟩ (div nx (.fin 0)) (div ny (.fin 0))) = .nan) := by
  unfold squaredDistance
  simp only
  rcases div_zero_cases nx with ⟨hx, hx'⟩ | ⟨hx, hx1, hx2⟩ <;>
    rcases div_zero_cases ny with ⟨hy, hy'⟩ | ⟨hy, hy1, hy2⟩
  · refine ⟨fun h => ?_, fun _ => ?_⟩
    · rcases hx' with e | e
      · exact absurd e h.1
      · exact absurd e h.2.1
    · rw [(sq_sub_infinite x _).1 hx, (sq_sub_infinite y _).1 hy]; rfl
  · refine ⟨fun h => ?_, fun _ => ?_⟩
    · rcases hx' with e | e
      · exact absurd e h.1
      · exact absurd e h.2.1
    · rw [(sq_sub_infinite x _).1 hx, (sq_sub_infinite y _).2 hy]; rfl
  · refine ⟨fun h => ?_, fun _ => ?_⟩
    · rcases hy' with e | e
      · exact absurd e h.2.2.1
      · exact absurd e h.2.2.2
    · rw [(sq_sub_infinite x _).2 hx, (sq_sub_infinite y _).1 hy]; rfl
  · refine ⟨fun _ => ?_, fun h => ?_⟩
    · rw [(sq_sub_infinite x _).2 hx, (sq_sub_infinite y _).2 hy]; rfl
    · exact absurd ⟨hx1, hx2, hy1, hy2⟩ h

/-- C11, refuted as stated, in `double` arithmetic. On the point list (0,0), (2,4),
(2,4), (3,5), (1,2), (4,0) the working list of `computeDelaunay` holds, after five
insertions, the triangle (0,1,4) of the collinear points (0,0), (2,4), (1,2); its
denominator d is 0, its numerators are 20 and -10, and `isPointInCircumcircle` returns
true for the point 5 = (4,0) inserted next, where the claim says false. -/
theorem degenerate_circumcircle_holds_every_point :
    (⟨0, 1, 4⟩ : Delaunay.Triangle) ∈
      workingList (Delaunay.widgetOf degenerateInput).points 5 ∧
    circumDenominator ⟨.fin 0, .fin 0⟩ ⟨.fin 2, .fin 4⟩ ⟨.fin 1, .fin 2⟩ = .fin 0 ∧
    circumNumeratorX ⟨.fin 0, .fin 0⟩ ⟨.fin 2, .fin 4⟩ ⟨.fin 1, .fin 2⟩ = .fin 20 ∧
    circumNumeratorY ⟨.fin 0, .fin 0⟩ ⟨.fin 2, .fin 4⟩ ⟨.fin 1, .fin 2⟩ = .fin (-10) ∧
    isPointInCircumcircle (position (Delaunay.widgetOf degenerateInput).points 0)
      (position (Delaunay.widgetOf degenerateInput).points 1)
      (position (Delaunay.widgetOf degenerateInput).points 4)
      (position (Delaunay.widgetOf degenerateInput).points 5) = true :=
  ⟨by decide!, by decide!, by decide!, by decide!, by decide!⟩

/-- C11, amended: in `double` arithmetic, for all points a, b, c with finite coordinates
whose circumcircle denominator d, as computed, is zero and for every point p with finite
coordinates, `isPointInCircumcircle` divides by zero without a guard and returns true
exactly when both numerators, as computed, are neither zero nor NaN (both quotients are
then infinite, and `distance` and `radius` are both +inf); otherwise a quotient is NaN,
so are `radius` and `distance`, and it returns false. The answer does not depend on p. -/
theorem degenerate_circumcircle_test (ax ay px py : ℚ) (b c : DPoint)
    (hd : circumDenominator ⟨.fin ax, .fin ay⟩ b c = .fin 0) :
    (isPointInCircumcircle ⟨.fin ax, .fin ay⟩ b c ⟨.fin px, .fin py⟩ = true ↔
      circumNumeratorX ⟨.fin ax, .fin ay⟩ b c ≠ .fin 0 ∧
      circumNumeratorX ⟨.fin ax, .fin ay⟩ b c ≠ .nan ∧
      circumNumeratorY ⟨.fin ax, .fin ay⟩ b c ≠ .fin 0 ∧
      circumNumeratorY ⟨.fin ax, .fin ay⟩ b c ≠ .nan) ∧
    (∀ qx qy : ℚ, isPointInCircumcircle ⟨.fin ax, .fin ay⟩ b c ⟨.fin qx, .fin qy⟩ =
      isPointInCircumcircle ⟨.fin ax, .fin ay⟩ b c ⟨.fin px, .fin py⟩) := by
  have key : ∀ qx qy : ℚ,
      isPointInCircumcircle ⟨.fin ax, .fin ay⟩ b c ⟨.fin qx, .fin qy⟩ =
        decide (circumNumeratorX ⟨.fin ax, .fin ay⟩ b c ≠ .fin 0 ∧
          circumNumeratorX ⟨.fin ax, .fin ay⟩ b c ≠ .nan ∧
          circumNumeratorY ⟨.fin ax, .fin ay⟩ b c ≠ .fin 0 ∧
          circumNumeratorY ⟨.fin ax, .fin ay⟩ b c ≠ .nan) := by
    intro qx qy
    rw [ieee_isPointInCircumcircle_eq, hd]
    by_cases h : circumNumeratorX ⟨.fin ax, .fin ay⟩ b c ≠ .fin 0 ∧
          circumNumeratorX ⟨.fin ax, .fin ay⟩ b c ≠ .nan ∧
          circumNumeratorY ⟨.fin ax, .fin ay⟩ b c ≠ .fin 0 ∧
          circumNumeratorY ⟨.fin ax, .fin ay⟩ b c ≠ .nan
    · rw [(squaredDistance_degenerate qx qy _ _).1 h,
        (squaredDistance_degenerate ax ay _ _).1 h, decide_eq_true h]
      rfl
    · rw [(squaredDistance_degenerate qx qy _ _).2 h,
        (squaredDistance_degenerate ax ay _ _).2 h, decide_eq_false h]
      rfl
  refine ⟨?_, ?_⟩
  · rw [key]; simp
  · intro qx qy; rw [key, key]

/-- Witness for C11 as amended: the collinear points (0,0), (2,4), (1,2), whose
numerators 20 and -10 are both non-zero, and the point (4,0). -/
theorem degenerate_circumcircle_test_witness :
    isPointInCircumcircle ⟨.fin 0, .fin 0⟩ ⟨.fin 2, .fin 4⟩ ⟨.fin 1, .fin 2⟩
        ⟨.fin 4, .fin 0⟩ = true ↔
      circumNumeratorX ⟨.fin 0, .fin 0⟩ ⟨.fin 2, .fin 4⟩ ⟨.fin 1, .fin 2⟩ ≠ .fin 0 ∧
      circumNumeratorX ⟨.fin 0, .fin 0⟩ ⟨.fin 2, .fin 4⟩ ⟨.fin 1, .fin 2⟩ ≠ .nan ∧
      circumNumeratorY ⟨.fin 0, .fin 0⟩ ⟨.fin 2, .fin 4⟩ ⟨.fin 1, .fin 2⟩ ≠ .fin 0 ∧
      circumNumeratorY ⟨.fin 0, .fin 0⟩ ⟨.fin 2, .fin 4⟩ ⟨.fin 1, .fin 2⟩ ≠ .nan :=
  (degenerate_circumcircle_test 0 0 4 0 ⟨.fin 2, .fin 4⟩ ⟨.fin 1, .fin 2⟩ (by decide!)).1

end DelaunayIeee

/-! ## Segment intersection in double arithmetic -/

namespace PolygonOpsIeee

theorem eps_eq : eps = .fin (4835703278458517 / 4835703278458516698824704) := by decide!

theorem ieee_lineSegmentIntersection_eq (a1 a2 b1 b2 : DPoint) :
    lineSegmentIntersection a1 a2 b1 b2 =
      if Binary64.lt (Binary64.abs (directionCross a1 a2 b1 b2)) eps then none
      else if Binary64.le (.fin 0) (paramT a1 a2 b1 b2) ∧
          Binary64.le (paramT a1 a2 b1 b2) (.fin 1) ∧
          Binary64.le (.fin 0) (paramU a1 a2 b1 b2) ∧
          Binary64.le (paramU a1 a2 b1 b2) (.fin 1)
        then some (add a1 (smul (sub a2 a1) (paramT a1 a2 b1 b2))) else none := rfl

/-- For a cross product that is not a NaN, `!(|cross| < 1e-9)` is `|cross| >= 1e-9`. -/
theorem not_lt_eps (c : Dbl) (hc : c ≠ .nan) :
    Binary64.lt (Binary64.abs c) eps = false ↔ Binary64.le eps (Binary64.abs c) = true := by
  rw [eps_eq]
  cases c with
  | fin q => simp [Binary64.abs, Binary64.lt, Binary64.le]
  | pinf => simp [Binary64.abs, Binary64.lt, Binary64.le]
  | ninf => simp [Binary64.abs, Binary64.lt, Binary64.le]
  | nan => exact absurd rfl hc

theorem paramT_nan (a1 a2 b1 b2 : DPoint) (h : directionCross a1 a2 b1 b2 = .nan) :
    Binary64.le (.fin 0) (paramT a1 a2 b1 b2) = false := by
  unfold paramT
  rw [h]
  cases cross (sub b1 a1) (sub b2 b1) <;> rfl

end PolygonOpsIeee
